import Mathlib

/-!
VAST importer: persistent ID blocks

A shallow embedding of `libvast/src/system/importer.cpp`.

* Unsigned 64-bit integers are natural numbers; every C++ operation that may wrap is
  written with an explicit `% u64_size`.
* The state file `<dir>/current_id_block` is a list of characters.  Writing goes through
  `print_u64` (the decimal output of `operator<<`), reading through `extract_u64`
  (formatted input `operator>>` into a `uint64_t`).
* The only part of the file system the importer touches is its directory, which is
  either missing, present without a state file, or present with a state file.
  Opening the output stream in an existing directory is taken to succeed;
  `mkdir` may fail.
* The `while` loop of `get_next_block` runs on fuel.  The value of `end` returns to
  where it started after `2^64 / 8Mi = 2^41` additions, so `2^41 + 1` rounds decide
  whether the loop ever exits; `none` stands for a call that never returns.
-/

namespace vast.system

/-! ## Machine integers and literals -/

/-- Number of values of a `uint64_t`. -/
def u64_size : Nat := 18446744073709551616

/-- Modelled from the spec: the literal `8_Mi` of `vast/si_literals.hpp`, which is
8 * 2^20. -/
def block_size : Nat := 8388608

/-- Number of additions of `8_Mi` after which a `uint64_t` is back at its start. -/
def loop_period : Nat := 2199023255552

/-! ## Text of the state file -/

/-- Decimal output of an unsigned integer, as `operator<<` produces it. -/
def print_u64 (n : Nat) : List Char := Nat.toDigits 10 n

/-- The whitespace of the C locale, skipped by formatted input. -/
def isspace (c : Char) : Bool :=
  c.toNat = 32 || (9 ≤ c.toNat && c.toNat ≤ 13)

/-- A decimal digit. -/
def isdigit (c : Char) : Bool := 48 ≤ c.toNat && c.toNat ≤ 57

/-- Value of a decimal digit. -/
def digit_value (c : Char) : Nat := c.toNat - 48

/-- Skip leading whitespace. -/
def skipws : List Char → List Char
  | [] => []
  | c :: cs => if isspace c then skipws cs else c :: cs

/-- Accumulate the longest run of digits; returns the value and the unread rest. -/
def read_digits : List Char → Nat → Nat × List Char
  | [], acc => (acc, [])
  | c :: cs, acc =>
    if isdigit c then read_digits cs (acc * 10 + digit_value c) else (acc, c :: cs)

/-- Outcome of `stream >> x` for a `uint64_t x`. -/
inductive extracted where
  /-- The stream stays good, `v` is stored, `rest` is still unread. -/
  | ok (v : Nat) (rest : List Char)
  /-- The stream fails.  `stored` is what the failed extraction wrote to the target:
  nothing when the input ended before a field began, `0` when no number could be
  read, the largest value when the number does not fit. -/
  | fail (stored : Option Nat)
  deriving DecidableEq, Repr

/-- Formatted input of a `uint64_t`: skip whitespace, accept one optional sign,
read decimal digits, fail on an empty field and on a value that does not fit.
A leading minus sign negates modulo 2^64, as `strtoull` does. -/
def extract_u64 (s : List Char) : extracted :=
  match skipws s with
  | [] => .fail none
  | c :: cs =>
    let body := if c = '-' ∨ c = '+' then cs else c :: cs
    match body with
    | [] => .fail (some 0)
    | d :: _ =>
      if isdigit d then
        let r := read_digits body 0
        if r.1 < u64_size then
          .ok (if c = '-' then (u64_size - r.1) % u64_size else r.1) r.2
        else .fail (some (u64_size - 1))
      else .fail (some 0)

/-! ## State -/

/-- The pair `current` of the importer: the half-open block `[next, end)`. -/
structure id_block where
  next : Nat
  end_ : Nat
  deriving DecidableEq, Repr

/-- What the importer can find at `dir`. -/
inductive dir_state where
  /-- The directory `dir` does not exist. -/
  | absent
  /-- The directory exists and holds no `current_id_block`. -/
  | no_file
  /-- The directory holds `current_id_block` with this text. -/
  | file (text : List Char)
  deriving DecidableEq, Repr

/-- The file system as far as the importer sees it. -/
structure filesystem where
  dir : dir_state
  /-- Whether `mkdir(dir)` succeeds when the directory is missing. -/
  mkdir_ok : Bool
  deriving DecidableEq, Repr

/-- Error codes the importer can return. -/
inductive ec where
  /-- The error `ec::parse_error` made in `read_state`. -/
  | parse_error
  /-- The error reported by a failing `mkdir(dir)`. -/
  | filesystem_error
  deriving DecidableEq, Repr

/-- The two ways of persisting the block. -/
inductive write_mode where
  | with_next
  | without_next
  deriving DecidableEq, Repr

/-- The importer state that matters for ID allocation, together with the file
system it persists to. -/
structure importer_state where
  current : id_block
  fs : filesystem
  deriving DecidableEq, Repr

/-! ## Operations -/

/-- Text written by `write_state`: `end`, and with `with_next` a space and `next`. -/
def state_text (mode : write_mode) (current : id_block) : List Char :=
  match mode with
  | .with_next => print_u64 current.end_ ++ ' ' :: print_u64 current.next
  | .without_next => print_u64 current.end_

/-- `importer_state::write_state`: create the directory when it is missing, returning
the error of `mkdir` if that fails; then overwrite the state file. -/
def write_state (mode : write_mode) (st : importer_state) : Option ec × importer_state :=
  match st.fs.dir with
  | .absent =>
    if st.fs.mkdir_ok then
      (none, { st with fs := { st.fs with dir := .file (state_text mode st.current) } })
    else (some ec.filesystem_error, st)
  | _ => (none, { st with fs := { st.fs with dir := .file (state_text mode st.current) } })

/-- The loop `while (current.next + required >= current.end) current.end += 8_Mi;`
returning the final `end`, or `none` when the fuel runs out. -/
def get_next_block_loop : Nat → Nat → Nat → Nat → Option Nat
  | 0, _, _, _ => none
  | fuel + 1, next, required, end_ =>
    if (next + required) % u64_size ≥ end_ then
      get_next_block_loop fuel next required ((end_ + block_size) % u64_size)
    else some end_

/-- `importer_state::get_next_block`: advance `end`, then persist it without `next`.
`none` when the loop never exits. -/
def get_next_block (required : Nat) (st : importer_state) :
    Option (Option ec × importer_state) :=
  match get_next_block_loop (loop_period + 1) st.current.next required st.current.end_ with
  | none => none
  | some e =>
    some (write_state .without_next { st with current := { st.current with end_ := e } })

/-- `importer_state::next_id`: the result of `get_next_block` is dropped. -/
def next_id (advance : Nat) (st : importer_state) : Option (Nat × importer_state) :=
  let pre := st.current.next
  let post := (pre + advance) % u64_size
  let blocked : Option importer_state :=
    if post ≥ st.current.end_ then (get_next_block advance st).map Prod.snd else some st
  blocked.map fun st1 => (pre, { st1 with current := { st1.current with next := post } })

/-- `importer_state::read_state`. -/
def read_state (st : importer_state) : Option (Option ec × importer_state) :=
  match st.fs.dir with
  | .file text =>
    match extract_u64 text with
    | .fail stored =>
      some (some ec.parse_error,
        { st with current := { st.current with end_ := stored.getD st.current.end_ } })
    | .ok e rest =>
      match extract_u64 rest with
      | .ok n _ => get_next_block 0 { st with current := ⟨n, e⟩ }
      | .fail _ => get_next_block 0 { st with current := ⟨e, e⟩ }
  | _ => get_next_block 0 { st with current := ⟨0, 0⟩ }

/-- The destructor `importer_state::~importer_state`: persist with `next`, dropping
the result. -/
def destroy (st : importer_state) : filesystem := (write_state .with_next st).2.fs


/-- Modelled from the spec: the constant `max_id` of `vast/aliases.hpp`, the
reserved sentinel 2^64 - 1. -/
def max_id : Nat := 18446744073709551615

/-- `importer_state::available_ids`: `max_id - current.next` on `uint64_t`. -/
def available_ids (st : importer_state) : Nat :=
  (max_id + u64_size - st.current.next) % u64_size

/-- The stream stage handler of `importer` for one slice with `rows` rows: the slice
gets the offset `next_id(rows)`.  The result is the offset and the new state.  The
handler's `VAST_ASSERT` checks `rows <= available_ids()` and changes nothing. -/
def handle_slice (rows : Nat) (st : importer_state) : Option (Nat × importer_state) :=
  next_id rows st

/-- The handler applied to a sequence of slices, given by their row counts, in order.
The result lists the offsets the slices received. -/
def handle_slices : List Nat → importer_state → Option (List Nat × importer_state)
  | [], st => some ([], st)
  | k :: ks, st =>
    match handle_slice k st with
    | none => none
    | some (off, st1) =>
      match handle_slices ks st1 with
      | none => none
      | some (offs, st2) => some (off :: offs, st2)

/-- How spawning the importer actor ends. -/
inductive actor where
  /-- The actor called `quit` with this error and installed no handler. -/
  | quit (reason : ec)
  /-- The actor runs with this state and handles slices. -/
  | running (st : importer_state)
  deriving DecidableEq, Repr

/-- The start of the actor function `importer`: load the state, quit on an error. -/
def importer (st : importer_state) : Option actor :=
  match read_state st with
  | none => none
  | some (some err, _) => some (.quit err)
  | some (none, st1) => some (.running st1)

/-- The IDs a run of the handler handed out: `x` lies in the range
`[offset, offset + rows)` of one of the slices. -/
def handed_out (offs ks : List Nat) (x : Nat) : Prop :=
  ∃ p ∈ offs.zip ks, p.1 ≤ x ∧ x < p.1 + p.2

/-- The importer states a program run can be in: after a start in a directory without
state file, after any number of `next_id` calls, and after restarts that follow a
crash (the memory is lost, the file system stays) or a clean shutdown (the destructor
has run).  With `asserted` the calls of `next_id` keep to the precondition the stream
handler asserts, `rows <= available_ids()`. -/
inductive reachable (asserted : Bool) : importer_state → Prop where
  | start (c0 : id_block) (fs : filesystem) (st : importer_state) :
      (∀ t, fs.dir ≠ .file t) → read_state ⟨c0, fs⟩ = some (none, st) →
      reachable asserted st
  | call (st : importer_state) (k off : Nat) (st1 : importer_state) :
      reachable asserted st → (asserted = true → k ≤ available_ids st) →
      next_id k st = some (off, st1) → reachable asserted st1
  | crash_restart (st : importer_state) (c0 : id_block) (st1 : importer_state) :
      reachable asserted st → read_state ⟨c0, st.fs⟩ = some (none, st1) →
      reachable asserted st1
  | clean_restart (st : importer_state) (c0 : id_block) (st1 : importer_state) :
      reachable asserted st → read_state ⟨c0, destroy st⟩ = some (none, st1) →
      reachable asserted st1

/-! ## Auxiliary notions for the proofs -/

/-- Value of a digit string read from the left, starting from `acc`. -/
def digits_value (acc : Nat) (ds : List Char) : Nat :=
  ds.foldl (fun a c => a * 10 + digit_value c) acc

/-- The states a running importer keeps to: the file holds `end` alone, and
`next < end <= next + 8Mi` within 64 bits. -/
def block_persisted (st : importer_state) : Prop :=
  st.fs.dir = .file (print_u64 st.current.end_) ∧
    st.current.next < st.current.end_ ∧
    st.current.end_ ≤ st.current.next + block_size ∧
    st.current.end_ < u64_size

/-! ## Status report -/

/-- Modelled from the spec: the enumeration `status_verbosity` that `status(verbosity)`
takes, which is not among the sources; its levels in increasing order. -/
inductive status_verbosity where
  | info
  | detailed
  | debug
  deriving DecidableEq, Repr

/-- Position of a verbosity level in the enumeration. -/
def status_verbosity.level : status_verbosity → Nat
  | .info => 0
  | .detailed => 1
  | .debug => 2

/-- A CAF dictionary as far as `status` fills it: keys with string values, in
insertion order.  A key with dots, as in `ids.block.next`, names the path through
nested dictionaries that `caf::put` makes of it. -/
abbrev settings := List (String × List Char)

/-- `caf::put`: set the entry of `key`, replacing an older entry of that key. -/
def put : settings → String → List Char → settings
  | [], key, value => [(key, value)]
  | (k, v) :: rest, key, value =>
    if k = key then (key, value) :: rest else (k, v) :: put rest key value

/-- `importer_state::status`.  The result has the one entry `importer`.  The helper
`detail::fill_status_map`, which is not among the sources, is a parameter. -/
def status (fill_status_map : settings → settings) (v : status_verbosity)
    (st : importer_state) : List (String × settings) :=
  let importer_status : settings := []
  let with_ids : settings :=
    if status_verbosity.detailed.level ≤ v.level then
      put (put (put importer_status "ids.available" (print_u64 (available_ids st)))
        "ids.block.next" (print_u64 st.current.next))
        "ids.block.end" (print_u64 st.current.end_)
    else importer_status
  let filled : settings :=
    if status_verbosity.debug.level ≤ v.level then fill_status_map with_ids else with_ids
  [("importer", filled)]

end vast.system

/-!
Column indexes and synopses

The sources hold the unit tests `test/column_index.cpp` and `test/synopsis.cpp`, not
the classes under test.  The definitions of this part follow the specification of the
bitmap, the value index, the column index and the min-max synopsis, and are checked
against the expectations of the tests.
-/

namespace vast

/-! ## Bitmaps -/

/-- Modelled from the spec: the bitmap (section 4.1), which is not among the sources: a
sequence of homogeneous runs `(bit, length)` whose logical length is the sum of the
run lengths. -/
structure bitmap where
  runs : List (Bool × Nat)
  deriving DecidableEq, Repr

/-- Extend runs by `k` copies of `bit`: extend the last run when it has the same bit,
else push a new run. -/
def append_run : List (Bool × Nat) → Bool → Nat → List (Bool × Nat)
  | [], bit, k => [(bit, k)]
  | [r], bit, k => if r.1 = bit then [(r.1, r.2 + k)] else [r, (bit, k)]
  | r :: r2 :: rs, bit, k => r :: append_run (r2 :: rs) bit k

/-- The individual bits a sequence of runs stands for. -/
def bits_of_runs : List (Bool × Nat) → List Bool
  | [] => []
  | r :: rs => List.replicate r.2 r.1 ++ bits_of_runs rs

/-- The positions `start + i` of the set bits `i`. -/
def positions_from : Nat → List Bool → List Nat
  | _, [] => []
  | start, b :: bs =>
    if b then start :: positions_from (start + 1) bs else positions_from (start + 1) bs

/-- Bitwise OR of two bit sequences; the longer one sets the length. -/
def or_bits : List Bool → List Bool → List Bool
  | [], ys => ys
  | x :: xs, [] => x :: xs
  | x :: xs, y :: ys => (x || y) :: or_bits xs ys

/-- The bitmap without bits. -/
def bitmap.empty : bitmap := ⟨[]⟩

/-- Modelled from the spec: `append(bit, k)`, the sole mutation of a bitmap; a run of
length 0 is never stored. -/
def bitmap.append (b : bitmap) (bit : Bool) (k : Nat) : bitmap :=
  if k = 0 then b else ⟨append_run b.runs bit k⟩

/-- The bits of a bitmap, position by position. -/
def bitmap.bits (b : bitmap) : List Bool := bits_of_runs b.runs

/-- Logical length: the sum of the run lengths. -/
def bitmap.size (b : bitmap) : Nat := (b.runs.map Prod.snd).sum

/-- The set positions, in increasing order. -/
def bitmap.positions (b : bitmap) : List Nat := positions_from 0 b.bits

/-- Bitwise NOT. -/
def bitmap.flip (b : bitmap) : bitmap := ⟨b.runs.map fun r => (!r.1, r.2)⟩

/-- The bitmap built by appending the given bits one at a time. -/
def bitmap.of_bits (l : List Bool) : bitmap :=
  l.foldl (fun b bit => b.append bit 1) bitmap.empty

/-- Bitwise OR. -/
def bitmap.or (a b : bitmap) : bitmap := bitmap.of_bits (or_bits a.bits b.bits)

/-! ## Value index and column index -/

/-- Modelled from the spec: the operators of a predicate (section 4.8), with the
negated forms that the twelve answers per operand in `test/synopsis.cpp` stand for,
in the order of those answers. -/
inductive relational_operator where
  | match_
  | not_match
  | in_
  | not_in
  | ni
  | not_ni
  | eq
  | ne
  | lt
  | le
  | gt
  | ge
  deriving DecidableEq, Repr

/-- Modelled from the spec: the value index (section 3), which is not among the
sources.  It holds one bitmap per value and the length `size` of the universe
`[0, size)` it has seen. -/
structure value_index (α : Type) where
  bitmaps : List (α × bitmap)
  size : Nat

/-- The bitmap stored for a value, empty when the value never occurred. -/
def bitmap_of {α : Type} [DecidableEq α] : List (α × bitmap) → α → bitmap
  | [], _ => bitmap.empty
  | e :: rest, v => if e.1 = v then e.2 else bitmap_of rest v

/-- Set bit `id` in the bitmap of `v`, filling the gap before it with zeros. -/
def set_bit {α : Type} [DecidableEq α] : List (α × bitmap) → α → Nat → List (α × bitmap)
  | [], v, id => [(v, (bitmap.empty.append false id).append true 1)]
  | e :: rest, v, id =>
    if e.1 = v then (e.1, (e.2.append false (id - e.2.size)).append true 1) :: rest
    else e :: set_bit rest v id

/-- Modelled from the spec: `append(value, id)`.  The position has to lie beyond every
position appended before; an append that does not is dropped. -/
def value_index.append {α : Type} [DecidableEq α] (idx : value_index α) (v : α) (id : Nat) :
    value_index α :=
  if id < idx.size then idx else ⟨set_bit idx.bitmaps v id, id + 1⟩

/-- The bitmap of `v` over the whole universe of the index. -/
def value_index.bitmap_for {α : Type} [DecidableEq α] (idx : value_index α) (v : α) : bitmap :=
  (bitmap_of idx.bitmaps v).append false (idx.size - (bitmap_of idx.bitmaps v).size)

/-- The union of the bitmaps of the values that satisfy `p`. -/
def value_index.union {α : Type} [DecidableEq α] (idx : value_index α) (p : α → Bool) :
    bitmap :=
  idx.bitmaps.foldl
    (fun acc e => if p e.1 then acc.or (idx.bitmap_for e.1) else acc)
    (bitmap.empty.append false idx.size)

/-- Modelled from the spec: `lookup(op, value)` of a value index of an ordered type.
`ne` is NOT `eq` over the universe; the range operators unite the bitmaps of the
values in range; the other operators do not apply to a scalar operand and give no
hits. -/
def value_index.lookup {α : Type} [LinearOrder α] (idx : value_index α)
    (op : relational_operator) (x : α) : bitmap :=
  match op with
  | .eq => idx.bitmap_for x
  | .ne => (idx.bitmap_for x).flip
  | .lt => idx.union fun a => decide (a < x)
  | .le => idx.union fun a => decide (a ≤ x)
  | .gt => idx.union fun a => decide (x < a)
  | .ge => idx.union fun a => decide (x ≤ a)
  | _ => bitmap.empty.append false idx.size

/-- Modelled from the spec: an attribute of a type, a key with an optional value. -/
structure type_attribute where
  key : String
  value : Option String
  deriving DecidableEq, Repr

/-- Modelled from the spec: the type of a field as far as a column index looks at it:
the tag of its semantic type, its name and its attributes. -/
structure field_type where
  kind : Nat
  name : String
  attributes : List type_attribute
  deriving DecidableEq, Repr

/-- Whether the type carries the attribute `skip`. -/
def has_skip (t : field_type) : Bool := t.attributes.any fun a => decide (a.key = "skip")

/-- One column of a table slice: the offset of the slice and the cells of the column,
row by row; a null cell is `none`. -/
structure table_slice_column (α : Type) where
  offset : Nat
  cells : List (Option α)

/-- Modelled from the spec: the column index (section 4.3), which is not among the
sources.  It owns one value index and the base offset of its partition. -/
structure column_index (α : Type) where
  type : field_type
  base : Nat
  idx : value_index α

/-- The column index before any slice was added. -/
def column_index.fresh {α : Type} (t : field_type) (base : Nat) : column_index α :=
  ⟨t, base, ⟨[], 0⟩⟩

/-- Whether the column index was made for a type with the attribute `skip`. -/
def column_index.has_skip_attribute {α : Type} (c : column_index α) : Bool :=
  has_skip c.type

/-- Modelled from the spec: a row without a value at position `id`: no bitmap gets a
bit, and the universe of the index grows to include the position, so that the length
of the index is the number of rows of the partition (section 8, invariant 3). -/
def value_index.extend {α : Type} (idx : value_index α) (id : Nat) : value_index α :=
  if id < idx.size then idx else ⟨idx.bitmaps, id + 1⟩

/-- The rows of one slice, in order, from row `r` on: for a null cell no value is
appended and the index only grows by the row; every other cell is appended at
`offset + r - base`. -/
def add_rows {α : Type} [DecidableEq α] (base offset : Nat) :
    value_index α → Nat → List (Option α) → value_index α
  | idx, _, [] => idx
  | idx, r, none :: cs => add_rows base offset (idx.extend (offset + r - base)) (r + 1) cs
  | idx, r, some v :: cs => add_rows base offset (idx.append v (offset + r - base)) (r + 1) cs

/-- Modelled from the spec: `add(slice, column)`.  A column with the attribute `skip`
has no value index and takes nothing in. -/
def column_index.add {α : Type} [DecidableEq α] (c : column_index α)
    (s : table_slice_column α) : column_index α :=
  if c.has_skip_attribute then c
  else { c with idx := add_rows c.base s.offset c.idx 0 s.cells }

/-- Modelled from the spec: `lookup(op, literal)`: delegate to the value index; the
empty bitmap when the attribute `skip` is present. -/
def column_index.lookup {α : Type} [LinearOrder α] (c : column_index α)
    (op : relational_operator) (x : α) : bitmap :=
  if c.has_skip_attribute then bitmap.empty else c.idx.lookup op x

/-! ## Persisting a column index -/

/-- Modelled from the spec: what the factory registered for one semantic type does
with a value: serialize it to words, and read it back from the front of a word
sequence, with the round-trip law of section 8. -/
structure codec (α : Type) where
  encode : α → List Nat
  decode : List Nat → Option (α × List Nat)
  decode_encode : ∀ a rest, decode (encode a ++ rest) = some (a, rest)

/-- Words of the runs of a bitmap: a bit and a length per run. -/
def encode_runs : List (Bool × Nat) → List Nat
  | [] => []
  | r :: rs => (if r.1 then 1 else 0) :: r.2 :: encode_runs rs

/-- Read `n` runs back. -/
def decode_runs : Nat → List Nat → Option (List (Bool × Nat) × List Nat)
  | 0, ws => some ([], ws)
  | n + 1, bit :: len :: ws =>
    if bit ≤ 1 then
      match decode_runs n ws with
      | some (rs, rest) => some ((decide (bit = 1), len) :: rs, rest)
      | none => none
    else none
  | _ + 1, _ => none

/-- Words of the entries of a value index: the value, the number of runs, the runs. -/
def encode_entries {α : Type} (c : codec α) : List (α × bitmap) → List Nat
  | [] => []
  | e :: es => c.encode e.1 ++ e.2.runs.length :: (encode_runs e.2.runs ++ encode_entries c es)

/-- Read `n` entries back. -/
def decode_entries {α : Type} (c : codec α) :
    Nat → List Nat → Option (List (α × bitmap) × List Nat)
  | 0, ws => some ([], ws)
  | n + 1, ws =>
    match c.decode ws with
    | some (v, k :: ws1) =>
      match decode_runs k ws1 with
      | some (rs, ws2) =>
        match decode_entries c n ws2 with
        | some (es, rest) => some ((v, ⟨rs⟩) :: es, rest)
        | none => none
      | none => none
    | _ => none

/-- Errors of loading a column index. -/
inductive load_error where
  /-- The persisted file is malformed. -/
  | corruption
  deriving DecidableEq, Repr

/-- Modelled from the spec: the column file (section 6).  The header records the
semantic type and the base offset; the payload is the value index. -/
def column_index.serialize {α : Type} (c : codec α) (col : column_index α) : List Nat :=
  col.type.kind :: col.base :: col.idx.size :: col.idx.bitmaps.length ::
    encode_entries c col.idx.bitmaps

/-- Modelled from the spec: `flush_to_disk`: write the single file of the column.  The
directory is given by what it holds for this column, and the result is what it holds
afterwards.  A column with the attribute `skip` has nothing to write. -/
def column_index.flush_to_disk {α : Type} (c : codec α) (col : column_index α)
    (directory : Option (List Nat)) : Option (List Nat) :=
  if col.has_skip_attribute then directory else some (col.serialize c)

/-- Modelled from the spec: loading the column file; a file that is malformed, or was
written for another semantic type, is a corruption error. -/
def column_index.load {α : Type} (c : codec α) (t : field_type) :
    List Nat → Except load_error (column_index α)
  | kind :: base :: size :: n :: ws =>
    if kind = t.kind then
      match decode_entries c n ws with
      | some (es, []) => .ok ⟨t, base, ⟨es, size⟩⟩
      | _ => .error .corruption
    else .error .corruption
  | _ => .error .corruption

/-- Modelled from the spec: `make_column_index`: a fresh column index of the given type
for a partition with base offset `base`, or the one loaded from the file found in the
directory. -/
def make_column_index {α : Type} (c : codec α) (directory : Option (List Nat)) (base : Nat)
    (t : field_type) : Except load_error (column_index α) :=
  if has_skip t then .ok (column_index.fresh t base)
  else
    match directory with
    | none => .ok (column_index.fresh t base)
    | some file => column_index.load c t file

/-- Slices that follow each other without gap, the first one at `base`. -/
def dense {α : Type} : Nat → List (table_slice_column α) → Prop
  | _, [] => True
  | base, s :: rest => s.offset = base ∧ dense (base + s.cells.length) rest

/-- All cells of a sequence of slices, in row order. -/
def all_cells {α : Type} : List (table_slice_column α) → List (Option α)
  | [] => []
  | s :: rest => s.cells ++ all_cells rest

/-- Adding a sequence of slices, in order. -/
def column_index.add_all {α : Type} [DecidableEq α] (c : column_index α)
    (slices : List (table_slice_column α)) : column_index α :=
  slices.foldl column_index.add c

/-- What the value index holds after the rows `cells`: its universe is the rows, and
the bitmap of every value marks the rows holding it. -/
def indexed {α : Type} [DecidableEq α] (idx : value_index α) (cells : List (Option α)) :
    Prop :=
  idx.size = cells.length ∧
    ∀ v, (bitmap_of idx.bitmaps v).size ≤ idx.size ∧
      (idx.bitmap_for v).bits = cells.map fun c => decide (c = some v)

/-- Words of an integer: sign and magnitude. -/
def int_codec : codec Int where
  encode i := [if i < 0 then 1 else 0, i.natAbs]
  decode ws :=
    match ws with
    | s :: m :: rest => some (if s = 1 then -(m : Int) else (m : Int), rest)
    | _ => none
  decode_encode := by
    intro a rest
    by_cases h : a < 0
    · have h1 : ((a.natAbs : Nat) : Int) = -a := Int.ofNat_natAbs_of_nonpos (le_of_lt h)
      simp [h, h1]
    · have h1 : ((a.natAbs : Nat) : Int) = a := Int.natAbs_of_nonneg (not_lt.mp h)
      simp [h, h1]

end vast

namespace vast

/-! ## Min-max synopsis -/

/-- Modelled from the spec: a data value (section 3), as far as operands of a synopsis
lookup go.  A time value is a number of nanoseconds since the epoch. -/
inductive data where
  | none
  | bool (b : Bool)
  | integer (i : Int)
  | count (c : Nat)
  | time (t : Int)
  | duration (d : Int)
  | string (s : String)
  | list (xs : List data)

/-- Modelled from the spec: the min-max synopsis of a time column, which is not among
the sources: the least and the greatest value added, `none` before the first value. -/
structure min_max_synopsis where
  range : Option (Int × Int)
  deriving DecidableEq, Repr

/-- The synopsis the factory makes for the time type. -/
def min_max_synopsis.make : min_max_synopsis := ⟨none⟩

/-- Modelled from the spec: `add` widens the range to a time value; a value of another
type is not taken in. -/
def min_max_synopsis.add (s : min_max_synopsis) (x : data) : min_max_synopsis :=
  match x with
  | .time t =>
    match s.range with
    | none => ⟨some (t, t)⟩
    | some r => ⟨some (min r.1 t, max r.2 t)⟩
  | _ => s

/-- The answer of the range `[min, max]` to a comparison with the time `x`. -/
def min_max_synopsis.lookup_impl (s : min_max_synopsis) (op : relational_operator)
    (x : Int) : Bool :=
  match s.range with
  | none => decide (op = .ne)
  | some r =>
    match op with
    | .eq => decide (r.1 ≤ x ∧ x ≤ r.2)
    | .ne => !decide (r.1 ≤ x ∧ x ≤ r.2)
    | .lt => decide (r.1 < x)
    | .le => decide (r.1 ≤ x)
    | .gt => decide (x < r.2)
    | .ge => decide (x ≤ r.2)
    | _ => false

/-- A comparison answers only an operand that is a time value. -/
def min_max_synopsis.do_lookup (s : min_max_synopsis) (op : relational_operator)
    (rhs : data) : Option Bool :=
  match rhs with
  | .time x => some (s.lookup_impl op x)
  | _ => none

/-- Membership answers only a list operand: whether some element compares equal. -/
def min_max_synopsis.membership (s : min_max_synopsis) (rhs : data) : Option Bool :=
  match rhs with
  | .list xs => some (xs.any fun x => s.do_lookup .eq x == some true)
  | _ => none

/-- Modelled from the spec: `lookup(op, operand)` of the min-max synopsis, with the
answers yes (`some true`), no (`some false`) and no answer (`none`), as the twelve
expectations per operand in `test/synopsis.cpp` have them. -/
def min_max_synopsis.lookup (s : min_max_synopsis) (op : relational_operator)
    (rhs : data) : Option Bool :=
  match op with
  | .in_ => s.membership rhs
  | .not_in => (s.membership rhs).map fun b => !b
  | .eq => s.do_lookup op rhs
  | .ne => s.do_lookup op rhs
  | .lt => s.do_lookup op rhs
  | .le => s.do_lookup op rhs
  | .gt => s.do_lookup op rhs
  | .ge => s.do_lookup op rhs
  | _ => none

/-- The synopsis after adding time values in order. -/
def min_max_synopsis.of_times (ts : List Int) : min_max_synopsis :=
  (ts.map data.time).foldl min_max_synopsis.add min_max_synopsis.make

/-- The operators in the order of the answers in `test/synopsis.cpp`. -/
def all_operators : List relational_operator :=
  [.match_, .not_match, .in_, .not_in, .ni, .not_ni, .eq, .ne, .lt, .le, .gt, .ge]

end vast

/-!
Readers

A shallow embedding of `reader::read_impl` of `libvast/src/format/syslog.cpp` and of
the reader of `libvast/src/format/test.cpp`.  A loop that need not end runs on fuel,
and `none` stands for a call that did not return within the fuel.
-/

namespace vast.format

/-- The error codes of `vast::ec` that the readers return. -/
inductive ec where
  | end_of_input
  | timeout
  | format_error
  deriving DecidableEq, Repr

namespace syslog

/-- The two layouts of the syslog reader, `syslog.rfc5424` and `syslog.unknown`. -/
inductive layout where
  | rfc5424
  | unknown
  deriving DecidableEq, Repr

/-- The operations of `detail::line_range`, which is not among the sources, on its
state `σ`: `next_timeout` tells whether it timed out. -/
structure line_range (σ : Type) where
  done : σ → Bool
  next : σ → σ
  next_timeout : σ → Bool × σ
  get : σ → List Char

/-- What `read_impl` relies on besides the line range: the parser of RFC 5424
messages with its result type `μ`, the table slice builders of the base class, and
the clock. -/
structure environment (σ μ : Type) where
  lines : line_range σ
  /-- The result of `message_parser` on a line. -/
  parse : List Char → Option μ
  /-- Whether `builder(type)` returns a null pointer. -/
  builder_null : layout → Bool
  /-- Whether `add` of the builder fails on the row of this line. -/
  add_fails : layout → List Char → Bool
  /-- Whether a builder with rows fails to finish its slice. -/
  finish_fails : Bool
  /-- Whether the read timeout has run out when `next_line` is called in round `i` of
  the loop. -/
  expired : Nat → Bool

/-- The rows the two builders hold. -/
structure builders (μ : Type) where
  rfc5424 : List μ
  unknown : List (List Char)
  deriving DecidableEq

/-- A table slice handed to the consumer. -/
inductive slice (μ : Type) where
  | rfc5424 (rows : List μ)
  | unknown (rows : List (List Char))
  deriving DecidableEq

/-- The state of the reader: the line range, the builders, and the slices the
consumer got. -/
structure reader_state (σ μ : Type) where
  lines : σ
  bs : builders μ
  out : List (slice μ)
  deriving DecidableEq

/-- Number of rows of the builder behind `bptr`; 0 for the null pointer. -/
def builder_rows {μ : Type} (bs : builders μ) : Option layout → Nat
  | none => 0
  | some .rfc5424 => bs.rfc5424.length
  | some .unknown => bs.unknown.length

/-- Number of rows in a slice. -/
def slice.rows {μ : Type} : slice μ → Nat
  | .rfc5424 rows => rows.length
  | .unknown rows => rows.length

/-- Number of rows the reader has taken in: those in the builders and those in the
slices handed out. -/
def total_rows {σ μ : Type} (st : reader_state σ μ) : Nat :=
  st.bs.rfc5424.length + st.bs.unknown.length + (st.out.map slice.rows).sum

/-- The slices of the builders that hold rows. -/
def pending_slices {μ : Type} (bs : builders μ) : List (slice μ) :=
  (if bs.rfc5424.isEmpty then [] else [slice.rfc5424 bs.rfc5424]) ++
    (if bs.unknown.isEmpty then [] else [slice.unknown bs.unknown])

/-- The helper `finish(f, result)` of the base class, which is not among the sources:
every builder with rows hands its slice to the consumer; the result is `result`, or
`format_error` when a slice cannot be finished. -/
def finish {σ μ : Type} (env : environment σ μ) (st : reader_state σ μ)
    (result : Option ec) : Option ec × reader_state σ μ :=
  if (pending_slices st.bs).isEmpty then (result, st)
  else if env.finish_fails then (some ec.format_error, st)
  else (result, { st with bs := ⟨[], []⟩, out := st.out ++ pending_slices st.bs })

/-- The lambda `next_line` of `read_impl` in round `tick`: whether it reports a
timeout, and the line range afterwards. -/
def next_line {σ μ : Type} (env : environment σ μ) (tick : Nat) (bptr : Option layout)
    (st : reader_state σ μ) : Bool × σ :=
  if env.expired tick then (true, st.lines)
  else if builder_rows st.bs bptr = 0 then (false, env.lines.next st.lines)
  else env.lines.next_timeout st.lines

/-- The builder of a layout with one more row. -/
def add_row {μ : Type} (bs : builders μ) (msg : Option μ) (line : List Char) : builders μ :=
  match msg with
  | some m => { bs with rfc5424 := bs.rfc5424 ++ [m] }
  | none => { bs with unknown := bs.unknown ++ [line] }

/-- The layout a line goes to. -/
def layout_of {μ : Type} (msg : Option μ) : layout :=
  match msg with
  | some _ => .rfc5424
  | none => .unknown

/-- The `for` loop of `reader::read_impl`, from round `tick` on with `produced`
events so far.  The result is the error returned (`none` for `caf::none`), the final
value of `produced` and the state of the reader. -/
def read_loop {σ μ : Type} (env : environment σ μ) (max_events max_slice_size : Nat) :
    Nat → Nat → Nat → Option layout → reader_state σ μ →
    Option (Option ec × Nat × reader_state σ μ)
  | 0, _, _, _, _ => none
  | fuel + 1, tick, produced, bptr, st =>
    if produced < max_events then
      if env.lines.done st.lines then
        some ((finish env st (some ec.end_of_input)).1, produced,
          (finish env st (some ec.end_of_input)).2)
      else
        let timeout := (next_line env tick bptr st).1
        let st1 : reader_state σ μ := { st with lines := (next_line env tick bptr st).2 }
        if timeout && decide (produced > 0) then
          some ((finish env st1 (some ec.timeout)).1, produced,
            (finish env st1 (some ec.timeout)).2)
        else
          let line := env.lines.get st1.lines
          if line.isEmpty then
            read_loop env max_events max_slice_size fuel (tick + 1) produced bptr st1
          else
            let msg := env.parse line
            if env.builder_null (layout_of msg) then
              some ((finish env st1 (some ec.format_error)).1, produced,
                (finish env st1 (some ec.format_error)).2)
            else if env.add_fails (layout_of msg) line then
              some ((finish env st1 (some ec.format_error)).1, produced,
                (finish env st1 (some ec.format_error)).2)
            else
              let st2 : reader_state σ μ := { st1 with bs := add_row st1.bs msg line }
              if builder_rows st2.bs (some (layout_of msg)) ≥ max_slice_size then
                match finish env st2 none with
                | (some err, st3) => some (some err, produced, st3)
                | (none, st3) =>
                  read_loop env max_events max_slice_size fuel (tick + 1) (produced + 1)
                    (some (layout_of msg)) st3
              else
                read_loop env max_events max_slice_size fuel (tick + 1) (produced + 1)
                  (some (layout_of msg)) st2
    else some (none, produced, st)

/-- `reader::read_impl`: the loop from `produced = 0` with `bptr = nullptr`. -/
def read_impl {σ μ : Type} (env : environment σ μ) (max_events max_slice_size fuel : Nat)
    (st : reader_state σ μ) : Option (Option ec × Nat × reader_state σ μ) :=
  read_loop env max_events max_slice_size fuel 0 0 none st

/-- A line range over a list of lines, for examples: the current line and the lines
still to come; it is done when nothing is to come; `next_timeout` never times out. -/
def list_lines : line_range (List Char × List (List Char)) where
  done s := s.2.isEmpty
  next s := (s.2.headD [], s.2.tail)
  next_timeout s := (false, (s.2.headD [], s.2.tail))
  get s := s.1

end syslog

end vast.format

namespace vast.format.test

/-! ## The test reader -/

/-- The largest value of a `size_t`. -/
def size_max : Nat := 18446744073709551615

/-- A type of a schema as far as the test reader looks at it: its name. -/
structure schema_type where
  name : List Char
  deriving DecidableEq, Repr, Inhabited

/-- The helper `detail::split`, which is not among the sources: the parts of a string
between the occurrences of the separator. -/
def split (sep : Char) : List Char → List (List Char)
  | [] => [[]]
  | c :: cs =>
    if c = sep then [] :: split sep cs
    else
      match split sep cs with
      | [] => [[c]]
      | p :: ps => (c :: p) :: ps

/-- The test of `reader::schema` on a type name: two parts around one dot, the first
of them `test`. -/
def is_test_type (t : schema_type) : Bool :=
  match split '.' t.name with
  | [a, _] => decide (a = ['t', 'e', 's', 't'])
  | _ => false

/-- What the reader relies on: `make_blueprint`, whose distributions are floating-point
numbers, with its result type `β`, and the table slice builders of the base class. -/
structure environment (β : Type) where
  make_blueprint : schema_type → Option β
  /-- Whether `builder(t)` returns a null pointer. -/
  builder_null : schema_type → Bool
  /-- Whether `recursive_add` fails for a row of this layout. -/
  add_fails : schema_type → Bool
  /-- Whether `finish(f, ptr)` fails for a slice of this layout. -/
  finish_fails : schema_type → Bool

/-- The state of the reader, with the slices the consumer got: layout and number of
rows. -/
structure reader (β : Type) where
  schema_ : List schema_type
  blueprints_ : List (schema_type × β)
  next_ : Nat
  num_events_ : Nat
  out : List (schema_type × Nat)
  deriving DecidableEq, Repr

/-- The constructor `reader::reader`: the option `import.max-events`, or the default
`defaults::import::max_events` when it is not set; 0 stands for no limit. -/
def reader.make {β : Type} (max_events_option : Option Nat) (default_max_events : Nat) :
    reader β :=
  let n := max_events_option.getD default_max_events
  ⟨[], [], 0, if n = 0 then size_max else n, []⟩

/-- `emplace` of the map of blueprints: no effect when the key is present. -/
def emplace {β : Type} (bps : List (schema_type × β)) (t : schema_type) (bp : β) :
    List (schema_type × β) :=
  if bps.any (fun e => decide (e.1 = t)) then bps else bps ++ [(t, bp)]

/-- The loop of `reader::schema` over the types of `sch`.  The types of a schema have
distinct names, so `subset.add(t)` appends `t`. -/
def schema_loop {β : Type} (env : environment β) :
    List schema_type → List schema_type → List (schema_type × β) →
    Except ec (List schema_type × List (schema_type × β))
  | [], subset, bps => .ok (subset, bps)
  | t :: rest, subset, bps =>
    if is_test_type t then
      match env.make_blueprint t with
      | some bp =>
        if env.builder_null t then .error ec.format_error
        else schema_loop env rest (subset ++ [t]) (emplace bps t bp)
      | none => .error ec.format_error
    else schema_loop env rest subset bps

/-- `reader::schema(sch)`. -/
def schema {β : Type} (env : environment β) (sch : List schema_type) (r : reader β) :
    Option ec × reader β :=
  if sch.isEmpty then (some ec.format_error, r)
  else
    match schema_loop env sch [] [] with
    | .error e => (some e, r)
    | .ok (subset, bps) =>
      if subset.isEmpty then (some ec.format_error, r)
      else (none, { r with schema_ := subset, blueprints_ := bps, next_ := 0 })

/-- The schema that `default_schema` parses from `builtin_schema`: the one type
`test.full`. -/
def default_schema : List schema_type := [⟨['t', 'e', 's', 't', '.', 'f', 'u', 'l', 'l']⟩]

/-- The `while` loop of `reader::read_impl`. -/
def read_loop {β : Type} (env : environment β) (max_events max_slice_size : Nat) :
    Nat → Nat → reader β → Option (Option ec × reader β)
  | 0, _, _ => none
  | fuel + 1, produced, r =>
    if produced < max_events then
      let t := r.schema_.getD r.next_ default
      let rows := min r.num_events_ (min (max_events - produced) max_slice_size)
      if decide (0 < rows) && env.add_fails t then some (some ec.format_error, r)
      else if decide (0 < rows) && env.finish_fails t then some (some ec.format_error, r)
      else
        let r1 : reader β :=
          { r with out := r.out ++ (if 0 < rows then [(t, rows)] else []) }
        if r1.num_events_ = rows then some (some ec.end_of_input, r1)
        else
          read_loop env max_events max_slice_size fuel (produced + rows)
            { r1 with
              num_events_ := r1.num_events_ - rows
              next_ :=
                if 1 < r1.schema_.length then
                  (if r1.next_ + 1 = r1.schema_.length then 0 else r1.next_ + 1)
                else r1.next_ }
    else some (none, r)

/-- `reader::read_impl`. -/
def read_impl {β : Type} (env : environment β) (max_events max_slice_size fuel : Nat)
    (r : reader β) : Option (Option ec × reader β) :=
  match (if r.schema_.isEmpty then schema env default_schema r else (none, r)) with
  | (some err, r1) => some (some err, r1)
  | (none, r1) =>
    if r1.num_events_ = 0 then some (some ec.end_of_input, r1)
    else read_loop env max_events max_slice_size fuel 0 r1

/-- Number of events the consumer got. -/
def events_produced {β : Type} (r : reader β) : Nat := (r.out.map Prod.snd).sum

/-- An environment in which blueprints and builders can always be made, for
examples. -/
def plain_environment : environment Unit :=
  ⟨fun _ => some (), fun _ => false, fun _ => false, fun _ => false⟩

end vast.format.test

/-!
The configuration

A shallow embedding of the constructor `configuration::configuration` and of
`configuration::parse` of `libvast/src/system/configuration.cpp`.  Paths, arguments and
option names are lists of characters.
-/

namespace vast.system

/-- What the constructor of `configuration` takes from its surroundings. -/
structure config_environment where
  /-- The function `std::getenv`: `none` for a null pointer. -/
  getenv : List Char → Option (List Char)
  /-- The string literal `VAST_SYSCONFDIR`. -/
  sysconfdir : List Char
  /-- The operator `/` of `vast::path`, which is not among the sources. -/
  join : List Char → List Char → List Char
  /-- The member `is_regular_file` of `vast::path`. -/
  is_regular_file : List Char → Bool

/-- The algorithm `std::remove_if` followed by `erase` of the range it returns: the
elements for which the predicate is false stay, in their order. -/
def remove_if {α : Type} (pred : α → Bool) : List α → List α
  | [] => []
  | x :: xs => if pred x then remove_if pred xs else x :: remove_if pred xs

/-- The constructor `configuration::configuration` as far as the member `config_paths`
goes. -/
def configuration_config_paths (env : config_environment) : List (List Char) :=
  let config_paths : List (List Char) := []
  let config_paths :=
    match env.getenv "XDG_CONFIG_HOME".toList with
    | some xdg_config_home =>
      config_paths ++
        [env.join (env.join xdg_config_home "vast".toList) "vast.conf".toList]
    | none =>
      match env.getenv "HOME".toList with
      | some home =>
        config_paths ++
          [env.join (env.join (env.join home ".config".toList) "vast".toList)
            "vast.conf".toList]
      | none => config_paths
  let config_paths := config_paths ++ [env.sysconfdir ++ "/vast/vast.conf".toList]
  remove_if (fun p => !env.is_regular_file p) config_paths

/-- The candidate list of config file discovery in the words of the specification:
the file under `XDG_CONFIG_HOME` when that is set, otherwise the file under `HOME` when
that is set, followed in every case by the system-wide file. -/
def config_candidates (env : config_environment) : List (List Char) :=
  (match env.getenv "XDG_CONFIG_HOME".toList, env.getenv "HOME".toList with
    | some xdg, _ => [env.join (env.join xdg "vast".toList) "vast.conf".toList]
    | none, some home =>
      [env.join (env.join (env.join home ".config".toList) "vast".toList)
        "vast.conf".toList]
    | none, none => []) ++
    [env.sysconfdir ++ "/vast/vast.conf".toList]

/-- The helper `detail::starts_with`, which is not among the sources: whether `p` is
a prefix of `x`. -/
def starts_with (x p : List Char) : Bool := p.isPrefixOf x

/-- The algorithm `std::stable_partition`: the elements for which the predicate holds
and the other elements, each group in its order; the second group begins at the iterator
that the algorithm returns. -/
def stable_partition {α : Type} (pred : α → Bool) : List α → List α × List α
  | [] => ([], [])
  | x :: xs =>
    if pred x then (x :: (stable_partition pred xs).1, (stable_partition pred xs).2)
    else ((stable_partition pred xs).1, x :: (stable_partition pred xs).2)

/-- The member `erase(pos, len)` of `std::string`. -/
def erase (s : List Char) (pos len : Nat) : List Char := s.take pos ++ s.drop (pos + len)

/-- The errors that `configuration::parse` returns. -/
inductive config_error where
  /-- The error `ec::type_clash` for an option and the string that did not parse. -/
  | type_clash (option str : List Char)
  /-- An error of a helper: of reading a config file, or of CAF when it parses its
  arguments. -/
  | external (code : Nat)
  deriving DecidableEq, Repr

/-- A CAF dictionary with values of type `γ`, keyed by the full name. -/
abbrev config_settings (γ : Type) := List (List Char × γ)

/-- The function `put` of CAF on a dictionary: set the entry of `key`, replacing an
older entry of that key. -/
def config_put {γ : Type} : config_settings γ → List Char → γ → config_settings γ
  | [], key, value => [(key, value)]
  | (k, v) :: rest, key, value =>
    if k = key then (key, value) :: rest else (k, v) :: config_put rest key value

/-- A `caf::config_option` as far as `parse` uses it; `parse` gives `none` for an
error. -/
structure config_option (γ : Type) where
  full_name : List Char
  type_name : List Char
  parse : List Char → Option γ

/-- What `configuration::parse` takes from its surroundings, with `γ` for
`caf::config_value`. -/
structure parse_environment (γ : Type) where
  /-- The function `exists` on a path. -/
  exists_ : List Char → Bool
  /-- The steps `load_contents`, `from_yaml`, `get_if<record>`, `flatten` and
  `to<caf::settings>` on one file: its settings, or the error of the first step that
  fails. -/
  read_settings : List Char → Except config_error (config_settings γ)
  /-- The helper `detail::merge_settings(src, dst)`: the new value of `dst`. -/
  merge_settings : config_settings γ → config_settings γ → config_settings γ
  /-- The string that a value holds, when it holds the alternative `std::string`. -/
  get_string : γ → Option (List Char)
  /-- The function `caf::deep_to_string` on a value. -/
  deep_to_string : γ → List Char
  /-- The function `actor_system_config::parse` of the base class: `none` for
  `caf::none`. -/
  caf_parse : List (List Char) → Option config_error

/-- The members of `configuration` that `parse` reads and writes. -/
structure configuration (γ : Type) where
  command_line : List (List Char)
  config_paths : List (List Char)
  content : config_settings γ
  config_file_path : List Char
  custom_options_ : List (config_option γ)

/-- The loop of `parse` over `command_line` that appends the file of every argument
`--config=<file>` to `config_paths`. -/
def push_config_args : List (List Char) → List (List Char) → List (List Char)
  | [], config_paths => config_paths
  | arg :: rest, config_paths =>
    if starts_with arg "--config=".toList then
      push_config_args rest (config_paths ++ [arg.drop 9])
    else push_config_args rest config_paths

/-- The loop of `parse` over `config_paths`: the settings of every file that exists are
merged into `merged_settings`; the first error ends `parse`. -/
def merge_files {γ : Type} (env : parse_environment γ) :
    List (List Char) → config_settings γ → Except config_error (config_settings γ)
  | [], merged_settings => .ok merged_settings
  | config :: rest, merged_settings =>
    if env.exists_ config then
      match env.read_settings config with
      | .error e => .error e
      | .ok settings => merge_files env rest (env.merge_settings settings merged_settings)
    else merge_files env rest merged_settings

/-- The visitor `stringify` of `parse`: a string as it is, every other value through
`caf::deep_to_string`. -/
def stringify {γ : Type} (env : parse_environment γ) (val : γ) : List Char :=
  match env.get_string val with
  | some x => x
  | none => env.deep_to_string val

/-- The string `str` between single quotes. -/
def quoted (str : List Char) : List Char := [Char.ofNat 39] ++ str ++ [Char.ofNat 39]

/-- The loop of `parse` over `custom_options_`: the error returned, if any, and the
new value of `content`. -/
def parse_options {γ : Type} (env : parse_environment γ) (merged_settings : config_settings γ) :
    List (config_option γ) → config_settings γ → Option config_error × config_settings γ
  | [], content => (none, content)
  | option :: rest, content =>
    match merged_settings.lookup option.full_name with
    | some val =>
      let str := stringify env val
      match option.parse str with
      | some new_val =>
        parse_options env merged_settings rest (config_put content option.full_name new_val)
      | none =>
        match option.parse (quoted str) with
        | some new_val =>
          parse_options env merged_settings rest
            (config_put content option.full_name new_val)
        | none => (some (config_error.type_clash option.full_name str), content)
    | none => parse_options env merged_settings rest content

/-- The loop of `parse` over `caf_args` that strips the prefix `caf.` behind the two
dashes. -/
def strip_caf (caf_args : List (List Char)) : List (List Char) :=
  caf_args.map fun arg => if starts_with arg "--caf.".toList then erase arg 2 4 else arg

/-- What a call of `configuration::parse` leaves behind: the error returned (`none` for
`caf::none`), the configuration, and the arguments that went to
`actor_system_config::parse`, if the call got that far. -/
structure parse_result (γ : Type) where
  error : Option config_error
  cfg : configuration γ
  caf_args : Option (List (List Char))

/-- The function `configuration::parse` on the argument vector `argv`, which holds at
least the name of the program. -/
def configuration.parse {γ : Type} (env : parse_environment γ) (argv : List (List Char))
    (cfg : configuration γ) : parse_result γ :=
  let command_line := argv.drop 1
  let parts := stable_partition (fun x => !starts_with x "--caf.".toList) command_line
  let caf_args := parts.2
  let command_line := parts.1
  let config_paths := push_config_args command_line cfg.config_paths
  let cfg1 : configuration γ :=
    { cfg with command_line := command_line, config_paths := config_paths }
  match merge_files env config_paths [] with
  | .error e => ⟨some e, cfg1, none⟩
  | .ok merged_settings =>
    match parse_options env merged_settings cfg1.custom_options_ cfg1.content with
    | (some e, content) => ⟨some e, { cfg1 with content := content }, none⟩
    | (none, content) =>
      ⟨env.caf_parse (strip_caf caf_args),
        { cfg1 with content := content, config_file_path := [] },
        some (strip_caf caf_args)⟩

/-- The value that the specification has `parse` store for an option whose entry in the
merged settings is `val`: the result of `option.parse(str)`, otherwise that of
`option.parse` on the quoted string; `none` when both attempts fail. -/
def chosen_value {γ : Type} (env : parse_environment γ) (option : config_option γ) (val : γ) :
    Option γ :=
  match option.parse (stringify env val) with
  | some v => some v
  | none => option.parse (quoted (stringify env val))

/-- Whether an option passes the loop of `parse`: it is absent from the merged settings,
or one of the two attempts succeeds. -/
def option_ok {γ : Type} (env : parse_environment γ) (merged_settings : config_settings γ)
    (option : config_option γ) : Bool :=
  match merged_settings.lookup option.full_name with
  | some val => (chosen_value env option val).isSome
  | none => true

/-- The effect of one option that passes on `content`, in the words of the
specification. -/
def store_option {γ : Type} (env : parse_environment γ) (merged_settings : config_settings γ)
    (content : config_settings γ) (option : config_option γ) : config_settings γ :=
  match merged_settings.lookup option.full_name with
  | some val =>
    match chosen_value env option val with
    | some v => config_put content option.full_name v
    | none => content
  | none => content

/-! ### Examples -/

/-- A path operator for examples: the two parts with a slash between them. -/
def example_join (a b : List Char) : List Char := a ++ ['/'] ++ b

/-- Surroundings for examples: `XDG_CONFIG_HOME` and `HOME` are both set, and of the
candidates only the system-wide file is a regular file. -/
def example_config_environment : config_environment where
  getenv name :=
    if name = "XDG_CONFIG_HOME".toList then some "/home/u/.cfg".toList
    else if name = "HOME".toList then some "/home/u".toList
    else none
  sysconfdir := "/etc".toList
  join := example_join
  is_regular_file p := decide (p = "/etc/vast/vast.conf".toList)

/-- An option for examples that takes a number: a string of digits. -/
def example_threads_option : config_option (List Char) :=
  ⟨"threads".toList, "int".toList,
    fun s => if !s.isEmpty && s.all isdigit then some s else none⟩

/-- An option for examples that takes an atom: a string in single quotes. -/
def example_mode_option : config_option (List Char) :=
  ⟨"mode".toList, "atom".toList,
    fun s =>
      if decide (2 ≤ s.length) && s.head? == some (Char.ofNat 39) &&
          s.getLast? == some (Char.ofNat 39) then some s
      else none⟩

/-- The settings of the config file of the examples. -/
def example_settings : config_settings (List Char) :=
  [("mode".toList, "fast".toList), ("threads".toList, "4".toList)]

/-- Surroundings of `parse` for examples: the one config file `vast.conf` with the
settings above; values are strings; CAF accepts its arguments. -/
def example_parse_environment : parse_environment (List Char) where
  exists_ p := decide (p = "vast.conf".toList)
  read_settings _ := .ok example_settings
  merge_settings src dst := src ++ dst
  get_string v := some v
  deep_to_string v := v
  caf_parse _ := none

/-- A configuration for examples, with the two options above. -/
def example_configuration : configuration (List Char) :=
  ⟨[], ["vast.conf".toList], [], "caf-application.ini".toList,
    [example_threads_option, example_mode_option]⟩

/-- An argument vector for examples. -/
def example_argv : List (List Char) :=
  ["vast".toList, "--caf.scheduler.max-threads=2".toList, "start".toList,
    "--caf.verbose".toList]

end vast.system

/-!
Parsers

A shallow embedding of `symbol_table::parse` of
`libvast/vast/concept/parseable/string/symbol_table.hpp` and of `guard_parser::parse` of
`libvast/vast/concept/parseable/core/guard.hpp`.  The iterator pair `(f, l)` is the
input still to be read; advancing `f` drops characters from its front.
-/

namespace vast

/-- The class `detail::radix_tree`, which is not among the sources, as far as the
symbol table uses it: an associative array whose keys are strings, each key stored
once. -/
structure radix_tree (T : Type) where
  entries : List (List Char × T)
  nodup : (entries.map Prod.fst).Nodup

/-- The member `prefix_of` of `detail::radix_tree`: the entries whose key is a prefix
of the input. -/
def radix_tree.prefix_of {T : Type} (t : radix_tree T) (input : List Char) :
    List (List Char × T) :=
  t.entries.filter fun e => e.1.isPrefixOf input

/-- The algorithm `std::max_element` with the comparison `comp`: the first element
that no later element exceeds. -/
def max_element {α : Type} (comp : α → α → Bool) : List α → Option α
  | [] => none
  | x :: xs => some (xs.foldl (fun largest y => if comp largest y then y else largest) x)

/-- The class `symbol_table`: its member `symbols`. -/
structure symbol_table (T : Type) where
  symbols : radix_tree T

/-- The function `symbol_table::parse`: whether it succeeds, the iterator `f`
afterwards and the attribute `a` afterwards. -/
def symbol_table.parse {T : Type} (self : symbol_table T) (f : List Char) (a : T) :
    Bool × List Char × T :=
  let input := f
  let prefixes := self.symbols.prefix_of input
  if prefixes.isEmpty then (false, f, a)
  else
    match max_element (fun x y => decide (x.1.length < y.1.length)) prefixes with
    | some longest_match => (true, f.drop longest_match.1.length, longest_match.2)
    | none => (false, f, a)

/-- A parser as `guard_parser` calls it: from the iterator `f` and an attribute to the
success, the iterator afterwards and the attribute afterwards. -/
abbrev parser_fn (α : Type) := List Char → α → Bool × List Char × α

/-- The function `guard_parser::parse` for a guard that returns `bool`; `init` is the
value of the default-constructed `attr`. -/
def guard_parser_parse {α : Type} (parser_ : parser_fn α) (guard_ : α → Bool) (init : α)
    (f : List Char) (a : α) : Bool × List Char × α :=
  let r := parser_ f init
  let attr := r.2.2
  if !(r.1 && guard_ attr) then (false, r.2.1, a)
  else (true, r.2.1, attr)

/-- The function `guard_parser::parse` for a guard that returns an optional value. -/
def guard_parser_parse_optional {α β : Type} (parser_ : parser_fn α)
    (guard_ : α → Option β) (init : α) (f : List Char) (a : β) : Bool × List Char × β :=
  let r := parser_ f init
  let attr := r.2.2
  if !r.1 then (false, r.2.1, a)
  else
    match guard_ attr with
    | none => (false, r.2.1, a)
    | some fin => (true, r.2.1, fin)

/-! ### Examples -/

/-- A symbol table for examples. -/
def example_symbols : radix_tree Nat :=
  ⟨[("a".toList, 1), ("ab".toList, 2), ("abcd".toList, 3), ("b".toList, 4)], by decide⟩

/-- A parser for examples: it reads one decimal digit and gives its value. -/
def example_digit : parser_fn Nat := fun f attr =>
  match f with
  | c :: rest => if c.isDigit then (true, rest, c.toNat - 48) else (false, f, attr)
  | [] => (false, f, attr)

end vast

/-!
Bit operations on a word

The sources hold the unit test `test/bits.cpp`, not the class `bits` under test.  The
definitions of this part model the operations on a word of `w` bits by shifts and masks,
and are checked against the values that the test expects.
-/

namespace vast.bits

/-- Modelled from the spec: the constant `npos`, the largest value of the 64-bit size
type. -/
def npos : Nat := 18446744073709551615

/-- Modelled from the spec: the word `all` of width `w`, with every bit set. -/
def all (w : Nat) : Nat := 2 ^ w - 1

/-- Modelled from the spec: number of zero bits below the lowest set bit of `x`, counted
over at most `n` bits. -/
def count_trailing_zeros : Nat → Nat → Nat
  | 0, _ => 0
  | n + 1, x => if x % 2 = 1 then 0 else count_trailing_zeros n (x / 2) + 1

/-- Modelled from the spec: number of bits of `x` up to and including its highest set
bit, counted over at most `n` bits. -/
def bit_length : Nat → Nat → Nat
  | 0, _ => 0
  | n + 1, x => if x = 0 then 0 else bit_length n (x / 2) + 1

/-- Modelled from the spec: number of zero bits above the highest set bit of the word
`x` of width `w`. -/
def count_leading_zeros (w x : Nat) : Nat := w - bit_length w x

/-- Modelled from the spec: `bits::next(x, i)` on a word of width `w`: the bits above
position `i` are masked out of `x`, and the lowest of them that is set is the result. -/
def next (w x i : Nat) : Nat :=
  if i = w - 1 then npos
  else
    let top := x &&& ((all w <<< (i + 1)) % 2 ^ w)
    if top = 0 then npos else count_trailing_zeros w top

/-- Modelled from the spec: `bits::prev(x, i)` on a word of width `w`: the bits below
position `i` are masked out of `x`, and the highest of them that is set is the result. -/
def prev (w x i : Nat) : Nat :=
  if i = 0 then npos
  else
    let low := x &&& (all w - (all w <<< i) % 2 ^ w)
    if low = 0 then npos else w - count_leading_zeros w low - 1

/-- The word `x` of the test `next` of `test/bits.cpp`. -/
def test_word_x : Nat := 0b0000000001010100010101000101010001010100010101000101010000000000

/-- The word `x` of the test `prev` of `test/bits.cpp`. -/
def test_word_y : Nat := 0b1111111111111110000000000000000000000000000000000000000011111111

end vast.bits

/-!
Directories

A shallow embedding of `directory` and its iterator of `libvast/src/directory.cpp`.
The directory stream of POSIX is the list of the names that `readdir` has still to
return.
-/

namespace vast

/-- The class `directory`: its path and its stream, `none` for the null pointer that
`opendir` returns when it cannot open the directory. -/
structure directory where
  path_ : List Char
  dir_ : Option (List (List Char))
  deriving DecidableEq, Repr

/-- The class `directory::iterator`: whether `dir_` points to the directory (`false` for
the null pointer) and the current path. -/
structure directory.iterator where
  dir_ : Bool
  current_ : List Char
  deriving DecidableEq, Repr

/-- The constructor `directory::directory`, with `opendir` as a parameter. -/
def directory.make (opendir : List Char → Option (List (List Char))) (p : List Char) :
    directory :=
  ⟨p, opendir p⟩

/-- The character `d[i]` of the C string `d`, whose end is the null character. -/
def c_str_at (d : List Char) (i : Nat) : Char := d.getD i (Char.ofNat 0)

/-- The calls of `readdir` within one `increment` on an open stream: the entries `.` and
`..` are passed over by the recursive call.  The operator `/` of `vast::path`, which is
not among the sources, is the parameter `join`. -/
def directory.iterator.read (join : List Char → List Char → List Char)
    (path_ : List Char) (it : directory.iterator) :
    List (List Char) → directory.iterator × List (List Char)
  | [] => ({ it with dir_ := false }, [])
  | d :: rest =>
    let dot := c_str_at d 0 = '.' && c_str_at d 1 = Char.ofNat 0
    let dotdot := c_str_at d 0 = '.' && c_str_at d 1 = '.' && c_str_at d 2 = Char.ofNat 0
    if dot || dotdot then directory.iterator.read join path_ it rest
    else ({ it with current_ := join path_ d }, rest)

/-- The function `directory::iterator::increment`: the iterator and the directory
afterwards. -/
def directory.iterator.increment (join : List Char → List Char → List Char)
    (it : directory.iterator) (dir : directory) : directory.iterator × directory :=
  if !it.dir_ then (it, dir)
  else
    match dir.dir_ with
    | none => ({ it with dir_ := false }, dir)
    | some stream =>
      ((directory.iterator.read join dir.path_ it stream).1,
        { dir with dir_ := some (directory.iterator.read join dir.path_ it stream).2 })

/-- The function `directory::iterator::dereference`. -/
def directory.iterator.dereference (it : directory.iterator) : List Char := it.current_

/-- The function `directory::iterator::equals`. -/
def directory.iterator.equals (it other : directory.iterator) : Bool :=
  it.dir_ == other.dir_

/-- The function `directory::begin`: the constructor of the iterator sets `dir_` and
calls `increment`. -/
def directory.begin_ (join : List Char → List Char → List Char) (dir : directory) :
    directory.iterator × directory :=
  directory.iterator.increment join ⟨true, []⟩ dir

/-- The function `directory::end`: the default iterator. -/
def directory.end_ : directory.iterator := ⟨false, []⟩

/-- The loop `for (auto it = begin(); it != end(); ++it)` that collects `*it`: the paths
yielded so far are `out`; `none` when the fuel runs out. -/
def directory.iterate_loop (join : List Char → List Char → List Char) :
    Nat → directory.iterator → directory → List (List Char) →
    Option (List (List Char) × directory)
  | 0, _, _, _ => none
  | fuel + 1, it, dir, out =>
    if it.equals directory.end_ then some (out, dir)
    else
      directory.iterate_loop join fuel (directory.iterator.increment join it dir).1
        (directory.iterator.increment join it dir).2 (out ++ [it.dereference])

/-- Iterating a directory from `begin()` to `end()`. -/
def directory.iterate (join : List Char → List Char → List Char) (fuel : Nat)
    (dir : directory) : Option (List (List Char) × directory) :=
  directory.iterate_loop join fuel (directory.begin_ join dir).1
    (directory.begin_ join dir).2 []

end vast

namespace vast.format.syslog

/-- The rows of layout `syslog.rfc5424` in a slice. -/
def slice.rfc5424_rows {μ : Type} : slice μ → List μ
  | .rfc5424 rows => rows
  | .unknown _ => []

/-- The rows of layout `syslog.unknown` in a slice. -/
def slice.unknown_rows {μ : Type} : slice μ → List (List Char)
  | .rfc5424 _ => []
  | .unknown rows => rows

/-- The rows of layout `syslog.rfc5424` that the reader has taken in, in their order:
those of the slices handed out, then those in the builder. -/
def rows_rfc5424 {σ μ : Type} (st : reader_state σ μ) : List μ :=
  (st.out.map slice.rfc5424_rows).flatten ++ st.bs.rfc5424

/-- The rows of layout `syslog.unknown` that the reader has taken in, in their order. -/
def rows_unknown {σ μ : Type} (st : reader_state σ μ) : List (List Char) :=
  (st.out.map slice.unknown_rows).flatten ++ st.bs.unknown

/-- The surroundings of a call without timeouts and without builder failures, reading
from a list of lines. -/
def quiet_environment {μ : Type} (parse : List Char → Option μ) :
    environment (List Char × List (List Char)) μ :=
  ⟨list_lines, parse, fun _ => false, fun _ _ => false, false, fun _ => false⟩

end vast.format.syslog

namespace vast.format.test

/-- The row counts of the slices of a call in the words of the specification: slices of
`max_slice_size` rows, followed by one slice with the rest when `total` is not a multiple
of `max_slice_size`. -/
def slice_sizes (total max_slice_size : Nat) : List Nat :=
  List.replicate (total / max_slice_size) max_slice_size ++
    (if total % max_slice_size = 0 then [] else [total % max_slice_size])

/-- Slices with the given row counts that take their layouts from the schema in order,
from position `next` on and wrapping around. -/
def cycle_layouts (schema : List schema_type) : Nat → List Nat → List (schema_type × Nat)
  | _, [] => []
  | next, rows :: rest =>
    (schema.getD (next % schema.length) default, rows) :: cycle_layouts schema (next + 1) rest

end vast.format.test

namespace vast.system

/-! ## Decimal text round trip -/

theorem digitChar_isdigit (d : Nat) (h : d < 10) : isdigit (Nat.digitChar d) = true := by
  interval_cases d <;> decide

theorem digitChar_value (d : Nat) (h : d < 10) : digit_value (Nat.digitChar d) = d := by
  interval_cases d <;> decide

theorem isdigit_not_space (c : Char) (h : isdigit c = true) : isspace c = false := by
  simp only [isdigit, isspace, Bool.and_eq_true, decide_eq_true_eq, Bool.or_eq_false_iff,
    decide_eq_false_iff_not, Bool.and_eq_false_imp] at *
  omega

theorem isdigit_not_sign (c : Char) (h : isdigit c = true) : ¬ (c = '-' ∨ c = '+') := by
  rintro (rfl | rfl) <;> revert h <;> decide

theorem read_digits_append (pre rest : List Char) (acc : Nat)
    (hpre : ∀ c ∈ pre, isdigit c = true) :
    read_digits (pre ++ rest) acc = read_digits rest (digits_value acc pre) := by
  induction pre generalizing acc with
  | nil => rfl
  | cons c cs ih =>
    have hc : isdigit c = true := hpre c (List.mem_cons_self _ _)
    have hcs : ∀ x ∈ cs, isdigit x = true := fun x hx => hpre x (List.mem_cons_of_mem _ hx)
    show read_digits (c :: (cs ++ rest)) acc = _
    rw [read_digits, if_pos hc, ih _ hcs]
    rfl

theorem toDigitsCore_spec (fuel : Nat) : ∀ (n : Nat) (ds : List Char), n < fuel →
    ∃ pre : List Char, Nat.toDigitsCore 10 fuel n ds = pre ++ ds ∧ pre ≠ [] ∧
      (∀ c ∈ pre, isdigit c = true) ∧ digits_value 0 pre = n := by
  induction fuel with
  | zero => intro n ds h; omega
  | succ fuel ih =>
    intro n ds h
    have hd : n % 10 < 10 := Nat.mod_lt _ (by decide)
    simp only [Nat.toDigitsCore]
    by_cases hq : n / 10 = 0
    · refine ⟨[Nat.digitChar (n % 10)], ?_, by simp, ?_, ?_⟩
      · simp [hq]
      · intro c hc
        rw [List.mem_singleton] at hc
        rw [hc]
        exact digitChar_isdigit _ hd
      · simp only [digits_value, List.foldl, digitChar_value _ hd]
        omega
    · have hlt : n / 10 < fuel := by omega
      obtain ⟨pre, h1, _, h3, h4⟩ := ih (n / 10) (Nat.digitChar (n % 10) :: ds) hlt
      refine ⟨pre ++ [Nat.digitChar (n % 10)], ?_, by simp, ?_, ?_⟩
      · simp [hq, h1]
      · intro c hc
        rcases List.mem_append.mp hc with hc | hc
        · exact h3 c hc
        · rw [List.mem_singleton] at hc
          rw [hc]
          exact digitChar_isdigit _ hd
      · simp only [digits_value, List.foldl_append, List.foldl] at h4 ⊢
        rw [h4, digitChar_value _ hd]
        omega

theorem print_u64_spec (n : Nat) :
    ∃ c cs, print_u64 n = c :: cs ∧ (∀ x ∈ c :: cs, isdigit x = true) ∧
      digits_value 0 (c :: cs) = n := by
  obtain ⟨pre, h1, h2, h3, h4⟩ := toDigitsCore_spec (n + 1) n [] (Nat.lt_succ_self n)
  rw [List.append_nil] at h1
  cases pre with
  | nil => exact absurd rfl h2
  | cons c cs => exact ⟨c, cs, h1, h3, h4⟩

/-- Reading back a printed number that is followed by `rest`, where `rest` does not
go on with a digit. -/
theorem extract_print_append (n : Nat) (hn : n < u64_size) (rest : List Char)
    (hrest : ∀ c cs, rest = c :: cs → isdigit c = false) :
    extract_u64 (print_u64 n ++ rest) = .ok n rest := by
  obtain ⟨c, cs, h1, h2, h3⟩ := print_u64_spec n
  have hc : isdigit c = true := h2 c (List.mem_cons_self _ _)
  have hread : read_digits (c :: (cs ++ rest)) 0 = (n, rest) := by
    have := read_digits_append (c :: cs) rest 0 h2
    rw [h3] at this
    rw [List.cons_append] at this
    rw [this]
    cases rest with
    | nil => rfl
    | cons r rs => simp [read_digits, hrest r rs rfl]
  have hsign : ¬ (c = '-' ∨ c = '+') := isdigit_not_sign c hc
  have hminus : ¬ c = '-' := fun h => hsign (Or.inl h)
  have hplus : ¬ c = '+' := fun h => hsign (Or.inr h)
  simp only [extract_u64, h1, List.cons_append, skipws, isdigit_not_space c hc,
    Bool.false_eq_true, if_false, hc, if_true, hread, hn, hminus, hplus, or_self]

theorem extract_print (n : Nat) (hn : n < u64_size) :
    extract_u64 (print_u64 n) = .ok n [] := by
  have := extract_print_append n hn [] (by intro c cs h; cases h)
  rwa [List.append_nil] at this

theorem extract_space_print (n : Nat) (hn : n < u64_size) :
    extract_u64 (' ' :: print_u64 n) = .ok n [] := by
  have h := extract_print n hn
  have hs : skipws (' ' :: print_u64 n) = skipws (print_u64 n) := by
    simp [skipws, isspace]
  unfold extract_u64 at h ⊢
  rw [hs]
  exact h

theorem extract_nil : extract_u64 [] = .fail none := rfl


/-! ## The block loop -/

/-- The loop exits with `end + j * 8Mi` for the least such value above
`next + required`, when that value fits in 64 bits and the fuel covers `j` rounds. -/
theorem get_next_block_loop_exit (next required : Nat) :
    ∀ (j fuel e0 : Nat), j < fuel →
      e0 + j * block_size < u64_size →
      (next + required) % u64_size < e0 + j * block_size →
      (∀ i, i < j → e0 + i * block_size ≤ (next + required) % u64_size) →
      get_next_block_loop fuel next required e0 = some (e0 + j * block_size) := by
  intro j
  induction j with
  | zero =>
    intro fuel e0 hf _ hlt _
    obtain ⟨f, rfl⟩ : ∃ f, fuel = f + 1 := ⟨fuel - 1, by omega⟩
    have hlt2 : ¬ (next + required) % u64_size ≥ e0 := by omega
    simp [get_next_block_loop, hlt2]
  | succ j ih =>
    intro fuel e0 hf hfit hlt hmin
    obtain ⟨f, rfl⟩ : ∃ f, fuel = f + 1 := ⟨fuel - 1, by omega⟩
    have h0 : e0 ≤ (next + required) % u64_size := by
      have := hmin 0 (Nat.succ_pos j)
      simpa using this
    have hwrap : (e0 + block_size) % u64_size = e0 + block_size := by
      apply Nat.mod_eq_of_lt
      have : e0 + block_size ≤ e0 + (j + 1) * block_size := by
        have : block_size ≤ (j + 1) * block_size := Nat.le_mul_of_pos_left _ (Nat.succ_pos j)
        omega
      omega
    have hstep : e0 + block_size + j * block_size = e0 + (j + 1) * block_size := by
      rw [Nat.succ_mul]; omega
    rw [get_next_block_loop, if_pos h0, hwrap]
    rw [ih f (e0 + block_size) (by omega) (by omega) (by omega) ?_, hstep]
    intro i hi
    have := hmin (i + 1) (by omega)
    rw [Nat.succ_mul] at this
    omega

/-- Every value `end` can take is at most the largest 64-bit value of its residue
class modulo 8Mi. -/
theorem le_class_top (e : Nat) (he : e < u64_size) :
    e ≤ u64_size - block_size + e % block_size := by
  simp only [u64_size, block_size] at *
  omega

theorem step_class (e : Nat) :
    ((e + block_size) % u64_size) % block_size = e % block_size := by
  simp only [u64_size, block_size]
  omega

/-- When `next + required` is at or above the largest value `end` can take, the loop
never exits, whatever the fuel. -/
theorem get_next_block_loop_diverges (next required : Nat) :
    ∀ (fuel e : Nat), e < u64_size →
      u64_size - block_size + e % block_size ≤ (next + required) % u64_size →
      get_next_block_loop fuel next required e = none := by
  intro fuel
  induction fuel with
  | zero => intro e _ _; rfl
  | succ fuel ih =>
    intro e he hp
    have h0 : (next + required) % u64_size ≥ e := le_trans (le_class_top e he) hp
    rw [get_next_block_loop, if_pos h0]
    apply ih
    · exact Nat.mod_lt _ (by decide)
    · rw [step_class]; exact hp

/-- Below that bound the loop exits within `2^41` rounds. -/
theorem get_next_block_loop_terminates (next required e0 : Nat) (he : e0 < u64_size)
    (hp : (next + required) % u64_size < u64_size - block_size + e0 % block_size) :
    ∃ j, j < loop_period ∧ e0 + j * block_size < u64_size ∧
      (next + required) % u64_size < e0 + j * block_size ∧
      (∀ i, i < j → e0 + i * block_size ≤ (next + required) % u64_size) ∧
      get_next_block_loop (loop_period + 1) next required e0 = some (e0 + j * block_size) := by
  set p := (next + required) % u64_size with hpdef
  by_cases hlt : p < e0
  · refine ⟨0, by decide, by simpa using he, by simpa using hlt, ?_, ?_⟩
    · intro i hi; omega
    · exact get_next_block_loop_exit next required 0 _ e0 (by decide) (by simpa using he)
        (by simpa using hlt) (by intro i hi; omega)
  · have hj : ∃ j, j < loop_period ∧ e0 + j * block_size < u64_size ∧
        p < e0 + j * block_size ∧ e0 + (j - 1) * block_size ≤ p ∧ 0 < j := by
      refine ⟨(p - e0) / block_size + 1, ?_, ?_, ?_, ?_, ?_⟩ <;>
        simp only [u64_size, block_size, loop_period] at * <;> omega
    obtain ⟨j, hj1, hj2, hj3, hj4, hj5⟩ := hj
    have hmin : ∀ i, i < j → e0 + i * block_size ≤ p := by
      intro i hi
      have : i * block_size ≤ (j - 1) * block_size :=
        Nat.mul_le_mul_right _ (by omega)
      omega
    exact ⟨j, hj1, hj2, hj3, hmin,
      get_next_block_loop_exit next required j _ e0 (by omega) hj2 hj3 hmin⟩


/-! ## Persisting -/

theorem write_state_current (mode : write_mode) (st : importer_state) :
    (write_state mode st).2.current = st.current := by
  unfold write_state
  split
  · split <;> rfl
  · rfl

/-- With the directory present, or creatable, the write succeeds and replaces the file. -/
theorem write_state_ok (mode : write_mode) (st : importer_state)
    (h : st.fs.dir ≠ .absent ∨ st.fs.mkdir_ok = true) :
    write_state mode st =
      (none, ⟨st.current, ⟨.file (state_text mode st.current), st.fs.mkdir_ok⟩⟩) := by
  unfold write_state
  split
  · next hd =>
    rcases h with h | h
    · exact absurd hd h
    · simp [h]
  · rfl

/-- With the directory missing and `mkdir` failing, the write reports the error and
nothing changes. -/
theorem write_state_fail (mode : write_mode) (st : importer_state)
    (hd : st.fs.dir = .absent) (hm : st.fs.mkdir_ok = false) :
    write_state mode st = (some ec.filesystem_error, st) := by
  unfold write_state
  simp [hd, hm]

/-! ## The block loop inside `get_next_block` -/

/-- What is known about `end` when the loop of `get_next_block` exits. -/
theorem get_next_block_loop_some (next required e0 e : Nat) (he0 : e0 < u64_size)
    (h : get_next_block_loop (loop_period + 1) next required e0 = some e) :
    e < u64_size ∧ (next + required) % u64_size < e ∧
      ((next + required) % u64_size < e0 → e = e0) ∧
      (e0 ≤ (next + required) % u64_size → e ≤ (next + required) % u64_size + block_size) := by
  by_cases hp : (next + required) % u64_size < u64_size - block_size + e0 % block_size
  · obtain ⟨j, _, hj2, hj3, hj4, hj5⟩ :=
      get_next_block_loop_terminates next required e0 he0 hp
    rw [hj5] at h
    have he : e = e0 + j * block_size := (Option.some.inj h).symm
    subst he
    refine ⟨hj2, hj3, ?_, ?_⟩
    · intro hlt
      cases j with
      | zero => simp
      | succ j =>
        have := hj4 0 (Nat.succ_pos j)
        omega
    · intro hle
      cases j with
      | zero => omega
      | succ j =>
        have := hj4 j (Nat.lt_succ_self j)
        rw [Nat.succ_mul]
        omega
  · rw [get_next_block_loop_diverges next required _ e0 he0 (by omega)] at h
    cases h

/-- A call of `get_next_block` that returns leaves `next` alone, moves `end` above
`next + required`, and is a `write_state` without `next` of the advanced block. -/
theorem get_next_block_some (required : Nat) (st : importer_state) (r : Option ec)
    (st1 : importer_state) (he : st.current.end_ < u64_size)
    (h : get_next_block required st = some (r, st1)) :
    st1.current.next = st.current.next ∧
      st1.current.end_ < u64_size ∧
      (st.current.next + required) % u64_size < st1.current.end_ ∧
      ((st.current.next + required) % u64_size < st.current.end_ →
        st1.current.end_ = st.current.end_) ∧
      (st.current.end_ ≤ (st.current.next + required) % u64_size →
        st1.current.end_ ≤ (st.current.next + required) % u64_size + block_size) ∧
      (r, st1) = write_state .without_next
        { st with current := { st.current with end_ := st1.current.end_ } } := by
  unfold get_next_block at h
  split at h
  · cases h
  · next e hloop =>
    have hw := Option.some.inj h
    have hcur := write_state_current .without_next
      { st with current := { st.current with end_ := e } }
    rw [hw] at hcur
    have hn : st1.current.next = st.current.next := by rw [hcur]
    have hend : st1.current.end_ = e := by rw [hcur]
    obtain ⟨h1, h2, h3, h4⟩ := get_next_block_loop_some _ _ _ _ he hloop
    rw [hend]
    exact ⟨hn, h1, h2, h3, h4, hw.symm⟩

/-- The exact result of `get_next_block` when the advanced `end` fits in 64 bits. -/
theorem get_next_block_eq (required : Nat) (st : importer_state) (j : Nat)
    (hfit : st.current.end_ + j * block_size < u64_size)
    (hj : (st.current.next + required) % u64_size < st.current.end_ + j * block_size)
    (hmin : ∀ i, i < j →
      st.current.end_ + i * block_size ≤ (st.current.next + required) % u64_size) :
    get_next_block required st = some (write_state .without_next
      { st with current := { st.current with end_ := st.current.end_ + j * block_size } }) := by
  have hjlt : j < loop_period + 1 := by
    simp only [u64_size, block_size, loop_period] at *
    omega
  unfold get_next_block
  rw [get_next_block_loop_exit _ _ j _ _ hjlt hfit hj hmin]

/-- A call of `get_next_block` whose target is at or above every value `end` can take
never returns. -/
theorem get_next_block_none (required : Nat) (st : importer_state)
    (he : st.current.end_ < u64_size)
    (hp : u64_size - block_size + st.current.end_ % block_size ≤
      (st.current.next + required) % u64_size) :
    get_next_block required st = none := by
  unfold get_next_block
  rw [get_next_block_loop_diverges _ _ _ _ he hp]

/-! ## `next_id` -/

/-- Whatever `next_id` returns is the old `next`, and the new `next` is the wrapped sum. -/
theorem next_id_some (advance : Nat) (st : importer_state) (off : Nat)
    (st1 : importer_state) (h : next_id advance st = some (off, st1)) :
    off = st.current.next ∧
      st1.current.next = (st.current.next + advance) % u64_size := by
  unfold next_id at h
  simp only [Option.map_eq_some'] at h
  obtain ⟨s, _, hs⟩ := h
  have h1 := congrArg Prod.fst hs
  have h2 := congrArg (fun p => p.2.current.next) hs
  simp only at h1 h2
  exact ⟨h1.symm, h2.symm⟩

/-- Inside the current block `next_id` touches nothing but `next`. -/
theorem next_id_in_block (advance : Nat) (st : importer_state)
    (h : (st.current.next + advance) % u64_size < st.current.end_) :
    next_id advance st = some (st.current.next,
      { st with current :=
          { st.current with next := (st.current.next + advance) % u64_size } }) := by
  unfold next_id
  have : ¬ (st.current.next + advance) % u64_size ≥ st.current.end_ := by omega
  simp [this]

/-- Past the current block `next_id` is `get_next_block` followed by the update of
`next`; the error of `get_next_block` is not looked at. -/
theorem next_id_past_block (advance : Nat) (st : importer_state)
    (h : st.current.end_ ≤ (st.current.next + advance) % u64_size) :
    next_id advance st = (get_next_block advance st).map fun r =>
      (st.current.next,
        { r.2 with current :=
            { r.2.current with next := (st.current.next + advance) % u64_size } }) := by
  unfold next_id
  simp only [ge_iff_le, h, if_true, Option.map_map]
  rfl

/-- A call of `next_id` whose target is at or above every value `end` can take never
returns. -/
theorem next_id_none (advance : Nat) (st : importer_state)
    (he : st.current.end_ < u64_size)
    (hp : u64_size - block_size + st.current.end_ % block_size ≤
      (st.current.next + advance) % u64_size) :
    next_id advance st = none := by
  have hpast : st.current.end_ ≤ (st.current.next + advance) % u64_size :=
    le_trans (le_class_top _ he) hp
  rw [next_id_past_block advance st hpast, get_next_block_none advance st he hp]
  rfl

theorem next_id_keeps_persisted (advance : Nat) (st : importer_state) (off : Nat)
    (st1 : importer_state) (hinv : block_persisted st)
    (hk : st.current.next + advance < u64_size)
    (h : next_id advance st = some (off, st1)) :
    block_persisted st1 := by
  obtain ⟨hfile, hlt, hle, hend⟩ := hinv
  have hmod : (st.current.next + advance) % u64_size = st.current.next + advance :=
    Nat.mod_eq_of_lt hk
  by_cases hin : (st.current.next + advance) % u64_size < st.current.end_
  · rw [next_id_in_block advance st hin] at h
    have hs := congrArg Prod.snd (Option.some.inj h)
    simp only at hs
    subst hs
    refine ⟨hfile, ?_, ?_, hend⟩
    · exact hin
    · show st.current.end_ ≤ (st.current.next + advance) % u64_size + block_size
      omega
  · have hpast : st.current.end_ ≤ (st.current.next + advance) % u64_size := by omega
    rw [next_id_past_block advance st hpast] at h
    simp only [Option.map_eq_some'] at h
    obtain ⟨⟨r, s⟩, hg, hs⟩ := h
    obtain ⟨_, g2, g3, _, g5, g6⟩ := get_next_block_some advance st r s hend hg
    have hw := write_state_ok .without_next
      { st with current := { st.current with end_ := s.current.end_ } }
      (Or.inl (by simp [hfile]))
    rw [hw] at g6
    have hsfs : s.fs.dir = .file (print_u64 s.current.end_) := by
      have := congrArg (fun p => p.2.fs.dir) g6
      simpa [state_text] using this
    have hs2 := congrArg Prod.snd hs
    simp only at hs2
    subst hs2
    refine ⟨hsfs, g3, ?_, g2⟩
    show s.current.end_ ≤ (st.current.next + advance) % u64_size + block_size
    exact g5 hpast

/-! ## Calls that return -/

/-- When the advanced `end` fits in 64 bits, `get_next_block` returns, and what it
returns is the `write_state` of the advanced block. -/
theorem get_next_block_returns (required : Nat) (st : importer_state) (j : Nat)
    (hfit : st.current.end_ + j * block_size < u64_size)
    (hj : (st.current.next + required) % u64_size < st.current.end_ + j * block_size)
    (hmin : ∀ i, i < j →
      st.current.end_ + i * block_size ≤ (st.current.next + required) % u64_size) :
    ∃ r st1, get_next_block required st = some (r, st1) ∧
      st1.current = ⟨st.current.next, st.current.end_ + j * block_size⟩ ∧
      (r, st1) = write_state .without_next
        ⟨⟨st.current.next, st.current.end_ + j * block_size⟩, st.fs⟩ := by
  refine ⟨(write_state .without_next
      ⟨⟨st.current.next, st.current.end_ + j * block_size⟩, st.fs⟩).1,
    (write_state .without_next
      ⟨⟨st.current.next, st.current.end_ + j * block_size⟩, st.fs⟩).2, ?_, ?_, rfl⟩
  · exact get_next_block_eq required st j hfit hj hmin
  · exact write_state_current _ _

/-- Below the largest value `end` can take, `next_id` returns the old `next`, stores
the sum and leaves `next < end`. -/
theorem next_id_returns (advance : Nat) (st : importer_state)
    (he : st.current.end_ < u64_size)
    (hp : (st.current.next + advance) % u64_size <
      u64_size - block_size + st.current.end_ % block_size) :
    ∃ st1, next_id advance st = some (st.current.next, st1) ∧
      st1.current.next = (st.current.next + advance) % u64_size ∧
      st1.current.next < st1.current.end_ := by
  by_cases hin : (st.current.next + advance) % u64_size < st.current.end_
  · exact ⟨_, next_id_in_block advance st hin, rfl, hin⟩
  · have hpast : st.current.end_ ≤ (st.current.next + advance) % u64_size := by omega
    obtain ⟨j, _, hj2, hj3, hj4, _⟩ :=
      get_next_block_loop_terminates st.current.next advance st.current.end_ he hp
    obtain ⟨r, s, hg, hcur, _⟩ := get_next_block_returns advance st j hj2 hj3 hj4
    refine ⟨{ s with current :=
        { s.current with next := (st.current.next + advance) % u64_size } }, ?_, rfl, ?_⟩
    · rw [next_id_past_block advance st hpast, hg]
      rfl
    · show (st.current.next + advance) % u64_size < s.current.end_
      rw [hcur]
      exact hj3

theorem extract_ok_lt (s rest : List Char) (v : Nat) (h : extract_u64 s = .ok v rest) :
    v < u64_size := by
  simp only [extract_u64] at h
  repeat' (split at h)
  all_goals first
    | (cases h; done)
    | (injection h with h1 _
       subst h1
       first
         | exact Nat.mod_lt _ (by decide)
         | assumption)

theorem below_first_block (e n : Nat) (h : e ≤ n) :
    ∀ i, i < 1 → e + i * block_size ≤ n := by
  intro i hi
  have : i = 0 := by omega
  subst this
  simpa using h

/-! ## `read_state` -/

theorem read_state_no_file (st : importer_state) (h : ∀ t, st.fs.dir ≠ .file t) :
    read_state st = get_next_block 0 { st with current := ⟨0, 0⟩ } := by
  unfold read_state
  split
  · next t ht => exact absurd ht (h t)
  · rfl

theorem read_state_end_only (st : importer_state) (text rest : List Char) (e : Nat)
    (stored : Option Nat) (hfile : st.fs.dir = .file text)
    (h1 : extract_u64 text = .ok e rest) (h2 : extract_u64 rest = .fail stored) :
    read_state st = get_next_block 0 { st with current := ⟨e, e⟩ } := by
  unfold read_state
  simp only [hfile, h1, h2]

theorem read_state_end_next (st : importer_state) (text rest rest2 : List Char) (e n : Nat)
    (hfile : st.fs.dir = .file text)
    (h1 : extract_u64 text = .ok e rest) (h2 : extract_u64 rest = .ok n rest2) :
    read_state st = get_next_block 0 { st with current := ⟨n, e⟩ } := by
  unfold read_state
  simp only [hfile, h1, h2]

/-- Restart on a file that holds `end` alone: both `next` and `end` start at it. -/
theorem read_state_after_crash (c0 : id_block) (fs : filesystem) (e : Nat)
    (he : e < u64_size) (hfile : fs.dir = .file (print_u64 e)) :
    read_state ⟨c0, fs⟩ = get_next_block 0 ⟨⟨e, e⟩, fs⟩ :=
  read_state_end_only ⟨c0, fs⟩ _ [] e none hfile (extract_print e he) extract_nil

/-- Restart on a file that holds `end next`. -/
theorem read_state_after_shutdown (c0 : id_block) (fs : filesystem) (e n : Nat)
    (he : e < u64_size) (hn : n < u64_size)
    (hfile : fs.dir = .file (state_text .with_next ⟨n, e⟩)) :
    read_state ⟨c0, fs⟩ = get_next_block 0 ⟨⟨n, e⟩, fs⟩ :=
  read_state_end_next ⟨c0, fs⟩ _ (' ' :: print_u64 n) [] e n hfile
    (extract_print_append e he _ (by intro c cs h; cases h; decide))
    (extract_space_print n hn)

/-- A start or restart that reads `next = n` and `end = e` and returns without error
ends in a state with the block persisted, provided `e <= n` or `n < e <= n + 8Mi`. -/
theorem get_next_block_zero_persisted (n e : Nat) (fs : filesystem) (st1 : importer_state)
    (hn : n < u64_size) (he : e < u64_size) (hgap : e ≤ n + block_size)
    (h : get_next_block 0 ⟨⟨n, e⟩, fs⟩ = some (none, st1)) :
    block_persisted st1 ∧ st1.current.next = n := by
  obtain ⟨g1, g2, g3, g4, g5, g6⟩ := get_next_block_some 0 ⟨⟨n, e⟩, fs⟩ none st1 he h
  have hmod : (n + 0) % u64_size = n := by
    rw [Nat.add_zero]; exact Nat.mod_eq_of_lt hn
  simp only [hmod] at g3 g4 g5
  have hfile : st1.fs.dir = .file (print_u64 st1.current.end_) := by
    by_cases hd : fs.dir ≠ .absent ∨ fs.mkdir_ok = true
    · rw [write_state_ok _ _ hd] at g6
      have := congrArg (fun p => p.2.fs.dir) g6
      simpa [state_text] using this
    · have hd1 : fs.dir = .absent := by
        by_contra hne
        exact hd (Or.inl hne)
      have hd2 : fs.mkdir_ok = false := by
        cases hm : fs.mkdir_ok
        · rfl
        · exact absurd (Or.inr hm) hd
      rw [write_state_fail _ _ hd1 hd2] at g6
      have := congrArg Prod.fst g6
      cases this
  refine ⟨⟨hfile, ?_, ?_, g2⟩, g1⟩
  · rw [g1]; exact g3
  · rw [g1]
    by_cases hlt : n < e
    · rw [g4 hlt]; exact hgap
    · exact g5 (by omega)

/-! ## Runs of the handler -/

theorem handle_slices_cons (k : Nat) (ks : List Nat) (st : importer_state)
    (offs : List Nat) (st2 : importer_state)
    (h : handle_slices (k :: ks) st = some (offs, st2)) :
    ∃ off st1 offs1, next_id k st = some (off, st1) ∧
      handle_slices ks st1 = some (offs1, st2) ∧ offs = off :: offs1 := by
  simp only [handle_slices, handle_slice] at h
  split at h
  · cases h
  · next off st1 h1 =>
    split at h
    · cases h
    · next offs1 st2a h2 =>
      have hh := Option.some.inj h
      have ha := congrArg Prod.fst hh
      have hb := congrArg Prod.snd hh
      simp only at ha hb
      subst hb
      exact ⟨off, st1, offs1, h1, h2, ha.symm⟩

theorem handle_slices_head_none (k : Nat) (ks : List Nat) (st : importer_state)
    (h : next_id k st = none) : handle_slices (k :: ks) st = none := by
  simp only [handle_slices, handle_slice, h]

/-- Without wrap-around the slices get the running sums as offsets. -/
theorem handle_slices_offsets : ∀ (ks : List Nat) (st : importer_state) (offs : List Nat)
    (st1 : importer_state), handle_slices ks st = some (offs, st1) →
    st.current.next + ks.sum < u64_size →
    st1.current.next = st.current.next + ks.sum ∧ offs.length = ks.length ∧
      ∀ i, i < ks.length → offs.get? i = some (st.current.next + (ks.take i).sum) := by
  intro ks
  induction ks with
  | nil =>
    intro st offs st1 h _
    simp only [handle_slices] at h
    have hh := Option.some.inj h
    have ha := congrArg Prod.fst hh
    have hb := congrArg Prod.snd hh
    simp only at ha hb
    subst ha hb
    simp
  | cons k ks ih =>
    intro st offs st2 h hsum
    obtain ⟨off, st1, offs1, h1, h2, rfl⟩ := handle_slices_cons k ks st offs st2 h
    obtain ⟨hoff, hnext⟩ := next_id_some k st off st1 h1
    rw [List.sum_cons] at hsum
    have hmod : (st.current.next + k) % u64_size = st.current.next + k :=
      Nat.mod_eq_of_lt (by omega)
    rw [hmod] at hnext
    obtain ⟨i1, i2, i3⟩ := ih st1 offs1 st2 h2 (by rw [hnext]; omega)
    refine ⟨?_, ?_, ?_⟩
    · rw [i1, hnext, List.sum_cons]; omega
    · simp [i2]
    · intro i hi
      cases i with
      | zero => simp [hoff]
      | succ i =>
        have hi2 : i < ks.length := by simpa using hi
        have := i3 i hi2
        simp only [List.get?_cons_succ, List.take_succ_cons, List.sum_cons]
        rw [this, hnext]
        congr 1
        omega

/-- Without wrap-around every ID handed out lies between the old and the new `next`. -/
theorem handle_slices_range : ∀ (ks : List Nat) (st : importer_state) (offs : List Nat)
    (st1 : importer_state), handle_slices ks st = some (offs, st1) →
    st.current.next + ks.sum < u64_size →
    st1.current.next = st.current.next + ks.sum ∧
      ∀ x, handed_out offs ks x → st.current.next ≤ x ∧ x < st1.current.next := by
  intro ks
  induction ks with
  | nil =>
    intro st offs st1 h _
    simp only [handle_slices] at h
    have hh := Option.some.inj h
    have ha := congrArg Prod.fst hh
    have hb := congrArg Prod.snd hh
    simp only at ha hb
    subst ha hb
    refine ⟨by simp, ?_⟩
    rintro x ⟨p, hp, _⟩
    simp at hp
  | cons k ks ih =>
    intro st offs st2 h hsum
    obtain ⟨off, st1, offs1, h1, h2, rfl⟩ := handle_slices_cons k ks st offs st2 h
    obtain ⟨hoff, hnext⟩ := next_id_some k st off st1 h1
    rw [List.sum_cons] at hsum
    have hmod : (st.current.next + k) % u64_size = st.current.next + k :=
      Nat.mod_eq_of_lt (by omega)
    rw [hmod] at hnext
    obtain ⟨i1, i2⟩ := ih st1 offs1 st2 h2 (by rw [hnext]; omega)
    refine ⟨by rw [i1, hnext, List.sum_cons]; omega, ?_⟩
    rintro x ⟨p, hp, hx1, hx2⟩
    rw [List.zip_cons_cons, List.mem_cons] at hp
    rcases hp with rfl | hp
    · simp only at hx1 hx2
      omega
    · have := i2 x ⟨p, hp, hx1, hx2⟩
      omega

theorem handle_slices_keeps_persisted : ∀ (ks : List Nat) (st : importer_state)
    (offs : List Nat) (st1 : importer_state), block_persisted st →
    st.current.next + ks.sum < u64_size →
    handle_slices ks st = some (offs, st1) → block_persisted st1 := by
  intro ks
  induction ks with
  | nil =>
    intro st offs st1 hinv _ h
    simp only [handle_slices] at h
    have hb := congrArg Prod.snd (Option.some.inj h)
    simp only at hb
    subst hb
    exact hinv
  | cons k ks ih =>
    intro st offs st2 hinv hsum h
    obtain ⟨off, st1, offs1, h1, h2, rfl⟩ := handle_slices_cons k ks st offs st2 h
    rw [List.sum_cons] at hsum
    have hinv1 := next_id_keeps_persisted k st off st1 hinv (by omega) h1
    obtain ⟨_, hnext⟩ := next_id_some k st off st1 h1
    have hmod : (st.current.next + k) % u64_size = st.current.next + k :=
      Nat.mod_eq_of_lt (by omega)
    rw [hmod] at hnext
    exact ih st1 offs1 st2 hinv1 (by rw [hnext]; omega) h2

/-! ## Reachable states -/

theorem available_ids_eq (st : importer_state) (h : st.current.next < u64_size) :
    available_ids st = max_id - st.current.next := by
  simp only [available_ids, max_id, u64_size] at *
  omega

/-- Every state reachable under the handler's precondition has its block persisted. -/
theorem reachable_persisted (st : importer_state) (h : reachable true st) :
    block_persisted st := by
  induction h with
  | start c0 fs st hfs hread =>
    rw [read_state_no_file _ hfs] at hread
    exact (get_next_block_zero_persisted 0 0 fs st (by decide) (by decide)
      (by decide) hread).1
  | call st k off st1 _ hk hcall ih =>
    have hlt : st.current.next < u64_size := lt_trans ih.2.1 ih.2.2.2
    have hk2 := hk rfl
    rw [available_ids_eq st hlt] at hk2
    refine next_id_keeps_persisted k st off st1 ih ?_ hcall
    simp only [max_id, u64_size] at *
    omega
  | crash_restart st c0 st1 _ hread ih =>
    obtain ⟨hfile, _, _, hend⟩ := ih
    rw [read_state_after_crash c0 st.fs _ hend hfile] at hread
    exact (get_next_block_zero_persisted _ _ st.fs st1 hend hend (by omega) hread).1
  | clean_restart st c0 st1 _ hread ih =>
    obtain ⟨hfile, hlt, hle, hend⟩ := ih
    have hw := write_state_ok .with_next st (Or.inl (by simp [hfile]))
    have hd : (destroy st).dir = .file (state_text .with_next ⟨st.current.next, st.current.end_⟩) := by
      simp only [destroy, hw]
    rw [read_state_after_shutdown c0 (destroy st) _ _ hend (lt_trans hlt hend) hd] at hread
    exact (get_next_block_zero_persisted _ _ _ st1 (lt_trans hlt hend) hend hle hread).1

/-! ## Claims on ID allocation -/

/-- C1 (the code departs from the claim).  The handler allows `rows` up to
`available_ids() = 2^64 - 1 - next`.  Right after a fresh start (`next = 0`,
`end = 8Mi`) the call `next_id(2^64 - 1)` meets the precondition `next + k <= 2^64 - 1`
of the claim, yet the loop of `get_next_block` finds `end <= 2^64 - 1` in every round
and never exits: the call returns nothing.  The same happens for `next_id(1)` in the
state `next = 2^64 - 2`, `end = 2^64 - 1`. -/
theorem next_id_available_ids_never_returns :
    read_state ⟨⟨0, 0⟩, ⟨.absent, true⟩⟩ =
        some (none, ⟨⟨0, 8388608⟩, ⟨.file (print_u64 8388608), true⟩⟩) ∧
      0 + 18446744073709551615 ≤ 2 ^ 64 - 1 ∧
      available_ids ⟨⟨0, 8388608⟩, ⟨.file (print_u64 8388608), true⟩⟩ = 18446744073709551615 ∧
      (∀ fuel, get_next_block_loop fuel 0 18446744073709551615 8388608 = none) ∧
      next_id 18446744073709551615 ⟨⟨0, 8388608⟩, ⟨.file (print_u64 8388608), true⟩⟩ = none ∧
      18446744073709551614 + 1 ≤ 2 ^ 64 - 1 ∧
      next_id 1 ⟨⟨18446744073709551614, 18446744073709551615⟩, ⟨.no_file, true⟩⟩ = none := by
  refine ⟨by decide, by norm_num, by decide, ?_, ?_, by norm_num, ?_⟩
  · intro fuel
    exact get_next_block_loop_diverges 0 _ fuel 8388608 (by decide) (by decide)
  · exact next_id_none _ _ (by decide) (by decide)
  · exact next_id_none _ _ (by decide) (by decide)

/-- C2 (the code departs from the claim).  A state file `2^64-1 2^64-2` restarts the
importer with `next = 2^64 - 2` and `end = 2^64 - 1`.  One slice of one row keeps
`n0 + k_1 <= 2^64 - 1`, but the handler never returns, so the slice gets no offset. -/
theorem handle_slices_last_id_never_returns :
    read_state ⟨⟨0, 0⟩,
        ⟨.file (state_text .with_next ⟨18446744073709551614, 18446744073709551615⟩), true⟩⟩ =
        some (none, ⟨⟨18446744073709551614, 18446744073709551615⟩,
          ⟨.file (print_u64 18446744073709551615), true⟩⟩) ∧
      18446744073709551614 + [1].sum ≤ 2 ^ 64 - 1 ∧
      handle_slices [1] ⟨⟨18446744073709551614, 18446744073709551615⟩,
        ⟨.file (print_u64 18446744073709551615), true⟩⟩ = none :=
  ⟨by decide, by decide,
    handle_slices_head_none 1 [] _ (next_id_none 1 _ (by decide) (by decide))⟩

/-- C3, the claim as stated fails.  After a fresh start the calls `next_id(1)` and
`next_id(2^64 - 1)` hand out the ranges `[0, 1)` and `[1, 2^64)`; the second sum wraps
to `next = 0` and stays inside the block.  After the crash the restart begins at
`8Mi`, and the ID `8Mi` is handed out a second time. -/
theorem crash_restart_reuses_id_after_wrap :
    read_state ⟨⟨0, 0⟩, ⟨.absent, true⟩⟩ =
        some (none, ⟨⟨0, 8388608⟩, ⟨.file (print_u64 8388608), true⟩⟩) ∧
      handle_slices [1, 18446744073709551615]
          ⟨⟨0, 8388608⟩, ⟨.file (print_u64 8388608), true⟩⟩ =
        some ([0, 1], ⟨⟨0, 8388608⟩, ⟨.file (print_u64 8388608), true⟩⟩) ∧
      read_state ⟨⟨0, 0⟩, ⟨.file (print_u64 8388608), true⟩⟩ =
        some (none, ⟨⟨8388608, 16777216⟩, ⟨.file (print_u64 16777216), true⟩⟩) ∧
      handle_slices [1] ⟨⟨8388608, 16777216⟩, ⟨.file (print_u64 16777216), true⟩⟩ =
        some ([8388608], ⟨⟨8388609, 16777216⟩, ⟨.file (print_u64 16777216), true⟩⟩) ∧
      handed_out [0, 1] [1, 18446744073709551615] 8388608 ∧
      handed_out [8388608] [1] 8388608 := by
  refine ⟨by decide, by decide, by decide, by decide, ?_, ?_⟩
  · exact ⟨(1, 18446744073709551615), by simp, by decide, by decide⟩
  · exact ⟨(8388608, 1), by simp, by decide, by decide⟩

/-- C3, amended.  Take a run that starts in a directory without state file, hands
out IDs through calls of `next_id` that stay within `max_id` (the precondition
`rows <= available_ids()` of the handler), crashes, restarts through `read_state` and
hands out IDs again within `max_id`.  Every ID handed out after the restart is
strictly greater than every ID handed out before the crash. -/
theorem crash_restart_ids_increase (c0 c1 : id_block) (fs : filesystem)
    (ks ms offs offs2 : List Nat) (s0 s1 s2 s3 : importer_state)
    (hfresh : ∀ t, fs.dir ≠ .file t)
    (hstart : read_state ⟨c0, fs⟩ = some (none, s0))
    (hks : s0.current.next + ks.sum ≤ max_id)
    (hrun : handle_slices ks s0 = some (offs, s1))
    (hrestart : read_state ⟨c1, s1.fs⟩ = some (none, s2))
    (hms : s2.current.next + ms.sum ≤ max_id)
    (hrun2 : handle_slices ms s2 = some (offs2, s3)) :
    ∀ x y, handed_out offs ks x → handed_out offs2 ms y → x < y := by
  have hks2 : s0.current.next + ks.sum < u64_size := by
    simp only [max_id, u64_size] at *; omega
  have hms2 : s2.current.next + ms.sum < u64_size := by
    simp only [max_id, u64_size] at *; omega
  rw [read_state_no_file _ hfresh] at hstart
  have hinv0 := (get_next_block_zero_persisted 0 0 fs s0 (by decide) (by decide)
    (by decide) hstart).1
  obtain ⟨hfile, hlt, _, hend⟩ := handle_slices_keeps_persisted ks s0 offs s1 hinv0 hks2 hrun
  rw [read_state_after_crash c1 s1.fs _ hend hfile] at hrestart
  have hnext2 := (get_next_block_zero_persisted _ _ s1.fs s2 hend hend (by omega) hrestart).2
  obtain ⟨_, hbefore⟩ := handle_slices_range ks s0 offs s1 hrun hks2
  obtain ⟨_, hafter⟩ := handle_slices_range ms s2 offs2 s3 hrun2 hms2
  intro x y hx hy
  have h1 := hbefore x hx
  have h2 := hafter y hy
  omega

/-- C3, the scenario of the claim: a fresh start, 3 Mi IDs handed out, a crash; the
restart gives `next = 8Mi` and the first ID handed out next is `8Mi`. -/
theorem crash_restart_ids_increase_witness :
    read_state ⟨⟨0, 0⟩, ⟨.absent, true⟩⟩ =
        some (none, ⟨⟨0, 8388608⟩, ⟨.file (print_u64 8388608), true⟩⟩) ∧
      handle_slices [3145728] ⟨⟨0, 8388608⟩, ⟨.file (print_u64 8388608), true⟩⟩ =
        some ([0], ⟨⟨3145728, 8388608⟩, ⟨.file (print_u64 8388608), true⟩⟩) ∧
      read_state ⟨⟨0, 0⟩, ⟨.file (print_u64 8388608), true⟩⟩ =
        some (none, ⟨⟨8388608, 16777216⟩, ⟨.file (print_u64 16777216), true⟩⟩) ∧
      handle_slices [1] ⟨⟨8388608, 16777216⟩, ⟨.file (print_u64 16777216), true⟩⟩ =
        some ([8388608], ⟨⟨8388609, 16777216⟩, ⟨.file (print_u64 16777216), true⟩⟩) ∧
      ∀ x y, handed_out [0] [3145728] x → handed_out [8388608] [1] y → x < y :=
  ⟨by decide, by decide, by decide, by decide,
    crash_restart_ids_increase ⟨0, 0⟩ ⟨0, 0⟩ ⟨.absent, true⟩ [3145728] [1] [0] [8388608]
      ⟨⟨0, 8388608⟩, ⟨.file (print_u64 8388608), true⟩⟩
      ⟨⟨3145728, 8388608⟩, ⟨.file (print_u64 8388608), true⟩⟩
      ⟨⟨8388608, 16777216⟩, ⟨.file (print_u64 16777216), true⟩⟩
      ⟨⟨8388609, 16777216⟩, ⟨.file (print_u64 16777216), true⟩⟩
      (by intro t h; cases h) (by decide) (by decide) (by decide) (by decide) (by decide)
      (by decide)⟩

/-- C4, the claim as stated fails.  The destructor in the state `next = 5`,
`end = 8Mi` writes `8388608 5`.  `read_state` on that file finds `next < end`, runs
no round of the loop and keeps `end = 8Mi`; it does not add 8 Mi. -/
theorem read_state_keeps_end_after_clean_shutdown :
    destroy ⟨⟨5, 8388608⟩, ⟨.file (print_u64 8388608), true⟩⟩ =
        ⟨.file (state_text .with_next ⟨5, 8388608⟩), true⟩ ∧
      read_state ⟨⟨0, 0⟩, ⟨.file (state_text .with_next ⟨5, 8388608⟩), true⟩⟩ =
        some (none, ⟨⟨5, 8388608⟩, ⟨.file (print_u64 8388608), true⟩⟩) ∧
      (8388608 : Nat) ≠ 8388608 + block_size := by
  refine ⟨by decide, by decide, by decide⟩

/-- C4, amended.  After `read_state`, and before any ID is handed out, the in-memory
`end` is: 8 Mi when there is no state file; the persisted `end` plus 8 Mi when the file
holds `end` alone and the sum fits in 64 bits; and, when the file holds `end next`,
the least `end + j * 8Mi` above `next` (when it fits), which is the persisted `end`
itself after a clean shutdown, where `next < end`. -/
theorem read_state_end (st : importer_state) :
    ((∀ t, st.fs.dir ≠ .file t) →
        ∃ r st1, read_state st = some (r, st1) ∧ st1.current.end_ = 0 + block_size) ∧
      (∀ e, e + block_size < u64_size → st.fs.dir = .file (print_u64 e) →
        ∃ r st1, read_state st = some (r, st1) ∧ st1.current.end_ = e + block_size) ∧
      (∀ e n j, n < u64_size → e + j * block_size < u64_size →
        n < e + j * block_size → (∀ i, i < j → e + i * block_size ≤ n) →
        st.fs.dir = .file (state_text .with_next ⟨n, e⟩) →
        ∃ r st1, read_state st = some (r, st1) ∧ st1.current.end_ = e + j * block_size) ∧
      (∀ e n, n < e → e < u64_size →
        st.fs.dir = .file (state_text .with_next ⟨n, e⟩) →
        ∃ r st1, read_state st = some (r, st1) ∧ st1.current.end_ = e) := by
  have key : ∀ (n e j : Nat), n < u64_size → e + j * block_size < u64_size →
      n < e + j * block_size → (∀ i, i < j → e + i * block_size ≤ n) →
      ∃ r st1, get_next_block 0 ⟨⟨n, e⟩, st.fs⟩ = some (r, st1) ∧
        st1.current.end_ = e + j * block_size := by
    intro n e j hn hfit hj hmin
    have hmod : (n + 0) % u64_size = n := by
      rw [Nat.add_zero]; exact Nat.mod_eq_of_lt hn
    obtain ⟨r, st1, h1, h2, _⟩ := get_next_block_returns 0 ⟨⟨n, e⟩, st.fs⟩ j hfit
      (by simpa only [hmod] using hj) (by simpa only [hmod] using hmin)
    exact ⟨r, st1, h1, by rw [h2]⟩
  have hone : ∀ e, e + 1 * block_size = e + block_size := by intro e; omega
  refine ⟨?_, ?_, ?_, ?_⟩
  · intro hno
    rw [read_state_no_file st hno]
    have := key 0 0 1 (by decide) (by decide) (by decide) (below_first_block 0 0 le_rfl)
    simpa only [hone] using this
  · intro e hfit hfile
    have he : e < u64_size := by omega
    rw [read_state_after_crash st.current st.fs e he hfile]
    have := key e e 1 he (by rw [hone]; exact hfit)
      (by rw [hone]; simp only [block_size]; omega) (below_first_block e e le_rfl)
    simpa only [hone] using this
  · intro e n j hn hfit hj hmin hfile
    have he : e < u64_size := by omega
    rw [read_state_after_shutdown st.current st.fs e n he hn hfile]
    exact key n e j hn hfit hj hmin
  · intro e n hlt he hfile
    rw [read_state_after_shutdown st.current st.fs e n he (by omega) hfile]
    have := key n e 0 (by omega) (by omega) (by omega) (by intro i hi; omega)
    simpa using this

/-- C4, amended, at concrete files: a file `8388608` gives `end = 16777216`, and a
directory without state file gives `end = 8388608`. -/
theorem read_state_end_witness :
    (8388608 + block_size < u64_size ∧
        ∃ r st1, read_state ⟨⟨0, 0⟩, ⟨.file (print_u64 8388608), true⟩⟩ = some (r, st1) ∧
          st1.current.end_ = 8388608 + block_size) ∧
      ∃ r st1, read_state ⟨⟨0, 0⟩, ⟨.no_file, true⟩⟩ = some (r, st1) ∧
        st1.current.end_ = 0 + block_size :=
  ⟨⟨by decide,
      (read_state_end ⟨⟨0, 0⟩, ⟨.file (print_u64 8388608), true⟩⟩).2.1 8388608
        (by decide) rfl⟩,
    (read_state_end ⟨⟨0, 0⟩, ⟨.no_file, true⟩⟩).1 (by intro t h; cases h)⟩

/-- C5.  When neither `next + k` nor the advanced `end` overflows 64 bits,
`get_next_block(k)` returns, leaves `next` alone, sets `end` to `end0 + j * 8Mi` for
the least `j >= 0` with `next + k < end0 + j * 8Mi`, and then does the `write_state`
without `next`: with the directory present or creatable the file then holds that
`end` alone; with `mkdir` failing the error comes back and nothing is written. -/
theorem get_next_block_advances (st : importer_state) (k j : Nat)
    (hk : st.current.next + k < u64_size)
    (hfit : st.current.end_ + j * block_size < u64_size)
    (hj : st.current.next + k < st.current.end_ + j * block_size)
    (hmin : ∀ i, i < j → st.current.end_ + i * block_size ≤ st.current.next + k) :
    ∃ r st1, get_next_block k st = some (r, st1) ∧
      st1.current.next = st.current.next ∧
      st1.current.end_ = st.current.end_ + j * block_size ∧
      st.current.next + k < st1.current.end_ ∧
      (r, st1) = write_state .without_next
        ⟨⟨st.current.next, st.current.end_ + j * block_size⟩, st.fs⟩ ∧
      (st.fs.dir ≠ .absent ∨ st.fs.mkdir_ok = true →
        r = none ∧ st1.fs.dir = .file (print_u64 (st.current.end_ + j * block_size))) ∧
      (st.fs.dir = .absent ∧ st.fs.mkdir_ok = false →
        r = some ec.filesystem_error ∧ st1.fs = st.fs) := by
  have hmod : (st.current.next + k) % u64_size = st.current.next + k :=
    Nat.mod_eq_of_lt hk
  obtain ⟨r, st1, h1, h2, h3⟩ := get_next_block_returns k st j hfit
    (by rw [hmod]; exact hj) (by rw [hmod]; exact hmin)
  refine ⟨r, st1, h1, by rw [h2], by rw [h2], by rw [h2]; exact hj, h3, ?_, ?_⟩
  · intro hdir
    rw [write_state_ok .without_next
      ⟨⟨st.current.next, st.current.end_ + j * block_size⟩, st.fs⟩ hdir] at h3
    have ha := congrArg Prod.fst h3
    have hb := congrArg (fun p => p.2.fs.dir) h3
    simp only [state_text] at ha hb
    exact ⟨ha, hb⟩
  · rintro ⟨hd, hm⟩
    rw [write_state_fail .without_next
      ⟨⟨st.current.next, st.current.end_ + j * block_size⟩, st.fs⟩ hd hm] at h3
    have ha := congrArg Prod.fst h3
    have hb := congrArg (fun p => p.2.fs) h3
    simp only at ha hb
    exact ⟨ha, hb⟩

/-- C5 at a concrete state: `next = 8Mi - 1`, `end = 8Mi`, `k = 8Mi + 1` needs two
blocks, `j = 2`. -/
theorem get_next_block_advances_witness :
    ∃ r st1, get_next_block 8388609 ⟨⟨8388607, 8388608⟩, ⟨.no_file, true⟩⟩ = some (r, st1) ∧
      st1.current.next = 8388607 ∧
      st1.current.end_ = 8388608 + 2 * block_size ∧
      8388607 + 8388609 < st1.current.end_ ∧
      (r, st1) = write_state .without_next
        ⟨⟨8388607, 8388608 + 2 * block_size⟩, ⟨.no_file, true⟩⟩ ∧
      (dir_state.no_file ≠ .absent ∨ true = true →
        r = none ∧ st1.fs.dir = .file (print_u64 (8388608 + 2 * block_size))) ∧
      (dir_state.no_file = .absent ∧ true = false →
        r = some ec.filesystem_error ∧ st1.fs = ⟨.no_file, true⟩) :=
  get_next_block_advances ⟨⟨8388607, 8388608⟩, ⟨.no_file, true⟩⟩ 8388609 2
    (by decide) (by decide) (by decide)
    (by intro i hi; interval_cases i <;> decide)

/-- C6, the claim as stated fails.  After `next_id(5)`, a crash with the file holding
`8388608`, and a restart, the call `next_id(3)` returns `8388608`: the range starts at
the persisted `end`, not at `end + 3`. -/
theorem restart_range_starts_at_persisted_end :
    next_id 5 ⟨⟨0, 8388608⟩, ⟨.file (print_u64 8388608), true⟩⟩ =
        some (0, ⟨⟨5, 8388608⟩, ⟨.file (print_u64 8388608), true⟩⟩) ∧
      read_state ⟨⟨0, 0⟩, ⟨.file (print_u64 8388608), true⟩⟩ =
        some (none, ⟨⟨8388608, 16777216⟩, ⟨.file (print_u64 16777216), true⟩⟩) ∧
      next_id 3 ⟨⟨8388608, 16777216⟩, ⟨.file (print_u64 16777216), true⟩⟩ =
        some (8388608, ⟨⟨8388611, 16777216⟩, ⟨.file (print_u64 16777216), true⟩⟩) ∧
      (8388608 : Nat) ≠ 8388608 + 3 := by
  refine ⟨by decide, by decide, by decide, by decide⟩

/-- C6, amended.  When the crash leaves a state file that holds `end` alone, with
value `e`, and `e + m + 8Mi` fits in 64 bits, the restart returns without error and
the following `next_id(m)` returns `e`: the range starts at the persisted `end` and
`next` becomes `e + m`. -/
theorem restart_range_start (c0 : id_block) (fs : filesystem) (e m : Nat)
    (hfile : fs.dir = .file (print_u64 e))
    (hfit : e + m + block_size < u64_size) :
    ∃ s2 s3, read_state ⟨c0, fs⟩ = some (none, s2) ∧
      next_id m s2 = some (e, s3) ∧ s3.current.next = e + m := by
  have he : e < u64_size := by omega
  have hmod : (e + 0) % u64_size = e := by
    rw [Nat.add_zero]; exact Nat.mod_eq_of_lt he
  have hone : e + 1 * block_size = e + block_size := by omega
  obtain ⟨r, s2, h1, h2, h3⟩ := get_next_block_returns 0 ⟨⟨e, e⟩, fs⟩ 1
    (by simp only [hone]; omega)
    (by simp only [hmod, hone, block_size]; omega)
    (by simp only [hmod]; exact below_first_block e e le_rfl)
  rw [write_state_ok .without_next ⟨⟨e, e + 1 * block_size⟩, fs⟩
    (Or.inl (by simp [hfile]))] at h3
  have hr : r = none := congrArg Prod.fst h3
  subst hr
  have hs2n : s2.current.next = e := by rw [h2]
  have hs2e : s2.current.end_ = e + block_size := by rw [h2, hone]
  have hmod2 : (e + m) % u64_size = e + m := Nat.mod_eq_of_lt (by omega)
  obtain ⟨s3, h4, h5, _⟩ := next_id_returns m s2 (by rw [hs2e]; omega)
    (by rw [hs2n, hmod2]; omega)
  rw [hs2n] at h4
  rw [hs2n, hmod2] at h5
  exact ⟨s2, s3, by rw [read_state_after_crash c0 fs e he hfile]; exact h1, h4, h5⟩

/-- C6, amended, at the run of the counterexample: the file holds `8388608`, `m = 3`. -/
theorem restart_range_start_witness :
    8388608 + 3 + block_size < u64_size ∧
      ∃ s2 s3, read_state ⟨⟨0, 0⟩, ⟨.file (print_u64 8388608), true⟩⟩ = some (none, s2) ∧
        next_id 3 s2 = some (8388608, s3) ∧ s3.current.next = 8388608 + 3 :=
  ⟨by decide, restart_range_start ⟨0, 0⟩ ⟨.file (print_u64 8388608), true⟩ 8388608 3
    rfl (by decide)⟩

/-- C7, the claim as stated fails.  From a fresh start, `next_id(8Mi)` moves to
`next = 8Mi`, `end = 16Mi`; then `next_id(2^64 - 8Mi)` wraps `next` around to 0 and
leaves `end` alone.  The state reached has `end - next = 16Mi`. -/
theorem reachable_gap_exceeds_block_after_wrap :
    reachable false ⟨⟨0, 16777216⟩, ⟨.file (print_u64 16777216), true⟩⟩ ∧
      ¬ ((16777216 : Nat) - 0 ≤ block_size) := by
  refine ⟨?_, by decide⟩
  have h0 : reachable false ⟨⟨0, 8388608⟩, ⟨.file (print_u64 8388608), true⟩⟩ :=
    reachable.start ⟨0, 0⟩ ⟨.absent, true⟩ _ (by intro t h; cases h) (by decide)
  have h1 : reachable false ⟨⟨8388608, 16777216⟩, ⟨.file (print_u64 16777216), true⟩⟩ :=
    reachable.call _ 8388608 0 _ h0 (by intro h; cases h) (by decide)
  exact reachable.call _ 18446744073701163008 8388608 _ h1 (by intro h; cases h) (by decide)

/-- C7, amended.  In every state reachable from a start without state file through
`next_id` calls that keep to `k <= available_ids()` and through restarts after a crash
or a clean shutdown, `0 < end - next <= 8Mi`; and when a crash restart follows, the
first ID handed out lies at most 8 Mi above the `next` of the crash. -/
theorem reachable_block_bounds (st : importer_state) (h : reachable true st) :
    (0 < st.current.end_ - st.current.next ∧
        st.current.end_ - st.current.next ≤ block_size) ∧
      ∀ c0 st1 m off st2, read_state ⟨c0, st.fs⟩ = some (none, st1) →
        next_id m st1 = some (off, st2) →
        st.current.next ≤ off ∧ off - st.current.next ≤ block_size := by
  obtain ⟨hfile, hlt, hle, hend⟩ := reachable_persisted st h
  refine ⟨⟨by omega, by omega⟩, ?_⟩
  intro c0 st1 m off st2 hread hcall
  rw [read_state_after_crash c0 st.fs _ hend hfile] at hread
  have hn := (get_next_block_zero_persisted _ _ st.fs st1 hend hend (by omega) hread).2
  obtain ⟨hoff, _⟩ := next_id_some m st1 off st2 hcall
  rw [hoff, hn]
  omega

/-- C7, amended, at the state after a fresh start and `next_id(3 Mi)`. -/
theorem reachable_block_bounds_witness :
    reachable true ⟨⟨3145728, 8388608⟩, ⟨.file (print_u64 8388608), true⟩⟩ ∧
      0 < 8388608 - 3145728 ∧ 8388608 - 3145728 ≤ block_size :=
  have h : reachable true ⟨⟨3145728, 8388608⟩, ⟨.file (print_u64 8388608), true⟩⟩ :=
    reachable.call ⟨⟨0, 8388608⟩, ⟨.file (print_u64 8388608), true⟩⟩ 3145728 0 _
      (reachable.start ⟨0, 0⟩ ⟨.absent, true⟩ _ (by intro t h; cases h) (by decide))
      (by intro _; decide) (by decide)
  ⟨h, (reachable_block_bounds _ h).1⟩

/-- C8.  When the state file holds one unsigned integer `e` and the second extraction
fails, `read_state` sets `next = end = e` before it advances the block: it returns
when `e + 8Mi` fits in 64 bits, `next` is `e` whenever it returns, and no ID handed out
afterwards (without wrap-around) lies below `e`.  Without a state file `read_state`
sets `next = 0` and `end = 0` before it advances the block. -/
theorem read_state_irregular_shutdown (st : importer_state) :
    (∀ text rest e stored, st.fs.dir = .file text → extract_u64 text = .ok e rest →
        extract_u64 rest = .fail stored →
        read_state st = get_next_block 0 ⟨⟨e, e⟩, st.fs⟩ ∧
        (e + block_size < u64_size →
          ∃ r st1, read_state st = some (r, st1) ∧ st1.current = ⟨e, e + block_size⟩) ∧
        (∀ r st1, read_state st = some (r, st1) →
          st1.current.next = e ∧
          ∀ ks offs st2, e + ks.sum < u64_size → handle_slices ks st1 = some (offs, st2) →
            (∀ i, i < ks.length → offs.get? i = some (e + (ks.take i).sum)) ∧
            ∀ x, handed_out offs ks x → e ≤ x)) ∧
      ((∀ t, st.fs.dir ≠ .file t) →
        read_state st = get_next_block 0 ⟨⟨0, 0⟩, st.fs⟩) := by
  refine ⟨?_, read_state_no_file st⟩
  intro text rest e stored hfile h1 h2
  have he : e < u64_size := extract_ok_lt text rest e h1
  have hread := read_state_end_only st text rest e stored hfile h1 h2
  refine ⟨hread, ?_, ?_⟩
  · intro hfit
    have hmod : (e + 0) % u64_size = e := by
      rw [Nat.add_zero]; exact Nat.mod_eq_of_lt he
    have hone : e + 1 * block_size = e + block_size := by omega
    obtain ⟨r, st1, g1, g2, _⟩ := get_next_block_returns 0 ⟨⟨e, e⟩, st.fs⟩ 1
      (by simp only [hone]; exact hfit)
      (by simp only [hmod, hone, block_size]; omega)
      (by simp only [hmod]; exact below_first_block e e le_rfl)
    exact ⟨r, st1, by rw [hread]; exact g1, by rw [g2, hone]⟩
  · intro r st1 hres
    rw [hread] at hres
    obtain ⟨g1, _⟩ := get_next_block_some 0 ⟨⟨e, e⟩, st.fs⟩ r st1 he hres
    have g1e : st1.current.next = e := g1
    refine ⟨g1e, ?_⟩
    intro ks offs st2 hsum hrun
    obtain ⟨_, _, hoffs⟩ := handle_slices_offsets ks st1 offs st2 hrun (by rw [g1e]; exact hsum)
    obtain ⟨_, hrange⟩ := handle_slices_range ks st1 offs st2 hrun (by rw [g1e]; exact hsum)
    refine ⟨?_, ?_⟩
    · intro i hi
      rw [hoffs i hi, g1e]
    · intro x hx
      have := (hrange x hx).1
      omega

/-- C8 at a concrete file: the text `42`. -/
theorem read_state_irregular_shutdown_witness :
    extract_u64 ['4', '2'] = .ok 42 [] ∧ extract_u64 [] = .fail none ∧
      read_state ⟨⟨7, 9⟩, ⟨.file ['4', '2'], true⟩⟩ =
        get_next_block 0 ⟨⟨42, 42⟩, ⟨.file ['4', '2'], true⟩⟩ ∧
      read_state ⟨⟨7, 9⟩, ⟨.file ['4', '2'], true⟩⟩ =
        some (none, ⟨⟨42, 8388650⟩, ⟨.file (print_u64 8388650), true⟩⟩) :=
  ⟨by decide, by decide,
    ((read_state_irregular_shutdown ⟨⟨7, 9⟩, ⟨.file ['4', '2'], true⟩⟩).1
      ['4', '2'] [] 42 none rfl (by decide) (by decide)).1,
    by decide⟩

/-- C9.  With the directory present or creatable, `write_state(with_next)` writes the
decimal `end`, one space and the decimal `next`.  For every state with `next < end`,
`read_state` on the file the destructor leaves restores the same `next` and `end`, so
the first ID handed out after the clean restart is the `next` of the shutdown. -/
theorem clean_shutdown_round_trip (st : importer_state) (c0 : id_block)
    (hlt : st.current.next < st.current.end_) (hend : st.current.end_ < u64_size)
    (hdir : st.fs.dir ≠ .absent ∨ st.fs.mkdir_ok = true) :
    write_state .with_next st = (none, ⟨st.current,
        ⟨.file (print_u64 st.current.end_ ++ ' ' :: print_u64 st.current.next),
          st.fs.mkdir_ok⟩⟩) ∧
      read_state ⟨c0, destroy st⟩ = some (none, ⟨st.current,
        ⟨.file (print_u64 st.current.end_), st.fs.mkdir_ok⟩⟩) ∧
      (∀ m off st2, next_id m ⟨st.current,
          ⟨.file (print_u64 st.current.end_), st.fs.mkdir_ok⟩⟩ = some (off, st2) →
        off = st.current.next) ∧
      (∀ m, (st.current.next + m) % u64_size <
          u64_size - block_size + st.current.end_ % block_size →
        ∃ st2, next_id m ⟨st.current,
          ⟨.file (print_u64 st.current.end_), st.fs.mkdir_ok⟩⟩ =
            some (st.current.next, st2)) := by
  have hw := write_state_ok .with_next st hdir
  have hn : st.current.next < u64_size := lt_trans hlt hend
  refine ⟨hw, ?_, ?_, ?_⟩
  · have hd : (destroy st).dir =
        .file (state_text .with_next ⟨st.current.next, st.current.end_⟩) := by
      simp only [destroy, hw]
    have hm : (destroy st).mkdir_ok = st.fs.mkdir_ok := by
      simp only [destroy, hw]
    rw [read_state_after_shutdown c0 (destroy st) _ _ hend hn hd]
    have hmod : (st.current.next + 0) % u64_size = st.current.next := by
      rw [Nat.add_zero]; exact Nat.mod_eq_of_lt hn
    have hzero : st.current.end_ + 0 * block_size = st.current.end_ := by omega
    rw [get_next_block_eq 0 ⟨⟨st.current.next, st.current.end_⟩, destroy st⟩ 0
      (by simp only [hzero]; exact hend) (by simp only [hmod, hzero]; exact hlt)
      (by intro i hi; omega)]
    rw [write_state_ok .without_next _ (Or.inl (by simp [hd]))]
    simp only [hzero, state_text, hm]
  · intro m off st2 h
    exact (next_id_some m _ off st2 h).1
  · intro m hm
    obtain ⟨st2, h, _⟩ := next_id_returns m
      ⟨st.current, ⟨.file (print_u64 st.current.end_), st.fs.mkdir_ok⟩⟩ hend hm
    exact ⟨st2, h⟩

/-- C9 at a concrete state: `next = 3145728`, `end = 8388608`. -/
theorem clean_shutdown_round_trip_witness :
    destroy ⟨⟨3145728, 8388608⟩, ⟨.file (print_u64 8388608), true⟩⟩ =
        ⟨.file ['8', '3', '8', '8', '6', '0', '8', ' ', '3', '1', '4', '5', '7', '2', '8'],
          true⟩ ∧
      read_state ⟨⟨0, 0⟩, destroy ⟨⟨3145728, 8388608⟩, ⟨.file (print_u64 8388608), true⟩⟩⟩ =
        some (none, ⟨⟨3145728, 8388608⟩, ⟨.file (print_u64 8388608), true⟩⟩) :=
  ⟨by decide,
    (clean_shutdown_round_trip ⟨⟨3145728, 8388608⟩, ⟨.file (print_u64 8388608), true⟩⟩
      ⟨0, 0⟩ (by decide) (by decide) (Or.inr rfl)).2.1⟩

/-- C10 (the code departs from the claim).  With the directory gone and `mkdir`
failing, `write_state` and `get_next_block` report the error, and at startup the
actor quits with it.  `next_id(8Mi + 1)` in the state `next = 0`, `end = 8Mi` drops
that error: it returns offset 0 and moves on to `next = 8Mi + 1`, `end = 16Mi`, so the
ID `8Mi` of the block that was never persisted is handed out. -/
theorem next_id_drops_write_error :
    get_next_block 8388609 ⟨⟨0, 8388608⟩, ⟨.absent, false⟩⟩ =
        some (some ec.filesystem_error, ⟨⟨0, 16777216⟩, ⟨.absent, false⟩⟩) ∧
      next_id 8388609 ⟨⟨0, 8388608⟩, ⟨.absent, false⟩⟩ =
        some (0, ⟨⟨8388609, 16777216⟩, ⟨.absent, false⟩⟩) ∧
      handle_slices [8388609] ⟨⟨0, 8388608⟩, ⟨.absent, false⟩⟩ =
        some ([0], ⟨⟨8388609, 16777216⟩, ⟨.absent, false⟩⟩) ∧
      handed_out [0] [8388609] 8388608 ∧
      importer ⟨⟨0, 0⟩, ⟨.absent, false⟩⟩ = some (.quit ec.filesystem_error) := by
  refine ⟨by decide, by decide, by decide, ?_, by decide⟩
  exact ⟨(0, 8388609), by simp, by decide, by decide⟩

/-! ## Claims on start-up errors and the status report -/

/-- C11.  When the state file exists and its first extraction fails, `read_state`
returns `parse_error` right away: `get_next_block` is not run, so `end` is not
advanced by a block and nothing is written; `next` and the file system are as before
and `end` holds what the failed extraction stored.  The actor function `importer`
then quits with `parse_error` and has no state to hand out IDs from. -/
theorem read_state_parse_error (st : importer_state) (text : List Char)
    (stored : Option Nat) (hfile : st.fs.dir = .file text)
    (hfail : extract_u64 text = .fail stored) :
    read_state st = some (some ec.parse_error,
        ⟨⟨st.current.next, stored.getD st.current.end_⟩, st.fs⟩) ∧
      importer st = some (.quit ec.parse_error) := by
  have h : read_state st = some (some ec.parse_error,
      ⟨⟨st.current.next, stored.getD st.current.end_⟩, st.fs⟩) := by
    unfold read_state
    simp only [hfile, hfail]
  refine ⟨h, ?_⟩
  unfold importer
  rw [h]

/-- C11 at a concrete file: the text `abc`. -/
theorem read_state_parse_error_witness :
    extract_u64 ['a', 'b', 'c'] = .fail (some 0) ∧
      read_state ⟨⟨7, 9⟩, ⟨.file ['a', 'b', 'c'], true⟩⟩ =
        some (some ec.parse_error, ⟨⟨7, 0⟩, ⟨.file ['a', 'b', 'c'], true⟩⟩) ∧
      importer ⟨⟨7, 9⟩, ⟨.file ['a', 'b', 'c'], true⟩⟩ = some (.quit ec.parse_error) :=
  ⟨by decide,
    read_state_parse_error ⟨⟨7, 9⟩, ⟨.file ['a', 'b', 'c'], true⟩⟩ ['a', 'b', 'c'] (some 0)
      rfl (by decide)⟩

theorem lookup_put_self (d : settings) (key : String) (value : List Char) :
    (put d key value).lookup key = some value := by
  induction d with
  | nil => simp [put, List.lookup]
  | cons e rest ih =>
    obtain ⟨k, v⟩ := e
    by_cases hk : k = key
    · simp [put, hk, List.lookup]
    · have hne : (key == k) = false := by
        simpa [beq_eq_false_iff_ne] using fun h : key = k => hk h.symm
      simp [put, hk, List.lookup, hne, ih]

theorem lookup_put_other (d : settings) (key other : String) (value : List Char)
    (h : other ≠ key) : (put d key value).lookup other = d.lookup other := by
  induction d with
  | nil =>
    have hne : (other == key) = false := by simpa [beq_eq_false_iff_ne] using h
    simp [put, List.lookup, hne]
  | cons e rest ih =>
    obtain ⟨k, v⟩ := e
    by_cases hk : k = key
    · subst hk
      have hne : (other == k) = false := by simpa [beq_eq_false_iff_ne] using h
      simp [put, List.lookup, hne]
    · by_cases ho : other = k
      · subst ho
        simp [put, hk, List.lookup]
      · have hne : (other == k) = false := by simpa [beq_eq_false_iff_ne] using ho
        simp [put, hk, List.lookup, hne, ih]

/-- C12.  For every importer state (with `next` a 64-bit value) the result of
`status(v)` is one dictionary under `importer`.  With `v >= detailed` it holds
`ids.available`, `ids.block.next` and `ids.block.end` as the decimal strings of
`2^64 - 1 - next`, `next` and `end`, provided `fill_status_map` (run at `debug`) leaves
these three keys alone.  With `v` below `detailed` the dictionary is empty. -/
theorem status_ids (fill_status_map : settings → settings) (v : status_verbosity)
    (st : importer_state) (hnext : st.current.next < u64_size)
    (hfill : ∀ (d : settings) (k : String),
      k = "ids.available" ∨ k = "ids.block.next" ∨ k = "ids.block.end" →
      (fill_status_map d).lookup k = d.lookup k) :
    ∃ d, status fill_status_map v st = [("importer", d)] ∧
      (status_verbosity.detailed.level ≤ v.level →
        d.lookup "ids.available" = some (print_u64 (2 ^ 64 - 1 - st.current.next)) ∧
        d.lookup "ids.block.next" = some (print_u64 st.current.next) ∧
        d.lookup "ids.block.end" = some (print_u64 st.current.end_)) ∧
      (v.level < status_verbosity.detailed.level →
        d = [] ∧ d.lookup "ids.available" = none ∧ d.lookup "ids.block.next" = none ∧
        d.lookup "ids.block.end" = none) := by
  have havail : available_ids st = 2 ^ 64 - 1 - st.current.next := by
    rw [available_ids_eq st hnext]
    rfl
  have hids : ∀ d0 : settings,
      let d1 := put (put (put d0 "ids.available" (print_u64 (available_ids st)))
        "ids.block.next" (print_u64 st.current.next))
        "ids.block.end" (print_u64 st.current.end_)
      d1.lookup "ids.available" = some (print_u64 (2 ^ 64 - 1 - st.current.next)) ∧
        d1.lookup "ids.block.next" = some (print_u64 st.current.next) ∧
        d1.lookup "ids.block.end" = some (print_u64 st.current.end_) := by
    intro d0
    refine ⟨?_, ?_, ?_⟩
    · rw [lookup_put_other _ _ _ _ (by decide), lookup_put_other _ _ _ _ (by decide),
        lookup_put_self, havail]
    · rw [lookup_put_other _ _ _ _ (by decide), lookup_put_self]
    · rw [lookup_put_self]
  cases v with
  | info =>
    refine ⟨[], rfl, ?_, ?_⟩
    · intro h; exact absurd h (by decide)
    · intro _; exact ⟨rfl, rfl, rfl, rfl⟩
  | detailed =>
    refine ⟨_, rfl, ?_, ?_⟩
    · intro _; exact hids []
    · intro h; exact absurd h (by decide)
  | debug =>
    refine ⟨_, rfl, ?_, ?_⟩
    · intro _
      have h := hids []
      simp only [status_verbosity.level, le_refl, if_true, Nat.one_le_ofNat]
      refine ⟨?_, ?_, ?_⟩
      · rw [hfill _ _ (Or.inl rfl)]; exact h.1
      · rw [hfill _ _ (Or.inr (Or.inl rfl))]; exact h.2.1
      · rw [hfill _ _ (Or.inr (Or.inr rfl))]; exact h.2.2
    · intro h; exact absurd h (by decide)

/-- C12 at the state after a fresh start, at `debug` with a `fill_status_map` that adds
one entry. -/
theorem status_ids_witness :
    status (fun d => put d "name" ['i']) .debug
        ⟨⟨0, 8388608⟩, ⟨.file (print_u64 8388608), true⟩⟩ =
      [("importer", [("ids.available", print_u64 18446744073709551615),
        ("ids.block.next", ['0']), ("ids.block.end", print_u64 8388608),
        ("name", ['i'])])] ∧
      ∃ d, status (fun d => put d "name" ['i']) .debug
          ⟨⟨0, 8388608⟩, ⟨.file (print_u64 8388608), true⟩⟩ = [("importer", d)] ∧
        (status_verbosity.detailed.level ≤ status_verbosity.debug.level →
          d.lookup "ids.available" = some (print_u64 (2 ^ 64 - 1 - 0)) ∧
          d.lookup "ids.block.next" = some (print_u64 0) ∧
          d.lookup "ids.block.end" = some (print_u64 8388608)) ∧
        (status_verbosity.debug.level < status_verbosity.detailed.level →
          d = [] ∧ d.lookup "ids.available" = none ∧ d.lookup "ids.block.next" = none ∧
          d.lookup "ids.block.end" = none) :=
  ⟨by decide,
    status_ids (fun d => put d "name" ['i']) .debug
      ⟨⟨0, 8388608⟩, ⟨.file (print_u64 8388608), true⟩⟩ (by decide)
      (by
        intro d k hk
        have hne : k ≠ "name" := by
          rcases hk with h | h | h <;> rw [h] <;> decide
        exact lookup_put_other d "name" k ['i'] hne)⟩

end vast.system

namespace vast

/-! ## Bitmap lemmas -/

theorem bits_of_runs_append_run (rs : List (Bool × Nat)) (bit : Bool) (k : Nat) :
    bits_of_runs (append_run rs bit k) = bits_of_runs rs ++ List.replicate k bit := by
  induction rs with
  | nil => simp [append_run, bits_of_runs]
  | cons r rest ih =>
    cases rest with
    | nil =>
      by_cases h : r.1 = bit
      · rw [append_run, if_pos h]
        subst h
        simp [bits_of_runs]
      · rw [append_run, if_neg h]
        simp [bits_of_runs]
    | cons r2 rs2 =>
      simp only [append_run, bits_of_runs] at ih ⊢
      rw [ih]
      simp [List.append_assoc]

theorem bitmap.bits_append (b : bitmap) (bit : Bool) (k : Nat) :
    (b.append bit k).bits = b.bits ++ List.replicate k bit := by
  unfold bitmap.append bitmap.bits
  by_cases h : k = 0
  · simp [h]
  · simp only [h, if_false]
    exact bits_of_runs_append_run b.runs bit k

theorem bits_of_runs_length (rs : List (Bool × Nat)) :
    (bits_of_runs rs).length = (rs.map Prod.snd).sum := by
  induction rs with
  | nil => rfl
  | cons r rest ih => simp [bits_of_runs, ih]

theorem bitmap.size_eq (b : bitmap) : b.size = b.bits.length :=
  (bits_of_runs_length b.runs).symm

theorem bitmap.size_append (b : bitmap) (bit : Bool) (k : Nat) :
    (b.append bit k).size = b.size + k := by
  rw [bitmap.size_eq, bitmap.bits_append, bitmap.size_eq]
  simp

theorem bitmap.bits_empty : bitmap.empty.bits = [] := rfl

theorem bitmap.size_empty : bitmap.empty.size = 0 := rfl

theorem mem_positions_from (bs : List Bool) : ∀ (start i : Nat),
    i ∈ positions_from start bs ↔ start ≤ i ∧ bs[i - start]? = some true := by
  induction bs with
  | nil => intro start i; simp [positions_from]
  | cons b rest ih =>
    intro start i
    have hstep : ∀ (h : start < i), (b :: rest)[i - start]? = rest[i - (start + 1)]? := by
      intro h
      have : i - start = (i - (start + 1)) + 1 := by omega
      rw [this, List.getElem?_cons_succ]
    cases b with
    | true =>
      simp only [positions_from, if_true, List.mem_cons, ih]
      constructor
      · rintro (rfl | ⟨h1, h2⟩)
        · simp
        · exact ⟨by omega, by rw [hstep (by omega)]; exact h2⟩
      · rintro ⟨h1, h2⟩
        by_cases he : i = start
        · exact Or.inl he
        · exact Or.inr ⟨by omega, by rw [← hstep (by omega)]; exact h2⟩
    | false =>
      simp only [positions_from, Bool.false_eq_true, if_false, ih]
      constructor
      · rintro ⟨h1, h2⟩
        exact ⟨by omega, by rw [hstep (by omega)]; exact h2⟩
      · rintro ⟨h1, h2⟩
        by_cases he : i = start
        · subst he
          simp at h2
        · exact ⟨by omega, by rw [← hstep (by omega)]; exact h2⟩

theorem bitmap.mem_positions (b : bitmap) (i : Nat) :
    i ∈ b.positions ↔ b.bits[i]? = some true := by
  unfold bitmap.positions
  rw [mem_positions_from]
  simp

end vast

namespace vast

/-! ## Value index lemmas -/

theorem bitmap_of_set_bit_self {α : Type} [DecidableEq α] (l : List (α × bitmap)) (v : α)
    (p : Nat) :
    bitmap_of (set_bit l v p) v =
      ((bitmap_of l v).append false (p - (bitmap_of l v).size)).append true 1 := by
  induction l with
  | nil => simp [set_bit, bitmap_of, bitmap.size_empty]
  | cons e rest ih =>
    by_cases h : e.1 = v
    · simp [set_bit, bitmap_of, h]
    · simp [set_bit, bitmap_of, h, ih]

theorem bitmap_of_set_bit_other {α : Type} [DecidableEq α] (l : List (α × bitmap)) (v w : α)
    (p : Nat) (hw : w ≠ v) : bitmap_of (set_bit l v p) w = bitmap_of l w := by
  induction l with
  | nil =>
    have : ¬ v = w := fun h => hw h.symm
    simp [set_bit, bitmap_of, this]
  | cons e rest ih =>
    by_cases h : e.1 = v
    · have : ¬ e.1 = w := fun h2 => hw (h2.symm.trans h)
      have h3 : ¬ v = w := fun h2 => hw h2.symm
      simp [set_bit, bitmap_of, h, this, h3]
    · by_cases h2 : e.1 = w
      · subst h2
        simp [set_bit, bitmap_of, hw]
      · simp [set_bit, bitmap_of, h, h2, ih]

theorem indexed_nil {α : Type} [DecidableEq α] : indexed (⟨[], 0⟩ : value_index α) [] := by
  refine ⟨rfl, ?_⟩
  intro v
  simp [bitmap_of, bitmap.size_empty, value_index.bitmap_for, bitmap.append,
    bitmap.bits_empty]

theorem indexed_append_none {α : Type} [DecidableEq α] (idx : value_index α)
    (cells : List (Option α)) (h : indexed idx cells) :
    indexed (idx.extend cells.length) (cells ++ [none]) := by
  obtain ⟨h1, h2⟩ := h
  have hnot : ¬ cells.length < idx.size := by omega
  have hext : idx.extend cells.length = ⟨idx.bitmaps, cells.length + 1⟩ := by
    simp [value_index.extend, hnot]
  rw [hext]
  refine ⟨by simp, ?_⟩
  intro w
  obtain ⟨hsz, hbits⟩ := h2 w
  simp only [value_index.bitmap_for, bitmap.bits_append] at hbits
  refine ⟨by show (bitmap_of idx.bitmaps w).size ≤ cells.length + 1; omega, ?_⟩
  simp only [value_index.bitmap_for, bitmap.bits_append, List.map_append, ← hbits]
  have e : cells.length + 1 - (bitmap_of idx.bitmaps w).size =
      (idx.size - (bitmap_of idx.bitmaps w).size) + 1 := by omega
  rw [e, List.replicate_succ']
  simp

theorem indexed_append_some {α : Type} [DecidableEq α] (idx : value_index α)
    (cells : List (Option α)) (v : α) (h : indexed idx cells) :
    indexed (idx.append v cells.length) (cells ++ [some v]) := by
  obtain ⟨h1, h2⟩ := h
  have hnot : ¬ cells.length < idx.size := by omega
  have happ : idx.append v cells.length = ⟨set_bit idx.bitmaps v cells.length, cells.length + 1⟩ := by
    simp [value_index.append, hnot]
  rw [happ]
  refine ⟨by simp, ?_⟩
  intro w
  obtain ⟨hsz, hbits⟩ := h2 w
  simp only [value_index.bitmap_for, bitmap.bits_append] at hbits
  by_cases hw : w = v
  · subst hw
    simp only [value_index.bitmap_for, bitmap_of_set_bit_self, bitmap.size_append,
      bitmap.bits_append, List.map_append, ← hbits]
    refine ⟨by omega, ?_⟩
    have e1 : cells.length + 1 - ((bitmap_of idx.bitmaps w).size +
        (cells.length - (bitmap_of idx.bitmaps w).size) + 1) = 0 := by omega
    have e2 : cells.length - (bitmap_of idx.bitmaps w).size =
        idx.size - (bitmap_of idx.bitmaps w).size := by omega
    rw [e1, e2]
    simp
  · simp only [value_index.bitmap_for, bitmap_of_set_bit_other _ _ _ _ hw,
      bitmap.bits_append, List.map_append, ← hbits]
    refine ⟨by omega, ?_⟩
    have e2 : cells.length + 1 - (bitmap_of idx.bitmaps w).size =
        (idx.size - (bitmap_of idx.bitmaps w).size) + 1 := by omega
    have hne : ¬ v = w := fun h => hw h.symm
    rw [e2, List.replicate_succ']
    simp only [List.append_assoc, List.map_cons, List.map_nil, Option.some.injEq, hne,
      decide_False]

theorem add_rows_indexed {α : Type} [DecidableEq α] (base offset : Nat) :
    ∀ (cs done : List (Option α)) (idx : value_index α) (r : Nat),
      indexed idx done → offset + r = base + done.length →
      indexed (add_rows base offset idx r cs) (done ++ cs) := by
  intro cs
  induction cs with
  | nil => intro done idx r h _; simpa [add_rows] using h
  | cons c rest ih =>
    intro done idx r h hpos
    have hassoc : done ++ c :: rest = (done ++ [c]) ++ rest := by simp
    rw [hassoc]
    cases c with
    | none =>
      simp only [add_rows]
      have hp : offset + r - base = done.length := by omega
      rw [hp]
      exact ih (done ++ [none]) _ (r + 1) (indexed_append_none idx done h)
        (by simp; omega)
    | some v =>
      simp only [add_rows]
      have hp : offset + r - base = done.length := by omega
      rw [hp]
      exact ih (done ++ [some v]) _ (r + 1) (indexed_append_some idx done v h)
        (by simp; omega)

theorem add_all_indexed {α : Type} [DecidableEq α] (t : field_type)
    (hskip : has_skip t = false) :
    ∀ (slices : List (table_slice_column α)) (base0 base : Nat) (idx : value_index α)
      (done : List (Option α)), indexed idx done → base = base0 + done.length →
      dense base slices →
      ∃ idx1, column_index.add_all ⟨t, base0, idx⟩ slices = ⟨t, base0, idx1⟩ ∧
        indexed idx1 (done ++ all_cells slices) := by
  intro slices
  induction slices with
  | nil =>
    intro base0 base idx done h _ _
    exact ⟨idx, rfl, by simpa [all_cells] using h⟩
  | cons s rest ih =>
    intro base0 base idx done h hbase hdense
    obtain ⟨hoff, hrest⟩ := hdense
    have hstep : column_index.add ⟨t, base0, idx⟩ s =
        ⟨t, base0, add_rows base0 s.offset idx 0 s.cells⟩ := by
      simp [column_index.add, column_index.has_skip_attribute, hskip]
    have hidx := add_rows_indexed base0 s.offset s.cells done idx 0 h (by omega)
    obtain ⟨idx1, h1, h2⟩ := ih base0 (base + s.cells.length) _ (done ++ s.cells) hidx
      (by simp; omega) hrest
    refine ⟨idx1, ?_, ?_⟩
    · simp only [column_index.add_all, List.foldl_cons, hstep] at h1 ⊢
      exact h1
    · simpa [all_cells, List.append_assoc] using h2

end vast

namespace vast

/-! ## Serialization lemmas -/

theorem decode_encode_runs (rs : List (Bool × Nat)) (rest : List Nat) :
    decode_runs rs.length (encode_runs rs ++ rest) = some (rs, rest) := by
  induction rs with
  | nil => rfl
  | cons r tail ih =>
    obtain ⟨bit, len⟩ := r
    cases bit <;> simp [encode_runs, decode_runs, ih]

theorem decode_encode_entries {α : Type} (c : codec α) (es : List (α × bitmap))
    (rest : List Nat) :
    decode_entries c es.length (encode_entries c es ++ rest) = some (es, rest) := by
  induction es with
  | nil => rfl
  | cons e tail ih =>
    obtain ⟨v, b⟩ := e
    simp only [encode_entries, List.length_cons, decode_entries, List.append_assoc,
      List.cons_append, c.decode_encode, decode_encode_runs, ih]

theorem load_serialize {α : Type} (c : codec α) (col : column_index α) :
    column_index.load c col.type (col.serialize c) = .ok col := by
  have h := decode_encode_entries c col.idx.bitmaps []
  rw [List.append_nil] at h
  simp only [column_index.serialize, column_index.load, if_true, h]

theorem add_all_type {α : Type} [DecidableEq α] :
    ∀ (slices : List (table_slice_column α)) (col : column_index α),
      (col.add_all slices).type = col.type := by
  intro slices
  induction slices with
  | nil => intro col; rfl
  | cons s rest ih =>
    intro col
    have hstep : (col.add s).type = col.type := by
      unfold column_index.add
      split <;> rfl
    simp only [column_index.add_all, List.foldl_cons] at ih ⊢
    rw [ih, hstep]

/-! ## Claims on the column index -/

theorem all_cells_length {α : Type} (slices : List (table_slice_column α)) :
    (all_cells slices).length = (slices.map fun s => s.cells.length).sum := by
  induction slices with
  | nil => rfl
  | cons s rest ih => simp [all_cells, ih]

/-- C13, the claim as stated fails.  A column index made for a type with the attribute
`skip` is a fresh column index to which slices can be added, yet it takes nothing in:
after the three rows `[1,1,1]` its `lookup(eq, 1)` is the empty bitmap, of length 0 and
without set positions, while 3 rows were added and the column holds 1 in each of them;
and after the rows `[1,2,3,1,2,3,1,2,3]` its `lookup(eq, 1)` has no position, not
`{0,3,6}`. -/
theorem lookup_eq_on_skip_column_is_empty :
    has_skip ⟨1, "bar", [⟨"skip", none⟩]⟩ = true ∧
      dense 0 [(⟨0, [some 1, some 1, some 1]⟩ : table_slice_column Int)] ∧
      (all_cells [(⟨0, [some 1, some 1, some 1]⟩ : table_slice_column Int)]).length = 3 ∧
      (all_cells [(⟨0, [some 1, some 1, some 1]⟩ : table_slice_column Int)])[0]? =
        some (some 1) ∧
      (((column_index.fresh ⟨1, "bar", [⟨"skip", none⟩]⟩ 0 : column_index Int).add_all
        [⟨0, [some 1, some 1, some 1]⟩]).lookup .eq 1).size = 0 ∧
      (((column_index.fresh ⟨1, "bar", [⟨"skip", none⟩]⟩ 0 : column_index Int).add_all
        [⟨0, [some 1, some 1, some 1]⟩]).lookup .eq 1).positions = [] ∧
      (((column_index.fresh ⟨1, "bar", [⟨"skip", none⟩]⟩ 0 : column_index Int).add_all
        [⟨0, [some 1, some 2, some 3, some 1, some 2, some 3, some 1, some 2,
          some 3]⟩]).lookup .eq 1).size = 0 ∧
      (((column_index.fresh ⟨1, "bar", [⟨"skip", none⟩]⟩ 0 : column_index Int).add_all
        [⟨0, [some 1, some 2, some 3, some 1, some 2, some 3, some 1, some 2,
          some 3]⟩]).lookup .eq 1).positions = [] :=
  ⟨by decide, ⟨rfl, trivial⟩, by decide, by decide, by decide, by decide, by decide,
    by decide⟩

/-- C13, amended.  For every sequence of slices that follow each other without gap
from the base offset, added to a fresh column index without the attribute `skip`,
`lookup(eq, v)` returns the bitmap whose length is the total number of rows added, null
rows included, and whose set positions are exactly the row positions at which the
column holds `v`: none when `v` never occurs. -/
theorem column_index_lookup_eq {α : Type} [LinearOrder α] (t : field_type)
    (hskip : has_skip t = false) (base : Nat) (slices : List (table_slice_column α))
    (hdense : dense base slices) (v : α) :
    (((column_index.fresh t base).add_all slices).lookup .eq v).bits =
        (all_cells slices).map (fun c => decide (c = some v)) ∧
      (∀ i, i ∈ (((column_index.fresh t base).add_all slices).lookup .eq v).positions ↔
        (all_cells slices)[i]? = some (some v)) ∧
      (((column_index.fresh t base).add_all slices).lookup .eq v).size =
        (slices.map fun s => s.cells.length).sum ∧
      (all_cells slices).length = (slices.map fun s => s.cells.length).sum ∧
      ((∀ c ∈ all_cells slices, c ≠ some v) →
        (((column_index.fresh t base).add_all slices).lookup .eq v).positions = []) := by
  obtain ⟨idx1, h1, h2, h3⟩ := add_all_indexed t hskip slices base base ⟨[], 0⟩ []
    indexed_nil (by simp) hdense
  rw [List.nil_append] at h2 h3
  have hcol : (column_index.fresh t base : column_index α).add_all slices = ⟨t, base, idx1⟩ := h1
  have hlook : ((column_index.fresh t base : column_index α).add_all slices).lookup .eq v =
      idx1.bitmap_for v := by
    rw [hcol]
    simp [column_index.lookup, column_index.has_skip_attribute, hskip, value_index.lookup]
  have hbits := (h3 v).2
  have hsize : (idx1.bitmap_for v).size = (all_cells slices).length := by
    rw [bitmap.size_eq, hbits]
    simp
  have hpos : ∀ i, i ∈ (idx1.bitmap_for v).positions ↔
      (all_cells slices)[i]? = some (some v) := by
    intro i
    rw [bitmap.mem_positions, hbits, List.getElem?_map]
    cases hc : (all_cells slices)[i]? with
    | none => simp
    | some c => simp
  rw [hlook]
  refine ⟨hbits, hpos, by rw [hsize, all_cells_length], all_cells_length slices, ?_⟩
  intro hnever
  apply List.eq_nil_iff_forall_not_mem.2
  intro i hi
  have hc := (hpos i).1 hi
  have hmem : some v ∈ all_cells slices := by
    rw [List.mem_iff_getElem?]
    exact ⟨i, hc⟩
  exact hnever (some v) hmem rfl

/-- C13, amended, at the data of the tests: the values `[1,2,3,1,2,3,1,2,3]` in one
slice give `{0,3,6}`, `{1,4,7}`, `{2,5,8}` and `{}` for 1, 2, 3 and 4, each of length
9; twenty rows in slices of 8, 8 and 4 rows with the address 192.168.1.103 in the
rows 1, 3, 7, 14 and 16 give exactly these positions, with length 20; and the rows 1,
null, 1, null give `{0,2}` with length 4. -/
theorem column_index_lookup_eq_witness :
    has_skip ⟨1, "value", []⟩ = false ∧
      dense 0 [(⟨0, [some 1, some 2, some 3, some 1, some 2, some 3, some 1, some 2,
        some 3]⟩ : table_slice_column Int)] ∧
      (∀ i, i ∈ (((column_index.fresh ⟨1, "value", []⟩ 0 : column_index Int).add_all
          [⟨0, [some 1, some 2, some 3, some 1, some 2, some 3, some 1, some 2,
            some 3]⟩]).lookup .eq 1).positions ↔
        (all_cells [(⟨0, [some 1, some 2, some 3, some 1, some 2, some 3, some 1, some 2,
          some 3]⟩ : table_slice_column Int)])[i]? = some (some 1)) ∧
      ([1, 2, 3, 4].map fun v =>
        (((column_index.fresh ⟨1, "value", []⟩ 0 : column_index Int).add_all
          [⟨0, [some 1, some 2, some 3, some 1, some 2, some 3, some 1, some 2,
            some 3]⟩]).lookup .eq v).positions) = [[0, 3, 6], [1, 4, 7], [2, 5, 8], []] ∧
      ([1, 2, 3, 4].map fun v =>
        (((column_index.fresh ⟨1, "value", []⟩ 0 : column_index Int).add_all
          [⟨0, [some 1, some 2, some 3, some 1, some 2, some 3, some 1, some 2,
            some 3]⟩]).lookup .eq v).size) = [9, 9, 9, 9] ∧
      (((column_index.fresh ⟨7, "id.orig_h", []⟩ 0 : column_index Nat).add_all
        [⟨0, [some 3232235779, some 3232235879, some 3232235778, some 3232235879,
            some 3232235778, some 3232235779, some 3232235778, some 3232235879]⟩,
          ⟨8, [some 3232235778, some 3232235779, some 3232235778, some 3232235779,
            some 3232235778, some 3232235779, some 3232235879, some 3232235778]⟩,
          ⟨16, [some 3232235879, some 3232235778, some 3232235779,
            some 3232235778]⟩]).lookup .eq 3232235879).positions = [1, 3, 7, 14, 16] ∧
      (((column_index.fresh ⟨7, "id.orig_h", []⟩ 0 : column_index Nat).add_all
        [⟨0, [some 3232235779, some 3232235879, some 3232235778, some 3232235879,
            some 3232235778, some 3232235779, some 3232235778, some 3232235879]⟩,
          ⟨8, [some 3232235778, some 3232235779, some 3232235778, some 3232235779,
            some 3232235778, some 3232235779, some 3232235879, some 3232235778]⟩,
          ⟨16, [some 3232235879, some 3232235778, some 3232235779,
            some 3232235778]⟩]).lookup .eq 3232235879).size = 20 ∧
      (((column_index.fresh ⟨1, "value", []⟩ 0 : column_index Int).add_all
        [⟨0, [some 1, none]⟩, ⟨2, [some 1, none]⟩]).lookup .eq 1).positions = [0, 2] ∧
      (((column_index.fresh ⟨1, "value", []⟩ 0 : column_index Int).add_all
        [⟨0, [some 1, none]⟩, ⟨2, [some 1, none]⟩]).lookup .eq 1).size = 4 :=
  ⟨by decide, ⟨rfl, trivial⟩,
    (column_index_lookup_eq ⟨1, "value", []⟩ (by decide) 0
      [⟨0, [some 1, some 2, some 3, some 1, some 2, some 3, some 1, some 2, some 3]⟩]
      ⟨rfl, trivial⟩ 1).2.1,
    by decide, by decide, by decide, by decide, by decide, by decide⟩

/-- C14.  For every column index, after `flush_to_disk` and re-creating the index from
the same directory and type, the index can be made and `lookup` returns for every
operator and operand the bitmap it returned before the flush. -/
theorem column_index_round_trip {α : Type} [LinearOrder α] (c : codec α)
    (col : column_index α) (directory : Option (List Nat)) (base : Nat) :
    ∃ col1, make_column_index c (col.flush_to_disk c directory) base col.type = .ok col1 ∧
      ∀ op x, col1.lookup op x = col.lookup op x := by
  cases hs : has_skip col.type with
  | true =>
    refine ⟨column_index.fresh col.type base, by simp [make_column_index, hs], ?_⟩
    intro op x
    simp [column_index.lookup, column_index.has_skip_attribute, column_index.fresh, hs]
  | false =>
    refine ⟨col, ?_, fun _ _ => rfl⟩
    simp only [make_column_index, hs, column_index.flush_to_disk,
      column_index.has_skip_attribute, Bool.false_eq_true, if_false]
    exact load_serialize c col

/-- C15.  A column index has `has_skip_attribute() = true` exactly when its type
carries an attribute with the key `skip`; and such a column index returns the empty
bitmap from `lookup` for every operator and operand, whatever slices were added. -/
theorem skip_column_lookup_empty {α : Type} [LinearOrder α] (t : field_type) (base : Nat) :
    ((column_index.fresh t base : column_index α).has_skip_attribute = true ↔
        ∃ a ∈ t.attributes, a.key = "skip") ∧
      ∀ slices : List (table_slice_column α),
        (((column_index.fresh t base).add_all slices).has_skip_attribute =
          (column_index.fresh t base : column_index α).has_skip_attribute) ∧
        ((column_index.fresh t base : column_index α).has_skip_attribute = true →
          ∀ op x, ((column_index.fresh t base).add_all slices).lookup op x = bitmap.empty ∧
            (((column_index.fresh t base).add_all slices).lookup op x).positions = []) := by
  refine ⟨by simp [column_index.has_skip_attribute, column_index.fresh, has_skip], ?_⟩
  intro slices
  have ht := add_all_type slices (column_index.fresh t base : column_index α)
  have hsame : ((column_index.fresh t base : column_index α).add_all slices).has_skip_attribute =
      (column_index.fresh t base : column_index α).has_skip_attribute := by
    simp only [column_index.has_skip_attribute, ht]
  refine ⟨hsame, ?_⟩
  intro hskip op x
  have hl : ((column_index.fresh t base : column_index α).add_all slices).lookup op x =
      bitmap.empty := by
    simp only [column_index.lookup, hsame, hskip, if_true]
  rw [hl]
  exact ⟨rfl, rfl⟩

/-- C15 at the data of the tests: the type `bar` with the attribute `skip` reports it,
the type `foo` does not, and after the values `[1,1,1]` the column of `bar` answers
`lookup(eq, 1)` with the empty bitmap. -/
theorem skip_column_lookup_empty_witness :
    (column_index.fresh ⟨1, "foo", []⟩ 0 : column_index Int).has_skip_attribute = false ∧
      (column_index.fresh ⟨1, "bar", [⟨"skip", none⟩]⟩ 0 : column_index Int).has_skip_attribute
        = true ∧
      ((column_index.fresh ⟨1, "bar", [⟨"skip", none⟩]⟩ 0 : column_index Int).add_all
        [⟨0, [some 1, some 1, some 1]⟩]).lookup .eq 1 = bitmap.empty ∧
      (((column_index.fresh ⟨1, "bar", [⟨"skip", none⟩]⟩ 0 : column_index Int).add_all
        [⟨0, [some 1, some 1, some 1]⟩]).lookup .eq 1).positions = [] :=
  ⟨by decide, by decide,
    (((skip_column_lookup_empty (α := Int) ⟨1, "bar", [⟨"skip", none⟩]⟩ 0).2
      [⟨0, [some 1, some 1, some 1]⟩]).2 (by decide) .eq 1).1,
    by decide⟩

end vast

namespace vast

/-! ## Claims on the min-max synopsis -/

/-- Adding time values keeps the least and the greatest of them. -/
theorem fold_add_range : ∀ (ts done : List Int) (s : min_max_synopsis),
    ((s.range = none ∧ done = []) ∨
      ∃ lo hi, s.range = some (lo, hi) ∧ lo ∈ done ∧ hi ∈ done ∧
        ∀ t ∈ done, lo ≤ t ∧ t ≤ hi) →
    (((ts.map data.time).foldl min_max_synopsis.add s).range = none ∧ done ++ ts = []) ∨
      ∃ lo hi, ((ts.map data.time).foldl min_max_synopsis.add s).range = some (lo, hi) ∧
        lo ∈ done ++ ts ∧ hi ∈ done ++ ts ∧ ∀ t ∈ done ++ ts, lo ≤ t ∧ t ≤ hi := by
  intro ts
  induction ts with
  | nil => intro done s h; simpa using h
  | cons a rest ih =>
    intro done s h
    have hassoc : done ++ a :: rest = (done ++ [a]) ++ rest := by simp
    rw [hassoc]
    simp only [List.map_cons, List.foldl_cons]
    apply ih (done ++ [a])
    right
    rcases h with ⟨hr, hd⟩ | ⟨lo, hi, hr, hlo, hhi, hall⟩
    · refine ⟨a, a, by simp [min_max_synopsis.add, hr], by simp, by simp, ?_⟩
      intro t ht
      subst hd
      simp at ht
      subst ht
      exact ⟨le_refl _, le_refl _⟩
    · refine ⟨min lo a, max hi a, by simp [min_max_synopsis.add, hr], ?_, ?_, ?_⟩
      · rcases min_choice lo a with h | h
        · rw [h]; exact List.mem_append_left _ hlo
        · rw [h]; simp
      · rcases max_choice hi a with h | h
        · rw [h]; exact List.mem_append_left _ hhi
        · rw [h]; simp
      · intro t ht
        rcases List.mem_append.mp ht with ht | ht
        · obtain ⟨h1, h2⟩ := hall t ht
          exact ⟨le_trans (min_le_left _ _) h1, le_trans h2 (le_max_left _ _)⟩
        · simp at ht
          subst ht
          exact ⟨min_le_right _ _, le_max_right _ _⟩

/-- The synopsis built from values with least value `lo` and greatest value `hi`
holds the range `[lo, hi]`. -/
theorem of_times_range (ts : List Int) (lo hi : Int)
    (hlo : lo ∈ ts ∧ ∀ t ∈ ts, lo ≤ t) (hhi : hi ∈ ts ∧ ∀ t ∈ ts, t ≤ hi) :
    (min_max_synopsis.of_times ts).range = some (lo, hi) := by
  have h := fold_add_range ts [] min_max_synopsis.make (Or.inl ⟨rfl, rfl⟩)
  rw [List.nil_append] at h
  rcases h with ⟨_, hnil⟩ | ⟨lo1, hi1, hr, hlo1, hhi1, hall⟩
  · rw [hnil] at hlo
    simp at hlo
  · have e1 : lo1 = lo := le_antisymm (hall lo hlo.1).1 (hlo.2 lo1 hlo1)
    have e2 : hi1 = hi := le_antisymm (hhi.2 hi1 hhi1) (hall hi hhi.1).2
    rw [← e1, ← e2]
    exact hr

/-- C16.  For a min-max time synopsis built from values with minimum `lo` and maximum
`hi`, and every time operand `x`, `lookup` answers no exactly in these cases and yes
otherwise: `eq` when `x < lo` or `x > hi`; `ne` when `lo <= x <= hi`; `lt` when
`lo >= x`; `le` when `lo > x`; `gt` when `hi <= x`; `ge` when `hi < x`. -/
theorem min_max_synopsis_lookup (ts : List Int) (lo hi x : Int)
    (hlo : lo ∈ ts ∧ ∀ t ∈ ts, lo ≤ t) (hhi : hi ∈ ts ∧ ∀ t ∈ ts, t ≤ hi) :
    (min_max_synopsis.of_times ts).lookup .eq (.time x) = some (decide (¬ (x < lo ∨ x > hi))) ∧
      (min_max_synopsis.of_times ts).lookup .ne (.time x) =
        some (decide (¬ (lo ≤ x ∧ x ≤ hi))) ∧
      (min_max_synopsis.of_times ts).lookup .lt (.time x) = some (decide (¬ lo ≥ x)) ∧
      (min_max_synopsis.of_times ts).lookup .le (.time x) = some (decide (¬ lo > x)) ∧
      (min_max_synopsis.of_times ts).lookup .gt (.time x) = some (decide (¬ hi ≤ x)) ∧
      (min_max_synopsis.of_times ts).lookup .ge (.time x) = some (decide (¬ hi < x)) := by
  have hr := of_times_range ts lo hi hlo hhi
  refine ⟨?_, ?_, ?_, ?_, ?_, ?_⟩ <;>
    simp only [min_max_synopsis.lookup, min_max_synopsis.do_lookup,
      min_max_synopsis.lookup_impl, hr, Option.some.injEq] <;>
    by_cases h1 : lo ≤ x <;> by_cases h2 : x ≤ hi <;> simp [h1, h2]

/-- C16 at the data of the test: the values 4 s and 7 s after the epoch, and the
twelve answers to the operands 0 s, 4 s, 6 s, 7 s and 9 s. -/
theorem min_max_synopsis_lookup_witness :
    ((4000000000 : Int) ∈ [4000000000, 7000000000] ∧
        ∀ t ∈ [(4000000000 : Int), 7000000000], 4000000000 ≤ t) ∧
      (min_max_synopsis.of_times [4000000000, 7000000000]).lookup .eq (.time 9000000000) =
        some (decide (¬ ((9000000000 : Int) < 4000000000 ∨ (9000000000 : Int) > 7000000000))) ∧
      [(0 : Int), 4000000000, 6000000000, 7000000000, 9000000000].map (fun x =>
        all_operators.map fun op =>
          (min_max_synopsis.of_times [4000000000, 7000000000]).lookup op (.time x)) =
        [[none, none, none, none, none, none,
            some false, some true, some false, some false, some true, some true],
          [none, none, none, none, none, none,
            some true, some false, some false, some true, some true, some true],
          [none, none, none, none, none, none,
            some true, some false, some true, some true, some true, some true],
          [none, none, none, none, none, none,
            some true, some false, some true, some true, some false, some true],
          [none, none, none, none, none, none,
            some false, some true, some true, some true, some false, some false]] :=
  ⟨⟨by decide, by decide⟩,
    (min_max_synopsis_lookup [4000000000, 7000000000] 4000000000 7000000000 9000000000
      ⟨by decide, by decide⟩ ⟨by decide, by decide⟩).1,
    by decide⟩

/-- Whether a list holds a time value inside the range. -/
theorem any_do_lookup (s : min_max_synopsis) (lo hi : Int) (hr : s.range = some (lo, hi))
    (xs : List data) :
    (xs.any fun x => s.do_lookup .eq x == some true) = true ↔
      ∃ t, data.time t ∈ xs ∧ lo ≤ t ∧ t ≤ hi := by
  rw [List.any_eq_true]
  constructor
  · rintro ⟨x, hx, h⟩
    cases x with
    | time t =>
      refine ⟨t, hx, ?_⟩
      simpa [min_max_synopsis.do_lookup, min_max_synopsis.lookup_impl, hr] using h
    | _ => simp [min_max_synopsis.do_lookup] at h
  · rintro ⟨t, ht, h1, h2⟩
    exact ⟨.time t, ht, by simp [min_max_synopsis.do_lookup, min_max_synopsis.lookup_impl,
      hr, h1, h2]⟩

/-- C17.  For a min-max time synopsis built from values with minimum `lo` and maximum
`hi`: an operand that is neither a time value nor a list gets no answer under any
operator; for a list operand `xs`, `lookup(in, xs)` is yes exactly when some element
of `xs` is a time value inside `[lo, hi]` and no otherwise, `lookup(not_in, xs)` is
its negation, and every other operator gets no answer. -/
theorem min_max_synopsis_lookup_typed (ts : List Int) (lo hi : Int)
    (hlo : lo ∈ ts ∧ ∀ t ∈ ts, lo ≤ t) (hhi : hi ∈ ts ∧ ∀ t ∈ ts, t ≤ hi) :
    (∀ rhs : data, (∀ t, rhs ≠ .time t) → (∀ xs, rhs ≠ .list xs) →
        ∀ op, (min_max_synopsis.of_times ts).lookup op rhs = none) ∧
      ∀ xs : List data,
        ∃ b : Bool, (b = true ↔ ∃ t, data.time t ∈ xs ∧ lo ≤ t ∧ t ≤ hi) ∧
          (min_max_synopsis.of_times ts).lookup .in_ (.list xs) = some b ∧
          (min_max_synopsis.of_times ts).lookup .not_in (.list xs) = some (!b) ∧
          ∀ op, op ≠ .in_ → op ≠ .not_in →
            (min_max_synopsis.of_times ts).lookup op (.list xs) = none := by
  have hr := of_times_range ts lo hi hlo hhi
  constructor
  · intro rhs h1 h2 op
    cases rhs with
    | time t => exact absurd rfl (h1 t)
    | list xs => exact absurd rfl (h2 xs)
    | _ =>
      cases op <;>
        simp [min_max_synopsis.lookup, min_max_synopsis.do_lookup,
          min_max_synopsis.membership]
  · intro xs
    refine ⟨xs.any fun x => (min_max_synopsis.of_times ts).do_lookup .eq x == some true,
      any_do_lookup _ lo hi hr xs, ?_, ?_, ?_⟩
    · simp [min_max_synopsis.lookup, min_max_synopsis.membership]
    · simp [min_max_synopsis.lookup, min_max_synopsis.membership]
    · intro op h1 h2
      cases op <;>
        first
          | exact absurd rfl h1
          | exact absurd rfl h2
          | simp [min_max_synopsis.lookup, min_max_synopsis.do_lookup]

/-- C17 at the data of the test: the range `[4 s, 7 s]` against the lists `[0 s, 4 s]`,
`[7 s, 9 s]`, `[0 s, 9 s]`, the count 5 and the list `[count 5, 7 s]`. -/
theorem min_max_synopsis_lookup_typed_witness :
    (∀ op, (min_max_synopsis.of_times [4000000000, 7000000000]).lookup op (.count 5) = none) ∧
      [data.list [.time 0, .time 4000000000], .list [.time 7000000000, .time 9000000000],
        .list [.time 0, .time 9000000000], .count 5,
        .list [.count 5, .time 7000000000]].map (fun rhs =>
          all_operators.map fun op =>
            (min_max_synopsis.of_times [4000000000, 7000000000]).lookup op rhs) =
        [[none, none, some true, some false, none, none, none, none, none, none, none, none],
          [none, none, some true, some false, none, none, none, none, none, none, none, none],
          [none, none, some false, some true, none, none, none, none, none, none, none, none],
          [none, none, none, none, none, none, none, none, none, none, none, none],
          [none, none, some true, some false, none, none, none, none, none, none, none,
            none]] :=
  ⟨(min_max_synopsis_lookup_typed [4000000000, 7000000000] 4000000000 7000000000
      ⟨by decide, by decide⟩ ⟨by decide, by decide⟩).1 (.count 5)
      (by intro t h; cases h) (by intro xs h; cases h),
    by decide⟩

end vast

namespace vast.format.syslog

/-! ## Claims on the syslog reader -/

theorem pending_rows {μ : Type} (bs : builders μ) :
    ((pending_slices bs).map slice.rows).sum = bs.rfc5424.length + bs.unknown.length := by
  unfold pending_slices
  cases h1 : bs.rfc5424 <;> cases h2 : bs.unknown <;> simp [slice.rows]

/-- The helper `finish` returns the result it was given or `format_error`, and no row
gets lost or added. -/
theorem finish_spec {σ μ : Type} (env : environment σ μ) (st : reader_state σ μ)
    (result : Option ec) :
    ((finish env st result).1 = result ∨ (finish env st result).1 = some ec.format_error) ∧
      total_rows (finish env st result).2 = total_rows st := by
  unfold finish
  split
  · exact ⟨Or.inl rfl, rfl⟩
  · split
    · exact ⟨Or.inr rfl, rfl⟩
    · refine ⟨Or.inl rfl, ?_⟩
      simp only [total_rows, List.map_append, List.sum_append, pending_rows, List.length_nil]
      omega

theorem total_rows_add_row {σ μ : Type} (st : reader_state σ μ) (msg : Option μ)
    (line : List Char) :
    total_rows { st with bs := add_row st.bs msg line } = total_rows st + 1 := by
  cases msg <;> simp [total_rows, add_row] <;> omega

/-- What every return of the loop satisfies: `produced` only grows, a timeout is
returned only with `produced > 0`, and the reader has taken in a row for every event
produced. -/
theorem read_loop_spec {σ μ : Type} (env : environment σ μ) (max_events max_slice_size : Nat) :
    ∀ (fuel tick produced : Nat) (bptr : Option layout) (st : reader_state σ μ)
      (err : Option ec) (produced1 : Nat) (st1 : reader_state σ μ),
      read_loop env max_events max_slice_size fuel tick produced bptr st =
        some (err, produced1, st1) →
      produced ≤ produced1 ∧ (err = some ec.timeout → 0 < produced1) ∧
        total_rows st + (produced1 - produced) ≤ total_rows st1 := by
  intro fuel
  induction fuel with
  | zero => intro tick produced bptr st err produced1 st1 h; simp [read_loop] at h
  | succ fuel ih =>
    intro tick produced bptr st err produced1 st1 h
    have hlines : ∀ l, total_rows ({ st with lines := l } : reader_state σ μ) = total_rows st :=
      fun _ => rfl
    have hret : ∀ (s : reader_state σ μ) (r : Option ec), total_rows s = total_rows st →
        r ≠ some ec.timeout →
        some ((finish env s r).1, produced, (finish env s r).2) = some (err, produced1, st1) →
        produced ≤ produced1 ∧ (err = some ec.timeout → 0 < produced1) ∧
          total_rows st + (produced1 - produced) ≤ total_rows st1 := by
      intro s r hs hr heq
      have h3 := Option.some.inj heq
      have e1 : (finish env s r).1 = err := congrArg (fun p => p.1) h3
      have e2 : produced = produced1 := congrArg (fun p => p.2.1) h3
      have e3 : (finish env s r).2 = st1 := congrArg (fun p => p.2.2) h3
      obtain ⟨f1, f2⟩ := finish_spec env s r
      refine ⟨by omega, ?_, by rw [← e3, f2, hs]; omega⟩
      intro ht
      rw [← e1] at ht
      rcases f1 with f1 | f1
      · rw [f1] at ht; exact absurd ht hr
      · rw [f1] at ht; cases ht
    have hl := hlines (next_line env tick bptr st).2
    simp only [read_loop] at h
    split at h
    · split at h
      · exact hret st _ rfl (by decide) h
      · split at h
        · next htimeout =>
          have hpos : 0 < produced := by
            simp only [Bool.and_eq_true, decide_eq_true_eq] at htimeout
            exact htimeout.2
          have h3 := Option.some.inj h
          have e1 : (finish env _ (some ec.timeout)).1 = err := congrArg (fun p => p.1) h3
          have e2 : produced = produced1 := congrArg (fun p => p.2.1) h3
          have e3 : (finish env _ (some ec.timeout)).2 = st1 := congrArg (fun p => p.2.2) h3
          obtain ⟨_, f2⟩ := finish_spec env
            ({ st with lines := (next_line env tick bptr st).2 } : reader_state σ μ)
            (some ec.timeout)
          refine ⟨by omega, fun _ => by omega, ?_⟩
          rw [← e3, f2]
          omega
        · split at h
          · obtain ⟨g1, g2, g3⟩ := ih _ _ _ _ _ _ _ h
            exact ⟨g1, g2, by omega⟩
          · split at h
            · exact hret _ _ (hlines _) (by decide) h
            · split at h
              · exact hret _ _ (hlines _) (by decide) h
              · split at h
                · split at h
                  · next e s3 hfin =>
                    have h3 := Option.some.inj h
                    have e1 : some e = err := congrArg (fun p => p.1) h3
                    have e2 : produced = produced1 := congrArg (fun p => p.2.1) h3
                    have e3 : s3 = st1 := congrArg (fun p => p.2.2) h3
                    obtain ⟨f1, f2⟩ := finish_spec env
                      ({ ({ st with lines := (next_line env tick bptr st).2 } :
                          reader_state σ μ) with
                        bs := add_row st.bs (env.parse (env.lines.get
                          (next_line env tick bptr st).2))
                          (env.lines.get (next_line env tick bptr st).2) } :
                        reader_state σ μ) none
                    rw [hfin] at f1 f2
                    simp only at f1 f2
                    rcases f1 with f1 | f1
                    · cases f1
                    · refine ⟨by omega, ?_, ?_⟩
                      · intro ht
                        rw [← e1, f1] at ht
                        cases ht
                      · -- the failed finish keeps the row that was added in the builder
                        rw [← e3, f2]
                        have := total_rows_add_row
                          ({ st with lines := (next_line env tick bptr st).2 } :
                            reader_state σ μ)
                          (env.parse (env.lines.get (next_line env tick bptr st).2))
                          (env.lines.get (next_line env tick bptr st).2)
                        simp only at this
                        rw [this]
                        omega
                  · next s3 hfin =>
                    obtain ⟨g1, g2, g3⟩ := ih _ _ _ _ _ _ _ h
                    obtain ⟨_, f2⟩ := finish_spec env
                      ({ ({ st with lines := (next_line env tick bptr st).2 } :
                          reader_state σ μ) with
                        bs := add_row st.bs (env.parse (env.lines.get
                          (next_line env tick bptr st).2))
                          (env.lines.get (next_line env tick bptr st).2) } :
                        reader_state σ μ) none
                    rw [hfin] at f2
                    simp only at f2
                    have := total_rows_add_row
                      ({ st with lines := (next_line env tick bptr st).2 } :
                        reader_state σ μ)
                      (env.parse (env.lines.get (next_line env tick bptr st).2))
                      (env.lines.get (next_line env tick bptr st).2)
                    simp only at this
                    rw [f2, this] at g3
                    exact ⟨by omega, g2, by omega⟩
                · obtain ⟨g1, g2, g3⟩ := ih _ _ _ _ _ _ _ h
                  have := total_rows_add_row
                    ({ st with lines := (next_line env tick bptr st).2 } :
                      reader_state σ μ)
                    (env.parse (env.lines.get (next_line env tick bptr st).2))
                    (env.lines.get (next_line env tick bptr st).2)
                  simp only at this
                  rw [this] at g3
                  exact ⟨by omega, g2, by omega⟩
    · have h3 := Option.some.inj h
      have e1 : none = err := congrArg (fun p => p.1) h3
      have e2 : produced = produced1 := congrArg (fun p => p.2.1) h3
      have e3 : st = st1 := congrArg (fun p => p.2.2) h3
      subst e1 e2 e3
      exact ⟨le_refl _, fun h => (by cases h), by omega⟩

/-- C18.  For every input, every behaviour of the line range and every timing, a call
of `read_impl` that returns the timeout error has produced at least one event, for
which the reader has taken in a row; a call that has produced no event does not
return the timeout error. -/
theorem read_impl_timeout_after_event {σ μ : Type} (env : environment σ μ)
    (max_events max_slice_size fuel : Nat) (st : reader_state σ μ) (err : Option ec)
    (produced : Nat) (st1 : reader_state σ μ)
    (h : read_impl env max_events max_slice_size fuel st = some (err, produced, st1)) :
    (err = some ec.timeout → 0 < produced ∧ total_rows st < total_rows st1) ∧
      (produced = 0 → err ≠ some ec.timeout) := by
  obtain ⟨_, h2, h3⟩ := read_loop_spec env max_events max_slice_size fuel 0 0 none st err
    produced st1 h
  refine ⟨fun ht => ⟨h2 ht, ?_⟩, fun hp ht => ?_⟩
  · have := h2 ht
    omega
  · have := h2 ht
    omega

/-- C18 at a concrete run: two lines, the timeout running out after the first round.
The call returns the timeout error with one event produced. -/
theorem read_impl_timeout_after_event_witness :
    read_impl (⟨list_lines, fun _ => none, fun _ => false, fun _ _ => false, false,
          fun i => decide (1 ≤ i)⟩ : environment (List Char × List (List Char)) Unit)
        10 100 5 ⟨([], [['a'], ['b']]), ⟨[], []⟩, []⟩ =
        some (some ec.timeout, 1, ⟨(['a'], [['b']]), ⟨[], []⟩, [.unknown [['a']]]⟩) ∧
      ((some ec.timeout = some ec.timeout → 0 < 1 ∧
          total_rows (⟨([], [['a'], ['b']]), ⟨[], []⟩, []⟩ :
            reader_state (List Char × List (List Char)) Unit) <
          total_rows (⟨(['a'], [['b']]), ⟨[], []⟩, [.unknown [['a']]]⟩ :
            reader_state (List Char × List (List Char)) Unit)) ∧
        (1 = 0 → some ec.timeout ≠ some ec.timeout)) :=
  ⟨by rfl,
    read_impl_timeout_after_event
      (⟨list_lines, fun _ => none, fun _ => false, fun _ _ => false, false,
        fun i => decide (1 ≤ i)⟩ : environment (List Char × List (List Char)) Unit)
      10 100 5 ⟨([], [['a'], ['b']]), ⟨[], []⟩, []⟩ (some ec.timeout) 1
      ⟨(['a'], [['b']]), ⟨[], []⟩, [.unknown [['a']]]⟩ (by rfl)⟩

end vast.format.syslog

namespace vast.format.test

/-! ## Claims on the test reader -/

theorem split_ne_nil (sep : Char) (s : List Char) : split sep s ≠ [] := by
  cases s with
  | nil => simp [split]
  | cons c cs =>
    by_cases h : c = sep
    · simp [split, h]
    · simp only [split, h, if_false]
      split <;> simp

theorem split_no_sep (sep : Char) : ∀ s : List Char, sep ∉ s → split sep s = [s] := by
  intro s
  induction s with
  | nil => intro _; rfl
  | cons c cs ih =>
    intro h
    have hc : ¬ c = sep := fun e => h (by simp [e])
    have hcs : sep ∉ cs := fun e => h (List.mem_cons_of_mem _ e)
    simp [split, hc, ih hcs]

theorem split_append (sep : Char) (rest : List Char) :
    ∀ a : List Char, sep ∉ a → split sep (a ++ sep :: rest) = a :: split sep rest := by
  intro a
  induction a with
  | nil => intro _; simp [split]
  | cons c cs ih =>
    intro h
    have hc : ¬ c = sep := fun e => h (by simp [e])
    have hcs : sep ∉ cs := fun e => h (List.mem_cons_of_mem _ e)
    simp [split, hc, ih hcs]

theorem split_one (sep : Char) : ∀ (s b : List Char), split sep s = [b] → s = b ∧ sep ∉ b := by
  intro s
  induction s with
  | nil =>
    intro b h
    simp only [split, List.cons.injEq, and_true] at h
    subst h
    simp
  | cons c cs ih =>
    intro b h
    by_cases hc : c = sep
    · simp only [split, hc, if_true, List.cons.injEq] at h
      exact absurd h.2 (split_ne_nil sep cs)
    · simp only [split, hc, if_false] at h
      split at h
      · next hnil => exact absurd hnil (split_ne_nil sep cs)
      · next p ps hps =>
        simp only [List.cons.injEq] at h
        obtain ⟨h1, h2⟩ := h
        subst h1 h2
        obtain ⟨e1, e2⟩ := ih p hps
        subst e1
        refine ⟨rfl, ?_⟩
        intro hm
        rcases List.mem_cons.mp hm with e | e
        · exact hc e.symm
        · exact e2 e

theorem split_two (sep : Char) : ∀ (s a b : List Char), split sep s = [a, b] →
    s = a ++ sep :: b ∧ sep ∉ a ∧ sep ∉ b := by
  intro s
  induction s with
  | nil => intro a b h; simp [split] at h
  | cons c cs ih =>
    intro a b h
    by_cases hc : c = sep
    · simp only [split, hc, if_true, List.cons.injEq] at h
      obtain ⟨h1, h2⟩ := h
      subst h1
      obtain ⟨e1, e2⟩ := split_one sep cs b h2
      subst e1 hc
      exact ⟨rfl, by simp, e2⟩
    · simp only [split, hc, if_false] at h
      split at h
      · next hnil => exact absurd hnil (split_ne_nil sep cs)
      · next p ps hps =>
        simp only [List.cons.injEq] at h
        obtain ⟨h1, h2⟩ := h
        subst h1 h2
        obtain ⟨e1, e2, e3⟩ := ih p b hps
        subst e1
        refine ⟨rfl, ?_, e3⟩
        intro hm
        rcases List.mem_cons.mp hm with e | e
        · exact hc e.symm
        · exact e2 e

/-- The test on the name accepts exactly the names `test.` followed by a part without
dot. -/
theorem is_test_type_iff (t : schema_type) :
    is_test_type t = true ↔
      ∃ b, t.name = ['t', 'e', 's', 't'] ++ '.' :: b ∧ '.' ∉ b := by
  constructor
  · intro h
    unfold is_test_type at h
    split at h
    · next a b hs =>
      have ha : a = ['t', 'e', 's', 't'] := by simpa using h
      obtain ⟨e1, _, e3⟩ := split_two '.' t.name a b hs
      exact ⟨b, by rw [e1, ha], e3⟩
    · cases h
  · rintro ⟨b, hb, hdot⟩
    unfold is_test_type
    rw [hb, split_append '.' b ['t', 'e', 's', 't'] (by decide), split_no_sep '.' b hdot]
    simp

/-- The loop of `schema` fails only with `format_error`. -/
theorem schema_loop_error {β : Type} (env : environment β) :
    ∀ (sch subset : List schema_type) (bps : List (schema_type × β)) (e : ec),
      schema_loop env sch subset bps = .error e → e = ec.format_error := by
  intro sch
  induction sch with
  | nil => intro subset bps e h; simp [schema_loop] at h
  | cons t rest ih =>
    intro subset bps e h
    simp only [schema_loop] at h
    split at h
    · split at h
      · split at h
        · injection h with h; exact h.symm
        · exact ih _ _ e h
      · injection h with h; exact h.symm
    · exact ih _ _ e h

/-- With blueprints and builders creatable, the loop of `schema` collects the test
types in their order. -/
theorem schema_loop_ok {β : Type} (env : environment β) :
    ∀ (sch subset : List schema_type) (bps : List (schema_type × β)),
      (∀ t ∈ sch, is_test_type t = true →
        (env.make_blueprint t).isSome = true ∧ env.builder_null t = false) →
      ∃ bps1, schema_loop env sch subset bps = .ok (subset ++ sch.filter is_test_type, bps1) := by
  intro sch
  induction sch with
  | nil => intro subset bps _; exact ⟨bps, by simp [schema_loop]⟩
  | cons t rest ih =>
    intro subset bps h
    have hrest : ∀ u ∈ rest, is_test_type u = true →
        (env.make_blueprint u).isSome = true ∧ env.builder_null u = false :=
      fun u hu => h u (List.mem_cons_of_mem _ hu)
    cases ht : is_test_type t with
    | false =>
      obtain ⟨bps1, h1⟩ := ih subset bps hrest
      exact ⟨bps1, by simp [schema_loop, ht, h1]⟩
    | true =>
      obtain ⟨hb, hn⟩ := h t (List.mem_cons_self _ _) ht
      obtain ⟨bp, hbp⟩ := Option.isSome_iff_exists.mp hb
      obtain ⟨bps1, h1⟩ := ih (subset ++ [t]) (emplace bps t bp) hrest
      exact ⟨bps1, by simp [schema_loop, ht, hbp, hn, h1]⟩

/-- C19 (the code departs from the claim).  With `import.max-events = 5` the first
call `read_impl(10, 10)` hands 5 events to the consumer and returns `end_of_input`
before `num_events_` is reduced, so `num_events_` stays 5.  The next call hands out 5
more events: 10 events for a limit of 5.  With `import.max-events = 0` the limit is
the maximum `size_t` value. -/
theorem read_impl_exceeds_max_events :
    (reader.make (some 5) 0 : reader Unit).num_events_ = 5 ∧
      read_impl plain_environment 10 10 20 (reader.make (some 5) 0) =
        some (some ec.end_of_input,
          ⟨default_schema, [(default_schema.headD default, ())], 0, 5,
            [(default_schema.headD default, 5)]⟩) ∧
      read_impl plain_environment 10 10 20
          ⟨default_schema, [(default_schema.headD default, ())], 0, 5,
            [(default_schema.headD default, 5)]⟩ =
        some (some ec.end_of_input,
          ⟨default_schema, [(default_schema.headD default, ())], 0, 5,
            [(default_schema.headD default, 5), (default_schema.headD default, 5)]⟩) ∧
      events_produced (⟨default_schema, [(default_schema.headD default, ())], 0, 5,
        [(default_schema.headD default, 5), (default_schema.headD default, 5)]⟩ :
          reader Unit) = 10 ∧
      (reader.make (some 0) 7 : reader Unit).num_events_ = size_max := by
  refine ⟨by decide, by decide, by decide, by decide, by decide⟩

/-- C20.  `schema(sch)` returns `format_error` when `sch` is empty and when no type of
`sch` has a name of two dot-separated parts with first part `test`.  Otherwise, with
blueprints and builders creatable for these types, it returns no error, the schema of
the reader becomes the sub-sequence of these types and the round-robin position
returns to its start.  Every error is `format_error` and leaves the reader, with its
schema, blueprints and position, as it was. -/
theorem schema_spec {β : Type} (env : environment β) (sch : List schema_type)
    (r : reader β) :
    (sch = [] → (schema env sch r).1 = some ec.format_error) ∧
      ((∀ t ∈ sch, is_test_type t = false) → (schema env sch r).1 = some ec.format_error) ∧
      ((∃ t ∈ sch, is_test_type t = true) →
        (∀ t ∈ sch, is_test_type t = true →
          (env.make_blueprint t).isSome = true ∧ env.builder_null t = false) →
        (schema env sch r).1 = none ∧
          (schema env sch r).2.schema_ = sch.filter is_test_type ∧
          (schema env sch r).2.next_ = 0) ∧
      (∀ e, (schema env sch r).1 = some e → e = ec.format_error ∧ (schema env sch r).2 = r) ∧
      (∀ t, is_test_type t = true ↔
        ∃ b, t.name = ['t', 'e', 's', 't'] ++ '.' :: b ∧ '.' ∉ b) := by
  refine ⟨?_, ?_, ?_, ?_, is_test_type_iff⟩
  · intro h
    simp [schema, h]
  · intro h
    by_cases hs : sch = []
    · simp [schema, hs]
    · obtain ⟨bps1, h1⟩ := schema_loop_ok env sch [] [] (by
        intro t ht htest
        rw [h t ht] at htest
        cases htest)
      have hf : sch.filter is_test_type = [] := by
        rw [List.filter_eq_nil_iff]
        intro t ht
        simp [h t ht]
      simp [schema, hs, h1, hf]
  · rintro ⟨t, ht, htest⟩ hok
    have hs : sch ≠ [] := by
      intro e
      rw [e] at ht
      cases ht
    obtain ⟨bps1, h1⟩ := schema_loop_ok env sch [] [] hok
    have hf : sch.filter is_test_type ≠ [] := by
      intro e
      have : t ∈ sch.filter is_test_type := List.mem_filter.mpr ⟨ht, htest⟩
      rw [e] at this
      cases this
    simp [schema, hs, h1, hf]
  · intro e h
    unfold schema at h ⊢
    split at h
    · simp only [Option.some.injEq] at h
      exact ⟨h.symm, by simp [*]⟩
    · split at h
      · next e1 hloop =>
        simp only [Option.some.injEq] at h
        subst h
        exact ⟨schema_loop_error env _ _ _ _ hloop, by simp [*]⟩
      · next subset bps hloop =>
        split at h
        · simp only [Option.some.injEq] at h
          exact ⟨h.symm, by simp [*]⟩
        · cases h

/-- C20 at a concrete schema: of `foo`, `test.a`, `x.y` and `test.b` the reader keeps
`test.a` and `test.b`; a schema with `foo` alone is refused. -/
theorem schema_spec_witness :
    (schema plain_environment
        [⟨['f', 'o', 'o']⟩, ⟨['t', 'e', 's', 't', '.', 'a']⟩, ⟨['x', '.', 'y']⟩,
          ⟨['t', 'e', 's', 't', '.', 'b']⟩] (reader.make (some 5) 0)).2.schema_ =
        [⟨['t', 'e', 's', 't', '.', 'a']⟩, ⟨['t', 'e', 's', 't', '.', 'b']⟩] ∧
      (schema plain_environment [⟨['f', 'o', 'o']⟩] (reader.make (some 5) 0)).1 =
        some ec.format_error ∧
      (schema plain_environment ([] : List schema_type) (reader.make (some 5) 0)).1 =
        some ec.format_error :=
  ⟨by decide,
    (schema_spec plain_environment [⟨['f', 'o', 'o']⟩] (reader.make (some 5) 0)).2.1
      (by decide),
    (schema_spec plain_environment [] (reader.make (some 5) 0)).1 rfl⟩

end vast.format.test

namespace vast.system

/-! ## Termination of `next_id` -/

/-- C25 (the code departs from the claim).  In every importer state with `next < end`
the call `next_id(available_ids())`, which the precondition `k <= available_ids()`
admits, never returns: its target `2^64 - 1` is at or above every value that `end` can
take, so the loop of `get_next_block` does not exit.  For every `k <= available_ids()`
the call never returns exactly when `next + k` reaches the last block of the residue
class of `end`, and it returns with `next < end` otherwise. -/
theorem next_id_terminates_iff (st : importer_state)
    (hlt : st.current.next < st.current.end_) (he : st.current.end_ < u64_size) :
    available_ids st = 2 ^ 64 - 1 - st.current.next ∧
      next_id (available_ids st) st = none ∧
      ∀ k, k ≤ available_ids st →
        (next_id k st = none ↔
          u64_size - block_size + st.current.end_ % block_size ≤ st.current.next + k) ∧
        (st.current.next + k < u64_size - block_size + st.current.end_ % block_size →
          ∃ st1, next_id k st = some (st.current.next, st1) ∧
            st1.current.next = st.current.next + k ∧
            st1.current.next < st1.current.end_) := by
  have hav := available_ids_eq st (lt_trans hlt he)
  have hmod : ∀ k, k ≤ available_ids st →
      (st.current.next + k) % u64_size = st.current.next + k := by
    intro k hk
    apply Nat.mod_eq_of_lt
    rw [hav] at hk
    simp only [max_id, u64_size] at *
    omega
  have hrem : st.current.end_ % block_size < block_size :=
    Nat.mod_lt _ (by decide)
  refine ⟨?_, ?_, ?_⟩
  · rw [hav]
    simp only [max_id]
    norm_num
  · apply next_id_none _ _ he
    rw [hmod _ (Nat.le_refl _), hav]
    simp only [max_id, u64_size, block_size] at *
    omega
  · intro k hk
    have hret : st.current.next + k < u64_size - block_size + st.current.end_ % block_size →
        ∃ st1, next_id k st = some (st.current.next, st1) ∧
          st1.current.next = st.current.next + k ∧
          st1.current.next < st1.current.end_ := by
      intro hb
      obtain ⟨st1, h1, h2, h3⟩ := next_id_returns k st he (by rw [hmod k hk]; exact hb)
      exact ⟨st1, h1, by rw [h2, hmod k hk], h3⟩
    refine ⟨⟨?_, ?_⟩, hret⟩
    · intro hnone
      by_contra hcon
      obtain ⟨st1, h1, _⟩ := hret (not_le.1 hcon)
      rw [h1] at hnone
      cases hnone
    · intro hb
      exact next_id_none k st he (by rw [hmod k hk]; exact hb)

/-- C25 at the state right after a fresh start, `next = 0` and `end = 8Mi`: the call
`next_id(2^64 - 1)` never returns. -/
theorem next_id_terminates_iff_witness :
    ((0 : Nat) < 8388608 ∧ 8388608 < u64_size) ∧
      available_ids ⟨⟨0, 8388608⟩, ⟨.file (print_u64 8388608), true⟩⟩ = 2 ^ 64 - 1 - 0 ∧
      next_id (available_ids ⟨⟨0, 8388608⟩, ⟨.file (print_u64 8388608), true⟩⟩)
        ⟨⟨0, 8388608⟩, ⟨.file (print_u64 8388608), true⟩⟩ = none :=
  ⟨⟨by decide, by decide⟩,
    (next_id_terminates_iff ⟨⟨0, 8388608⟩, ⟨.file (print_u64 8388608), true⟩⟩
      (by decide) (by decide)).1,
    (next_id_terminates_iff ⟨⟨0, 8388608⟩, ⟨.file (print_u64 8388608), true⟩⟩
      (by decide) (by decide)).2.1⟩

end vast.system

namespace vast.system

/-! ## The configuration -/

theorem remove_if_eq_filter {α : Type} (pred : α → Bool) (xs : List α) :
    remove_if pred xs = xs.filter fun x => !pred x := by
  induction xs with
  | nil => rfl
  | cons x xs ih =>
    by_cases h : pred x = true
    · simp [remove_if, h, ih]
    · simp [remove_if, h, ih]

theorem configuration_config_paths_eq (env : config_environment) :
    configuration_config_paths env = (config_candidates env).filter env.is_regular_file := by
  unfold configuration_config_paths config_candidates
  simp only [remove_if_eq_filter, Bool.not_not, List.nil_append]
  cases env.getenv "XDG_CONFIG_HOME".toList <;> cases env.getenv "HOME".toList <;> rfl

/-- C21.  The member `config_paths` that the constructor of `configuration` leaves is
the candidate list of the specification (the file under `XDG_CONFIG_HOME` when that is
set, otherwise the file under `HOME` when that is set, then the system-wide file) without
the paths that are not regular files: the same paths in the same order. -/
theorem config_paths_spec (env : config_environment) :
    configuration_config_paths env =
        (config_candidates env).filter env.is_regular_file ∧
      (configuration_config_paths env).Sublist (config_candidates env) ∧
      (∀ p, p ∈ configuration_config_paths env ↔
        p ∈ config_candidates env ∧ env.is_regular_file p = true) ∧
      (∀ xdg, env.getenv "XDG_CONFIG_HOME".toList = some xdg →
        config_candidates env =
          [env.join (env.join xdg "vast".toList) "vast.conf".toList,
            env.sysconfdir ++ "/vast/vast.conf".toList]) ∧
      (∀ home, env.getenv "XDG_CONFIG_HOME".toList = none →
        env.getenv "HOME".toList = some home →
        config_candidates env =
          [env.join (env.join (env.join home ".config".toList) "vast".toList)
              "vast.conf".toList,
            env.sysconfdir ++ "/vast/vast.conf".toList]) ∧
      (env.getenv "XDG_CONFIG_HOME".toList = none → env.getenv "HOME".toList = none →
        config_candidates env = [env.sysconfdir ++ "/vast/vast.conf".toList]) := by
  refine ⟨configuration_config_paths_eq env, ?_, ?_, ?_, ?_, ?_⟩
  · rw [configuration_config_paths_eq]
    exact List.filter_sublist _
  · intro p
    rw [configuration_config_paths_eq, List.mem_filter]
  · intro xdg h
    unfold config_candidates
    rw [h]
    rfl
  · intro home h1 h2
    unfold config_candidates
    rw [h1, h2]
    rfl
  · intro h1 h2
    unfold config_candidates
    rw [h1, h2]
    rfl

end vast.system

namespace vast.system

/-! ## The loop over the custom options -/

theorem lookup_config_put_self {γ : Type} (d : config_settings γ) (key : List Char)
    (value : γ) : (config_put d key value).lookup key = some value := by
  induction d with
  | nil => simp [config_put, List.lookup]
  | cons e rest ih =>
    obtain ⟨k, v⟩ := e
    by_cases hk : k = key
    · simp [config_put, hk, List.lookup]
    · have hne : (key == k) = false := by
        simpa [beq_eq_false_iff_ne] using fun h : key = k => hk h.symm
      simp [config_put, hk, List.lookup, hne, ih]

theorem lookup_config_put_other {γ : Type} (d : config_settings γ) (key other : List Char)
    (value : γ) (h : other ≠ key) :
    (config_put d key value).lookup other = d.lookup other := by
  induction d with
  | nil =>
    have hne : (other == key) = false := by simpa [beq_eq_false_iff_ne] using h
    simp [config_put, List.lookup, hne]
  | cons e rest ih =>
    obtain ⟨k, v⟩ := e
    by_cases hk : k = key
    · subst hk
      have hne : (other == k) = false := by simpa [beq_eq_false_iff_ne] using h
      simp [config_put, List.lookup, hne]
    · by_cases ho : other = k
      · subst ho
        simp [config_put, hk, List.lookup]
      · have hne : (other == k) = false := by simpa [beq_eq_false_iff_ne] using ho
        simp [config_put, hk, List.lookup, hne, ih]

/-- The loop stops at the first option that does not pass, with `ec::type_clash` for
it; the options before it are stored. -/
theorem parse_options_spec {γ : Type} (env : parse_environment γ)
    (merged : config_settings γ) (opts : List (config_option γ)) (content : config_settings γ) :
    parse_options env merged opts content =
      ((opts.find? fun o => !option_ok env merged o).map (fun o =>
          config_error.type_clash o.full_name
            (match merged.lookup o.full_name with
              | some val => stringify env val
              | none => [])),
        (opts.takeWhile (option_ok env merged)).foldl (store_option env merged) content) := by
  induction opts generalizing content with
  | nil => rfl
  | cons o rest ih =>
    cases hl : merged.lookup o.full_name with
    | none =>
      have hok : option_ok env merged o = true := by simp [option_ok, hl]
      simp only [parse_options, hl, ih, List.find?_cons, hok, Bool.not_true,
        List.takeWhile_cons, if_true, List.foldl_cons, store_option]
    | some val =>
      cases hp : o.parse (stringify env val) with
      | some v =>
        have hc : chosen_value env o val = some v := by simp [chosen_value, hp]
        have hok : option_ok env merged o = true := by simp [option_ok, hl, hc]
        simp only [parse_options, hl, hp, ih, List.find?_cons, hok, Bool.not_true,
          List.takeWhile_cons, if_true, List.foldl_cons, store_option, hc]
      | none =>
        cases hq : o.parse (quoted (stringify env val)) with
        | some v =>
          have hc : chosen_value env o val = some v := by simp [chosen_value, hp, hq]
          have hok : option_ok env merged o = true := by simp [option_ok, hl, hc]
          simp only [parse_options, hl, hp, hq, ih, List.find?_cons, hok, Bool.not_true,
            List.takeWhile_cons, if_true, List.foldl_cons, store_option, hc]
        | none =>
          have hc : chosen_value env o val = none := by simp [chosen_value, hp, hq]
          have hok : option_ok env merged o = false := by simp [option_ok, hl, hc]
          simp only [parse_options, hl, hp, hq, List.find?_cons, hok, Bool.not_false,
            List.takeWhile_cons, Option.map_some', List.foldl_nil]
          rfl

theorem lookup_foldl_store_other {γ : Type} (env : parse_environment γ)
    (merged : config_settings γ) (opts : List (config_option γ)) (content : config_settings γ)
    (name : List Char) (h : name ∉ opts.map config_option.full_name) :
    (opts.foldl (store_option env merged) content).lookup name = content.lookup name := by
  induction opts generalizing content with
  | nil => rfl
  | cons o rest ih =>
    simp only [List.map_cons, List.mem_cons, not_or] at h
    rw [List.foldl_cons, ih _ h.2]
    unfold store_option
    split
    · split
      · exact lookup_config_put_other _ _ _ _ h.1
      · rfl
    · rfl

theorem lookup_store_self {γ : Type} (env : parse_environment γ)
    (merged : config_settings γ) (content : config_settings γ) (o : config_option γ)
    (hok : option_ok env merged o = true) :
    (store_option env merged content o).lookup o.full_name =
      match merged.lookup o.full_name with
      | some val => chosen_value env o val
      | none => content.lookup o.full_name := by
  unfold store_option
  unfold option_ok at hok
  cases hl : merged.lookup o.full_name with
  | none => rfl
  | some val =>
    rw [hl] at hok
    simp only at hok
    cases hc : chosen_value env o val with
    | none => simp [hc] at hok
    | some v =>
      simp only [hc]
      exact lookup_config_put_self _ _ _

theorem lookup_foldl_store {γ : Type} (env : parse_environment γ)
    (merged : config_settings γ) (opts : List (config_option γ)) (content : config_settings γ)
    (hnodup : (opts.map config_option.full_name).Nodup)
    (hok : ∀ o ∈ opts, option_ok env merged o = true) (o : config_option γ) (ho : o ∈ opts) :
    (opts.foldl (store_option env merged) content).lookup o.full_name =
      match merged.lookup o.full_name with
      | some val => chosen_value env o val
      | none => content.lookup o.full_name := by
  induction opts generalizing content with
  | nil => cases ho
  | cons o1 rest ih =>
    simp only [List.map_cons, List.nodup_cons] at hnodup
    rw [List.foldl_cons]
    rcases List.mem_cons.1 ho with h | h
    · subst h
      rw [lookup_foldl_store_other env merged rest _ _ hnodup.1]
      exact lookup_store_self env merged content o (hok o (List.mem_cons_self _ _))
    · have hne : o.full_name ≠ o1.full_name := by
        intro heq
        exact hnodup.1 (heq ▸ List.mem_map_of_mem _ h)
      rw [ih _ hnodup.2 (fun o2 h2 => hok o2 (List.mem_cons_of_mem _ h2)) h]
      have hsame : (store_option env merged content o1).lookup o.full_name =
          content.lookup o.full_name := by
        unfold store_option
        split
        · split
          · exact lookup_config_put_other _ _ _ _ hne
          · rfl
        · rfl
      rw [hsame]

end vast.system

namespace vast.system

/-! ## `configuration::parse` -/

theorem stable_partition_eq {α : Type} (pred : α → Bool) (xs : List α) :
    stable_partition pred xs = (xs.filter pred, xs.filter fun x => !pred x) := by
  induction xs with
  | nil => rfl
  | cons x xs ih =>
    by_cases h : pred x = true
    · simp [stable_partition, h, ih]
    · simp [stable_partition, h, ih]

theorem starts_with_iff (x p : List Char) : starts_with x p = true ↔ ∃ r, x = p ++ r := by
  unfold starts_with
  rw [List.isPrefixOf_iff_prefix]
  constructor
  · rintro ⟨r, rfl⟩
    exact ⟨r, rfl⟩
  · rintro ⟨r, rfl⟩
    exact ⟨r, rfl⟩

theorem erase_caf (arg : List Char) (h : starts_with arg "--caf.".toList = true) :
    erase arg 2 4 = "--".toList ++ arg.drop 6 := by
  obtain ⟨r, rfl⟩ := (starts_with_iff _ _).1 h
  rfl

theorem strip_caf_eq (args : List (List Char))
    (h : ∀ a ∈ args, starts_with a "--caf.".toList = true) :
    strip_caf args = args.map fun x => "--".toList ++ x.drop 6 := by
  unfold strip_caf
  apply List.map_congr_left
  intro a ha
  rw [if_pos (h a ha), erase_caf a (h a ha)]

theorem configuration_parse_command_line {γ : Type} (env : parse_environment γ)
    (argv : List (List Char)) (cfg : configuration γ) :
    (configuration.parse env argv cfg).cfg.command_line =
      (argv.drop 1).filter fun x => !starts_with x "--caf.".toList := by
  unfold configuration.parse
  simp only [stable_partition_eq]
  split
  · rfl
  · split <;> rfl

theorem configuration_parse_caf_args {γ : Type} (env : parse_environment γ)
    (argv : List (List Char)) (cfg : configuration γ) :
    (configuration.parse env argv cfg).caf_args =
        some (((argv.drop 1).filter fun x => starts_with x "--caf.".toList).map
          fun x => "--".toList ++ x.drop 6) ∨
      ((configuration.parse env argv cfg).caf_args = none ∧
        (configuration.parse env argv cfg).error ≠ none) := by
  have hstrip : strip_caf ((argv.drop 1).filter fun x => !(!starts_with x "--caf.".toList)) =
      ((argv.drop 1).filter fun x => starts_with x "--caf.".toList).map
        fun x => "--".toList ++ x.drop 6 := by
    simp only [Bool.not_not]
    apply strip_caf_eq
    intro a ha
    exact (List.mem_filter.1 ha).2
  unfold configuration.parse
  simp only [stable_partition_eq]
  split
  · right
    exact ⟨rfl, by simp⟩
  · split
    · right
      exact ⟨rfl, by simp⟩
    · left
      simp only [hstrip]

/-- C29.  For every argument vector, after `configuration::parse` the member
`command_line` holds the arguments behind `argv[0]` that do not start with `--caf.`, in
their order.  The arguments that start with `--caf.`, in their order and with `--caf.`
replaced by `--`, are what `actor_system_config::parse` is called with; the call is left
out only when `parse` returns an error of the config files before. -/
theorem parse_splits_arguments {γ : Type} (env : parse_environment γ)
    (argv : List (List Char)) (cfg : configuration γ) :
    (configuration.parse env argv cfg).cfg.command_line =
        (argv.drop 1).filter (fun x => !starts_with x "--caf.".toList) ∧
      ((configuration.parse env argv cfg).caf_args =
          some (((argv.drop 1).filter fun x => starts_with x "--caf.".toList).map
            fun x => "--".toList ++ x.drop 6) ∨
        ((configuration.parse env argv cfg).caf_args = none ∧
          (configuration.parse env argv cfg).error ≠ none)) ∧
      (∀ x, starts_with x "--caf.".toList = true ↔ ∃ r, x = "--caf.".toList ++ r) ∧
      (∀ r : List Char, "--".toList ++ ("--caf.".toList ++ r).drop 6 = "--".toList ++ r) :=
  ⟨configuration_parse_command_line env argv cfg, configuration_parse_caf_args env argv cfg,
    fun x => starts_with_iff x _, fun _ => rfl⟩

end vast.system

namespace vast.system

theorem option_ok_eq_false {γ : Type} (env : parse_environment γ)
    (merged : config_settings γ) (o : config_option γ) :
    option_ok env merged o = false ↔
      ∃ val, merged.lookup o.full_name = some val ∧
        o.parse (stringify env val) = none ∧
        o.parse (quoted (stringify env val)) = none := by
  unfold option_ok chosen_value
  cases merged.lookup o.full_name with
  | none => simp
  | some val =>
    cases hp : o.parse (stringify env val) with
    | some v => simp [hp]
    | none =>
      cases hq : o.parse (quoted (stringify env val)) with
      | some v => simp [hp, hq]
      | none => simp [hp, hq]

/-- Past the config files, `parse` is the loop over the custom options followed by the
call of CAF. -/
theorem configuration_parse_eq {γ : Type} (env : parse_environment γ)
    (argv : List (List Char)) (cfg : configuration γ) (merged : config_settings γ)
    (hfiles : merge_files env
      (push_config_args ((argv.drop 1).filter fun x => !starts_with x "--caf.".toList)
        cfg.config_paths) [] = .ok merged) :
    (configuration.parse env argv cfg).cfg.content =
        (cfg.custom_options_.takeWhile (option_ok env merged)).foldl
          (store_option env merged) cfg.content ∧
      ((configuration.parse env argv cfg).error, (configuration.parse env argv cfg).caf_args) =
        match cfg.custom_options_.find? fun o => !option_ok env merged o with
        | some o =>
          (some (config_error.type_clash o.full_name
            (match merged.lookup o.full_name with
              | some val => stringify env val
              | none => [])), none)
        | none =>
          (env.caf_parse (strip_caf ((argv.drop 1).filter fun x =>
              !(!starts_with x "--caf.".toList))),
            some (strip_caf ((argv.drop 1).filter fun x =>
              !(!starts_with x "--caf.".toList)))) := by
  unfold configuration.parse
  simp only [stable_partition_eq, hfiles, parse_options_spec]
  cases cfg.custom_options_.find? fun o => !option_ok env merged o with
  | none => exact ⟨rfl, rfl⟩
  | some o => exact ⟨rfl, rfl⟩

/-- C28.  When the config files load and merge to `merged`, the loop of
`configuration::parse` over the custom options does the following, where `str` is the
string form of the value without quotes.  The call returns `ec::type_clash` out of the
loop exactly when for some option present in `merged` both `option.parse(str)` and
`option.parse` of `str` in single quotes fail.  Every option before the first such one
(every option when there is none) that is present in `merged` has its entry in `content`
set to `option.parse(str)` when that succeeds, otherwise to `option.parse` of the quoted
string; an absent option leaves its entry alone.  The names of the options are pairwise
distinct. -/
theorem parse_stores_custom_options {γ : Type} (env : parse_environment γ)
    (argv : List (List Char)) (cfg : configuration γ) (merged : config_settings γ)
    (hfiles : merge_files env
      (push_config_args ((argv.drop 1).filter fun x => !starts_with x "--caf.".toList)
        cfg.config_paths) [] = .ok merged)
    (hnodup : (cfg.custom_options_.map config_option.full_name).Nodup) :
    (((configuration.parse env argv cfg).caf_args = none ∧
          ∃ name str, (configuration.parse env argv cfg).error =
            some (config_error.type_clash name str)) ↔
        ∃ o ∈ cfg.custom_options_, ∃ val, merged.lookup o.full_name = some val ∧
          o.parse (stringify env val) = none ∧
          o.parse (quoted (stringify env val)) = none) ∧
      (∀ o ∈ cfg.custom_options_.takeWhile (option_ok env merged),
        (configuration.parse env argv cfg).cfg.content.lookup o.full_name =
          match merged.lookup o.full_name with
          | some val =>
            (match o.parse (stringify env val) with
              | some v => some v
              | none => o.parse (quoted (stringify env val)))
          | none => cfg.content.lookup o.full_name) ∧
      ((∀ o ∈ cfg.custom_options_, option_ok env merged o = true) →
        cfg.custom_options_.takeWhile (option_ok env merged) = cfg.custom_options_ ∧
        (configuration.parse env argv cfg).error =
          env.caf_parse (strip_caf ((argv.drop 1).filter fun x =>
            starts_with x "--caf.".toList))) := by
  obtain ⟨hcontent, hpair⟩ := configuration_parse_eq env argv cfg merged hfiles
  refine ⟨?_, ?_, ?_⟩
  · cases hfind : cfg.custom_options_.find? fun o => !option_ok env merged o with
    | none =>
      rw [hfind] at hpair
      have h2 := congrArg Prod.snd hpair
      simp only at h2
      constructor
      · rintro ⟨h, _⟩
        rw [h2] at h
        cases h
      · rintro ⟨o, ho, hval⟩
        have hbad := (option_ok_eq_false env merged o).2 hval
        have := List.find?_eq_none.1 hfind o ho
        simp [hbad] at this
    | some o =>
      rw [hfind] at hpair
      have h1 := congrArg Prod.fst hpair
      have h2 := congrArg Prod.snd hpair
      simp only at h1 h2
      have hmem := List.mem_of_find?_eq_some hfind
      have hbad : option_ok env merged o = false := by
        have := List.find?_some hfind
        simpa using this
      constructor
      · intro _
        exact ⟨o, hmem, (option_ok_eq_false env merged o).1 hbad⟩
      · intro _
        exact ⟨h2, _, _, h1⟩
  · intro o ho
    rw [hcontent]
    have hsub : (cfg.custom_options_.takeWhile (option_ok env merged)).Sublist
        cfg.custom_options_ := List.takeWhile_sublist _
    have hnd : ((cfg.custom_options_.takeWhile (option_ok env merged)).map
        config_option.full_name).Nodup := (hsub.map _).nodup hnodup
    have hall : ∀ o2 ∈ cfg.custom_options_.takeWhile (option_ok env merged),
        option_ok env merged o2 = true := fun o2 h2 => List.mem_takeWhile_imp h2
    rw [lookup_foldl_store env merged _ cfg.content hnd hall o ho]
    cases merged.lookup o.full_name with
    | none => rfl
    | some val => rfl
  · intro hall
    have htake : cfg.custom_options_.takeWhile (option_ok env merged) =
        cfg.custom_options_ := List.takeWhile_eq_self_iff.2 hall
    refine ⟨htake, ?_⟩
    have hfind : (cfg.custom_options_.find? fun o => !option_ok env merged o) = none := by
      rw [List.find?_eq_none]
      intro o ho
      simp [hall o ho]
    rw [hfind] at hpair
    have h1 := congrArg Prod.fst hpair
    simp only [Bool.not_not] at h1
    exact h1

end vast.system

namespace vast.system

/-- C21 at surroundings with `XDG_CONFIG_HOME` and `HOME` both set, where only the
system-wide file is a regular file: the file under `HOME` is no candidate, and the
system-wide file alone is left. -/
theorem config_paths_spec_witness :
    configuration_config_paths example_config_environment =
        (config_candidates example_config_environment).filter
          example_config_environment.is_regular_file ∧
      config_candidates example_config_environment =
        ["/home/u/.cfg/vast/vast.conf".toList, "/etc/vast/vast.conf".toList] ∧
      configuration_config_paths example_config_environment = ["/etc/vast/vast.conf".toList] :=
  ⟨(config_paths_spec example_config_environment).1,
    (config_paths_spec example_config_environment).2.2.2.1 "/home/u/.cfg".toList rfl,
    by decide⟩

/-- C28 at a config file with `mode: fast` and `threads: 4`: the option `threads`
parses the string `4`; the option `mode` rejects `fast` and gets the quoted string. -/
theorem parse_stores_custom_options_witness :
    merge_files example_parse_environment
        (push_config_args
          ((example_argv.drop 1).filter fun x => !starts_with x "--caf.".toList)
          example_configuration.config_paths) [] = .ok example_settings ∧
      (example_configuration.custom_options_.map config_option.full_name).Nodup ∧
      (configuration.parse example_parse_environment example_argv
          example_configuration).cfg.content.lookup "threads".toList = some "4".toList ∧
      (configuration.parse example_parse_environment example_argv
          example_configuration).cfg.content.lookup "mode".toList =
        some (quoted "fast".toList) ∧
      (configuration.parse example_parse_environment example_argv
          example_configuration).error = none :=
  ⟨rfl, by decide,
    ((parse_stores_custom_options example_parse_environment example_argv
      example_configuration example_settings rfl (by decide)).2.1 example_threads_option
        (List.mem_cons_self _ _)).trans rfl,
    ((parse_stores_custom_options example_parse_environment example_argv
      example_configuration example_settings rfl (by decide)).2.1 example_mode_option
        (List.mem_cons_of_mem _ (List.mem_cons_self _ _))).trans rfl,
    rfl⟩

/-- C29 at the argument vector `vast --caf.scheduler.max-threads=2 start --caf.verbose`:
`command_line` is `start`, and CAF gets `--scheduler.max-threads=2 --verbose`. -/
theorem parse_splits_arguments_witness :
    (configuration.parse example_parse_environment example_argv
        example_configuration).cfg.command_line = ["start".toList] ∧
      (configuration.parse example_parse_environment example_argv
        example_configuration).caf_args =
        some ["--scheduler.max-threads=2".toList, "--verbose".toList] :=
  ⟨(parse_splits_arguments example_parse_environment example_argv
      example_configuration).1.trans rfl, rfl⟩

end vast.system

namespace vast

/-! ## The symbol table -/

theorem max_element_fold_mem {α : Type} (comp : α → α → Bool) (xs : List α) (x : α) :
    xs.foldl (fun largest y => if comp largest y then y else largest) x ∈ x :: xs := by
  induction xs generalizing x with
  | nil => simp
  | cons y ys ih =>
    rw [List.foldl_cons]
    by_cases h : comp x y = true
    · rw [if_pos h]
      exact List.mem_cons_of_mem _ (ih y)
    · rw [if_neg h]
      rcases List.mem_cons.1 (ih x) with h1 | h1
      · rw [h1]
        exact List.mem_cons_self _ _
      · exact List.mem_cons_of_mem _ (List.mem_cons_of_mem _ h1)

theorem max_element_fold_ge {α : Type} (size : α → Nat) (xs : List α) (x : α) :
    ∀ y ∈ x :: xs,
      size y ≤ size (xs.foldl
        (fun largest y => if decide (size largest < size y) then y else largest) x) := by
  induction xs generalizing x with
  | nil =>
    intro y hy
    simp only [List.mem_singleton] at hy
    subst hy
    exact Nat.le_refl _
  | cons z zs ih =>
    intro y hy
    rw [List.foldl_cons]
    by_cases h : size x < size z
    · simp only [h, decide_True, if_true]
      rcases List.mem_cons.1 hy with h1 | h1
      · subst h1
        exact le_trans (Nat.le_of_lt h) (ih z z (List.mem_cons_self _ _))
      · exact ih z y h1
    · simp only [h, decide_False, Bool.false_eq_true, if_false]
      rcases List.mem_cons.1 hy with h1 | h1
      · subst h1
        exact ih y y (List.mem_cons_self _ _)
      · rcases List.mem_cons.1 h1 with h2 | h2
        · subst h2
          exact le_trans (Nat.le_of_not_lt h) (ih x x (List.mem_cons_self _ _))
        · exact ih x y (List.mem_cons_of_mem _ h2)

/-- On a list that is not empty `std::max_element` by size returns an element of the
list that is at least as large as every element. -/
theorem max_element_spec {α : Type} (size : α → Nat) (xs : List α) (h : xs ≠ []) :
    ∃ m, max_element (fun x y => decide (size x < size y)) xs = some m ∧ m ∈ xs ∧
      ∀ y ∈ xs, size y ≤ size m := by
  cases xs with
  | nil => exact absurd rfl h
  | cons x xs =>
    exact ⟨_, rfl, max_element_fold_mem _ xs x, max_element_fold_ge size xs x⟩

theorem mem_prefix_of {T : Type} (t : radix_tree T) (input : List Char) (e : List Char × T) :
    e ∈ t.prefix_of input ↔ e ∈ t.entries ∧ e.1 <+: input := by
  unfold radix_tree.prefix_of
  rw [List.mem_filter, List.isPrefixOf_iff_prefix]

/-- Two stored symbols of the same length that are prefixes of the same input are the
same entry. -/
theorem prefix_entry_unique {T : Type} (t : radix_tree T) (input : List Char)
    (e e2 : List Char × T) (he : e ∈ t.entries) (he2 : e2 ∈ t.entries)
    (hp : e.1 <+: input) (hp2 : e2.1 <+: input) (hlen : e.1.length = e2.1.length) :
    e2 = e := by
  have hpre : e.1 <+: e2.1 := List.prefix_of_prefix_length_le hp hp2 (le_of_eq hlen)
  have hkey : e.1 = e2.1 := hpre.eq_of_length hlen
  exact List.inj_on_of_nodup_map t.nodup he2 he hkey.symm

/-- C22.  `symbol_table::parse` succeeds exactly when a stored symbol is a prefix of the
input.  On success there is a stored symbol that is a prefix of the input and at least as
long as every such symbol, and it is the only one of its length or longer; the attribute
is its value and the iterator has advanced by its length, past the symbol itself.  On
failure the iterator and the attribute are as before. -/
theorem symbol_table_parse_spec {T : Type} (symbols : radix_tree T) (f : List Char) (a : T) :
    ((symbol_table.parse ⟨symbols⟩ f a).1 = true ↔ ∃ e ∈ symbols.entries, e.1 <+: f) ∧
      ((symbol_table.parse ⟨symbols⟩ f a).1 = true →
        ∃ e ∈ symbols.entries, e.1 <+: f ∧
          (∀ e2 ∈ symbols.entries, e2.1 <+: f → e2.1.length ≤ e.1.length) ∧
          (∀ e2 ∈ symbols.entries, e2.1 <+: f → e.1.length ≤ e2.1.length → e2 = e) ∧
          (symbol_table.parse ⟨symbols⟩ f a).2.2 = e.2 ∧
          (symbol_table.parse ⟨symbols⟩ f a).2.1 = f.drop e.1.length ∧
          f = e.1 ++ (symbol_table.parse ⟨symbols⟩ f a).2.1) ∧
      ((symbol_table.parse ⟨symbols⟩ f a).1 = false →
        (symbol_table.parse ⟨symbols⟩ f a).2.1 = f ∧
          (symbol_table.parse ⟨symbols⟩ f a).2.2 = a) := by
  by_cases hempty : symbols.prefix_of f = []
  · have hres : symbol_table.parse ⟨symbols⟩ f a = (false, f, a) := by
      simp [symbol_table.parse, hempty]
    rw [hres]
    refine ⟨?_, ?_, ?_⟩
    · constructor
      · intro h
        cases h
      · rintro ⟨e, he, hp⟩
        have : e ∈ symbols.prefix_of f := (mem_prefix_of symbols f e).2 ⟨he, hp⟩
        rw [hempty] at this
        cases this
    · intro h
      cases h
    · intro _
      exact ⟨rfl, rfl⟩
  · obtain ⟨m, hm, hmem, hmax⟩ := max_element_spec (fun e : List Char × T => e.1.length)
      (symbols.prefix_of f) hempty
    have hne : (symbols.prefix_of f).isEmpty = false := by
      cases hq : symbols.prefix_of f with
      | nil => exact absurd hq hempty
      | cons _ _ => rfl
    have hres : symbol_table.parse ⟨symbols⟩ f a = (true, f.drop m.1.length, m.2) := by
      simp only [symbol_table.parse, hne, hm]
      rfl
    rw [hres]
    obtain ⟨hme, hmp⟩ := (mem_prefix_of symbols f m).1 hmem
    refine ⟨?_, ?_, ?_⟩
    · constructor
      · intro _
        exact ⟨m, hme, hmp⟩
      · intro _
        rfl
    · intro _
      refine ⟨m, hme, hmp, ?_, ?_, rfl, rfl, ?_⟩
      · intro e2 he2 hp2
        exact hmax e2 ((mem_prefix_of symbols f e2).2 ⟨he2, hp2⟩)
      · intro e2 he2 hp2 hle
        have hge := hmax e2 ((mem_prefix_of symbols f e2).2 ⟨he2, hp2⟩)
        exact prefix_entry_unique symbols f m e2 hme he2 hmp hp2 (le_antisymm hle hge)
      · obtain ⟨r, hr⟩ := hmp
        show f = m.1 ++ f.drop m.1.length
        rw [← hr, List.drop_left]
    · intro h
      cases h

/-! ## The guard parser -/

/-- C23.  `guard_parser::parse` succeeds exactly when the inner parser succeeds and the
guard accepts the inner attribute: it returns `true`, or for a guard with an optional
result a value.  On success the output attribute is the inner attribute, or the value
that the guard returned; whenever `parse` fails the output attribute is as before.  The
iterator is where the inner parser left it. -/
theorem guard_parser_parse_spec {α β : Type} (parser_ : parser_fn α) (guard_ : α → Bool)
    (guard_opt : α → Option β) (init : α) (f : List Char) (a : α) (b : β) :
    (((guard_parser_parse parser_ guard_ init f a).1 = true ↔
          (parser_ f init).1 = true ∧ guard_ (parser_ f init).2.2 = true) ∧
        ((guard_parser_parse parser_ guard_ init f a).1 = true →
          (guard_parser_parse parser_ guard_ init f a).2.2 = (parser_ f init).2.2) ∧
        ((guard_parser_parse parser_ guard_ init f a).1 = false →
          (guard_parser_parse parser_ guard_ init f a).2.2 = a) ∧
        (guard_parser_parse parser_ guard_ init f a).2.1 = (parser_ f init).2.1) ∧
      (((guard_parser_parse_optional parser_ guard_opt init f b).1 = true ↔
          (parser_ f init).1 = true ∧ (guard_opt (parser_ f init).2.2).isSome = true) ∧
        ((guard_parser_parse_optional parser_ guard_opt init f b).1 = true →
          guard_opt (parser_ f init).2.2 =
            some (guard_parser_parse_optional parser_ guard_opt init f b).2.2) ∧
        ((guard_parser_parse_optional parser_ guard_opt init f b).1 = false →
          (guard_parser_parse_optional parser_ guard_opt init f b).2.2 = b) ∧
        (guard_parser_parse_optional parser_ guard_opt init f b).2.1 =
          (parser_ f init).2.1) := by
  constructor
  · unfold guard_parser_parse
    cases h1 : (parser_ f init).1 <;> cases h2 : guard_ (parser_ f init).2.2 <;> simp [h1, h2]
  · unfold guard_parser_parse_optional
    cases h1 : (parser_ f init).1 <;> cases h2 : guard_opt (parser_ f init).2.2 <;>
      simp [h1, h2]

end vast

namespace vast

/-- C22 at the symbols `a`, `ab`, `abcd`, `b`: on the input `abce` the longest symbol
that is a prefix is `ab`, and the rest of the input is `ce`; on the input `xyz` the parse
fails and changes nothing. -/
theorem symbol_table_parse_spec_witness :
    (symbol_table.parse ⟨example_symbols⟩ "abce".toList 0).1 = true ∧
      symbol_table.parse ⟨example_symbols⟩ "abce".toList 0 = (true, "ce".toList, 2) ∧
      symbol_table.parse ⟨example_symbols⟩ "xyz".toList 0 = (false, "xyz".toList, 0) :=
  ⟨(symbol_table_parse_spec example_symbols "abce".toList 0).1.2
      ⟨("ab".toList, 2), by decide, ⟨"ce".toList, rfl⟩⟩,
    by decide, by decide⟩

/-- C23 at a parser for one digit with the guard `even`: `4x` parses to 4, `3x` fails and
leaves the attribute 9; with a guard that gives half of an even number, `4x` parses
to 2. -/
theorem guard_parser_parse_spec_witness :
    (guard_parser_parse example_digit (fun n => n % 2 == 0) 0 "4x".toList 9).1 = true ∧
      guard_parser_parse example_digit (fun n => n % 2 == 0) 0 "4x".toList 9 =
        (true, "x".toList, 4) ∧
      guard_parser_parse example_digit (fun n => n % 2 == 0) 0 "3x".toList 9 =
        (false, "x".toList, 9) ∧
      guard_parser_parse_optional example_digit
          (fun n => if n % 2 = 0 then some (n / 2) else none) 0 "4x".toList 9 =
        (true, "x".toList, 2) :=
  ⟨(guard_parser_parse_spec example_digit (fun n => n % 2 == 0)
      (fun n => if n % 2 = 0 then some (n / 2) else none) 0 "4x".toList 9 9).1.1.2
      ⟨rfl, rfl⟩,
    by decide, by decide, by decide⟩

end vast

namespace vast.bits

/-! ## Masks -/

theorem testBit_false_of_lt (w x j : Nat) (hx : x < 2 ^ w) (hj : w ≤ j) :
    x.testBit j = false :=
  Nat.testBit_lt_two_pow (lt_of_lt_of_le hx (Nat.pow_le_pow_right (by decide) hj))

theorem testBit_mask_above (w i j : Nat) :
    ((all w <<< (i + 1)) % 2 ^ w).testBit j = (decide (i < j) && decide (j < w)) := by
  unfold all
  rw [Nat.testBit_mod_two_pow, Nat.testBit_shiftLeft, Nat.testBit_two_pow_sub_one]
  by_cases h1 : j < w <;> by_cases h2 : i < j <;> simp [h1, h2] <;> omega

theorem shift_all_mod (w i : Nat) (hi : i ≤ w) : (all w <<< i) % 2 ^ w = 2 ^ w - 2 ^ i := by
  unfold all
  rw [Nat.shiftLeft_eq]
  have hle : 2 ^ i ≤ 2 ^ w := Nat.pow_le_pow_right (by decide) hi
  have hpos : 0 < 2 ^ i := Nat.two_pow_pos i
  obtain ⟨b, hb⟩ : ∃ b, 2 ^ i = b + 1 := ⟨2 ^ i - 1, by omega⟩
  obtain ⟨c, hc⟩ : ∃ c, 2 ^ w = b + 1 + c := ⟨2 ^ w - 2 ^ i, by omega⟩
  rw [hb, hc]
  have h1 : (b + 1 + c - 1) * (b + 1) = c + b * (b + 1 + c) := by
    have : b + 1 + c - 1 = b + c := by omega
    rw [this]
    ring
  rw [h1, Nat.add_mul_mod_self_right]
  have h2 : b + 1 + c - (b + 1) = c := by omega
  rw [h2]
  exact Nat.mod_eq_of_lt (by omega)

theorem mask_below (w i : Nat) (hi : i ≤ w) : all w - (all w <<< i) % 2 ^ w = 2 ^ i - 1 := by
  rw [shift_all_mod w i hi]
  unfold all
  have hle : 2 ^ i ≤ 2 ^ w := Nat.pow_le_pow_right (by decide) hi
  have hpos : 0 < 2 ^ i := Nat.two_pow_pos i
  omega

/-! ## Counting zeros -/

/-- The lowest set bit of a word that is not zero. -/
theorem count_trailing_zeros_spec (n y : Nat) (hy : y < 2 ^ n) (h0 : y ≠ 0) :
    y.testBit (count_trailing_zeros n y) = true ∧
      ∀ j, j < count_trailing_zeros n y → y.testBit j = false := by
  induction n generalizing y with
  | zero =>
    simp only [pow_zero, Nat.lt_one_iff] at hy
    exact absurd hy h0
  | succ n ih =>
    by_cases hodd : y % 2 = 1
    · rw [count_trailing_zeros, if_pos hodd]
      refine ⟨?_, fun j hj => absurd hj (Nat.not_lt_zero _)⟩
      rw [Nat.testBit_zero]
      simp [hodd]
    · rw [count_trailing_zeros, if_neg hodd]
      have hhalf : y / 2 < 2 ^ n := by
        rw [pow_succ] at hy
        omega
      have hne : y / 2 ≠ 0 := by omega
      obtain ⟨h1, h2⟩ := ih (y / 2) hhalf hne
      refine ⟨?_, ?_⟩
      · rw [Nat.testBit_succ]
        exact h1
      · intro j hj
        cases j with
        | zero =>
          rw [Nat.testBit_zero]
          simp [hodd]
        | succ j =>
          rw [Nat.testBit_succ]
          exact h2 j (by omega)

/-- The highest set bit of a word that is not zero. -/
theorem bit_length_spec (n y : Nat) (hy : y < 2 ^ n) (h0 : y ≠ 0) :
    0 < bit_length n y ∧ bit_length n y ≤ n ∧ y.testBit (bit_length n y - 1) = true ∧
      ∀ j, bit_length n y ≤ j → y.testBit j = false := by
  induction n generalizing y with
  | zero =>
    simp only [pow_zero, Nat.lt_one_iff] at hy
    exact absurd hy h0
  | succ n ih =>
    rw [bit_length, if_neg h0]
    have hhalf : y / 2 < 2 ^ n := by
      rw [pow_succ] at hy
      omega
    by_cases hz : y / 2 = 0
    · have hy1 : y = 1 := by omega
      subst hy1
      have hb : bit_length n (1 / 2) = 0 := by
        cases n with
        | zero => rfl
        | succ n => simp [bit_length]
      rw [hb]
      refine ⟨by omega, by omega, by decide, ?_⟩
      intro j hj
      cases j with
      | zero => omega
      | succ j =>
        rw [Nat.testBit_succ]
        simp
    · obtain ⟨h1, h2, h3, h4⟩ := ih (y / 2) hhalf hz
      refine ⟨by omega, by omega, ?_, ?_⟩
      · have : bit_length n (y / 2) + 1 - 1 = (bit_length n (y / 2) - 1) + 1 := by omega
        rw [this, Nat.testBit_succ]
        exact h3
      · intro j hj
        cases j with
        | zero => omega
        | succ j =>
          rw [Nat.testBit_succ]
          exact h4 j (by omega)

theorem and_ne_zero_bound (x m w : Nat) (hx : x < 2 ^ w) : x &&& m < 2 ^ w :=
  lt_of_le_of_lt Nat.and_le_left hx

/-! ## `next` and `prev` -/

theorem next_spec (w x i : Nat) (hx : x < 2 ^ w) :
    (next w x i = npos ∧ ∀ j, i < j → j < w → x.testBit j = false) ∨
      (i < next w x i ∧ next w x i < w ∧ x.testBit (next w x i) = true ∧
        ∀ j, i < j → j < next w x i → x.testBit j = false) := by
  have hbit : ∀ j, (x &&& ((all w <<< (i + 1)) % 2 ^ w)).testBit j =
      (x.testBit j && (decide (i < j) && decide (j < w))) := by
    intro j
    rw [Nat.testBit_and, testBit_mask_above]
  by_cases hlast : i = w - 1
  · left
    refine ⟨by simp [next, hlast], ?_⟩
    intro j h1 h2
    omega
  · by_cases htop : x &&& ((all w <<< (i + 1)) % 2 ^ w) = 0
    · left
      refine ⟨by simp [next, hlast, htop], ?_⟩
      intro j h1 h2
      have := hbit j
      rw [htop, Nat.zero_testBit] at this
      simpa [h1, h2] using this.symm
    · right
      have hres : next w x i = count_trailing_zeros w (x &&& ((all w <<< (i + 1)) % 2 ^ w)) := by
        simp [next, hlast, htop]
      obtain ⟨h1, h2⟩ := count_trailing_zeros_spec w _ (and_ne_zero_bound x _ w hx) htop
      rw [← hres] at h1 h2
      rw [hbit] at h1
      simp only [Bool.and_eq_true, decide_eq_true_eq] at h1
      refine ⟨h1.2.1, h1.2.2, h1.1, ?_⟩
      intro j hj1 hj2
      have := h2 j hj2
      rw [hbit] at this
      have hjw : j < w := lt_trans hj2 h1.2.2
      simpa [hj1, hjw] using this

theorem prev_spec (w x i : Nat) (hx : x < 2 ^ w) (hi : i < w) :
    (prev w x i = npos ∧ ∀ j, j < i → x.testBit j = false) ∨
      (prev w x i < i ∧ x.testBit (prev w x i) = true ∧
        ∀ j, prev w x i < j → j < i → x.testBit j = false) := by
  have hbit : ∀ j, (x &&& (all w - (all w <<< i) % 2 ^ w)).testBit j =
      (x.testBit j && decide (j < i)) := by
    intro j
    rw [Nat.testBit_and, mask_below w i (le_of_lt hi), Nat.testBit_two_pow_sub_one]
  by_cases hfirst : i = 0
  · left
    refine ⟨by simp [prev, hfirst], ?_⟩
    intro j h1
    omega
  · by_cases hlow : x &&& (all w - (all w <<< i) % 2 ^ w) = 0
    · left
      refine ⟨by simp [prev, hfirst, hlow], ?_⟩
      intro j h1
      have := hbit j
      rw [hlow, Nat.zero_testBit] at this
      simpa [h1] using this.symm
    · right
      obtain ⟨h1, h2, h3, h4⟩ := bit_length_spec w _ (and_ne_zero_bound x _ w hx) hlow
      have hres : prev w x i = bit_length w (x &&& (all w - (all w <<< i) % 2 ^ w)) - 1 := by
        simp only [prev, hfirst, hlow, if_false, count_leading_zeros]
        omega
      rw [← hres] at h3
      rw [hbit] at h3
      simp only [Bool.and_eq_true, decide_eq_true_eq] at h3
      refine ⟨h3.2, h3.1, ?_⟩
      intro j hj1 hj2
      have := h4 j (by omega)
      rw [hbit] at this
      simpa [hj2] using this

/-- C24.  For every word `x` of width `w` (at most 64) and every position `i < w`,
`next(x, i)` is the least position `j` with `i < j < w` whose bit is set in `x`, and
`npos` exactly when there is none; `prev(x, i)` is the greatest position `j < i` whose
bit is set in `x`, and `npos` exactly when there is none. -/
theorem next_prev_spec (w x i : Nat) (hw : w ≤ 64) (hx : x < 2 ^ w) (hi : i < w) :
    ((next w x i = npos ↔ ∀ j, i < j → j < w → x.testBit j = false) ∧
        (next w x i ≠ npos →
          i < next w x i ∧ next w x i < w ∧ x.testBit (next w x i) = true ∧
            ∀ j, i < j → j < next w x i → x.testBit j = false)) ∧
      ((prev w x i = npos ↔ ∀ j, j < i → x.testBit j = false) ∧
        (prev w x i ≠ npos →
          prev w x i < i ∧ x.testBit (prev w x i) = true ∧
            ∀ j, prev w x i < j → j < i → x.testBit j = false)) := by
  have hn : (64 : Nat) < npos := by decide
  refine ⟨⟨?_, ?_⟩, ⟨?_, ?_⟩⟩
  · rcases next_spec w x i hx with ⟨h1, h2⟩ | ⟨h1, h2, h3, h4⟩
    · exact ⟨fun _ => h2, fun _ => h1⟩
    · constructor
      · intro h
        omega
      · intro h
        exact absurd (h (next w x i) h1 h2) (by simp [h3])
  · intro hne
    rcases next_spec w x i hx with ⟨h1, _⟩ | h
    · exact absurd h1 hne
    · exact h
  · rcases prev_spec w x i hx hi with ⟨h1, h2⟩ | ⟨h1, h2, h3⟩
    · exact ⟨fun _ => h2, fun _ => h1⟩
    · constructor
      · intro h
        omega
      · intro h
        exact absurd (h (prev w x i) h1) (by simp [h2])
  · intro hne
    rcases prev_spec w x i hx hi with ⟨h1, _⟩ | h
    · exact absurd h1 hne
    · exact h

end vast.bits

namespace vast.bits

/-- C24 at the words of the tests `next` and `prev` of `test/bits.cpp`: the model gives
every value that the tests expect, and the theorem applies at `next(x, 9)` and
`prev(x, 18)`. -/
theorem next_prev_spec_witness :
    ((64 ≤ 64 ∧ test_word_x < 2 ^ 64 ∧ 9 < 64) ∧
        (64 ≤ 64 ∧ test_word_y < 2 ^ 64 ∧ 18 < 64)) ∧
      (next 8 0 0 = npos ∧ next 8 0 7 = npos ∧
        (List.range 7).map (next 8 (all 8)) = (List.range 7).map (· + 1) ∧
        count_trailing_zeros 64 test_word_x = 10 ∧
        count_leading_zeros 64 test_word_x = 9 ∧
        [0, 1, 9, 10, 54, 53, 52, 51].map (next 64 test_word_x) =
          [10, 10, 10, 12, npos, 54, 54, 52]) ∧
      (prev 8 0 0 = npos ∧ prev 8 0 7 = npos ∧
        (List.range 7).map (fun i => prev 8 (all 8) (i + 1)) = List.range 7 ∧
        [0, 1, 8, 18, 63, 48, 49, 50].map (prev 64 test_word_y) =
          [npos, 0, 7, 7, 62, 7, 7, 49]) ∧
      (9 < next 64 test_word_x 9 ∧ next 64 test_word_x 9 < 64 ∧
        test_word_x.testBit (next 64 test_word_x 9) = true ∧
        ∀ j, 9 < j → j < next 64 test_word_x 9 → test_word_x.testBit j = false) ∧
      (prev 64 test_word_y 18 < 18 ∧
        test_word_y.testBit (prev 64 test_word_y 18) = true ∧
        ∀ j, prev 64 test_word_y 18 < j → j < 18 → test_word_y.testBit j = false) :=
  ⟨⟨⟨by decide, by decide, by decide⟩, ⟨by decide, by decide, by decide⟩⟩,
    ⟨by decide, by decide, by decide, by decide, by decide, by decide⟩,
    ⟨by decide, by decide, by decide, by decide⟩,
    (next_prev_spec 64 test_word_x 9 (by decide) (by decide) (by decide)).1.2 (by decide),
    (next_prev_spec 64 test_word_y 18 (by decide) (by decide) (by decide)).2.2 (by decide)⟩

end vast.bits

namespace vast

/-! ## Iterating a directory -/

/-- The entries that an iteration yields: all but `.` and `..`. -/
theorem skip_iff (d : List Char) (hnul : Char.ofNat 0 ∉ d) :
    ((c_str_at d 0 = '.' && c_str_at d 1 = Char.ofNat 0) ||
        (c_str_at d 0 = '.' && c_str_at d 1 = '.' && c_str_at d 2 = Char.ofNat 0)) = true ↔
      (d = ['.'] ∨ d = ['.', '.']) := by
  match d, hnul with
  | [], _ => simp [c_str_at]
  | [a], h =>
    simp only [List.mem_singleton] at h
    simp [c_str_at]
  | [a, b], h =>
    simp only [List.mem_cons, List.mem_singleton, not_or, List.not_mem_nil,
      or_false] at h
    have hb : b ≠ Char.ofNat 0 := fun hb => h.2 hb.symm
    simp [c_str_at, hb]
  | a :: b :: c :: rest, h =>
    simp only [List.mem_cons, not_or] at h
    have hb : b ≠ Char.ofNat 0 := fun hb => h.2.1 hb.symm
    have hc : c ≠ Char.ofNat 0 := fun hc => h.2.2.1 hc.symm
    simp [c_str_at, hb, hc]

/-- One `increment` on an open stream either finds the stream without a further entry
to yield and ends the iteration, or stops at the first entry that is neither `.` nor
`..`. -/
theorem read_spec (join : List Char → List Char → List Char) (p : List Char)
    (it : directory.iterator) (s : List (List Char)) (hnul : ∀ d ∈ s, Char.ofNat 0 ∉ d) :
    (directory.iterator.read join p it s = (⟨false, it.current_⟩, []) ∧
        s.filter (fun d => decide (d ≠ ['.'] ∧ d ≠ ['.', '.'])) = []) ∨
      (∃ d rest, directory.iterator.read join p it s = (⟨it.dir_, join p d⟩, rest) ∧
        s.filter (fun d => decide (d ≠ ['.'] ∧ d ≠ ['.', '.'])) =
          d :: rest.filter (fun d => decide (d ≠ ['.'] ∧ d ≠ ['.', '.'])) ∧
        rest.length < s.length ∧ ∀ e ∈ rest, Char.ofNat 0 ∉ e) := by
  induction s with
  | nil =>
    left
    exact ⟨rfl, rfl⟩
  | cons d rest ih =>
    have hd := skip_iff d (hnul d (List.mem_cons_self _ _))
    have hrest : ∀ e ∈ rest, Char.ofNat 0 ∉ e := fun e he => hnul e (List.mem_cons_of_mem _ he)
    by_cases hskip : d = ['.'] ∨ d = ['.', '.']
    · have hfilter : (d :: rest).filter (fun d => decide (d ≠ ['.'] ∧ d ≠ ['.', '.'])) =
          rest.filter (fun d => decide (d ≠ ['.'] ∧ d ≠ ['.', '.'])) := by
        rw [List.filter_cons_of_neg]
        simp only [decide_eq_true_eq, not_and_or, not_not]
        exact hskip
      have hread : directory.iterator.read join p it (d :: rest) =
          directory.iterator.read join p it rest := by
        rw [directory.iterator.read]
        simp only [hd.2 hskip, if_true]
      rw [hread, hfilter]
      rcases ih hrest with h | ⟨e, r, h1, h2, h3, h4⟩
      · left
        exact h
      · right
        exact ⟨e, r, h1, h2, by simp only [List.length_cons]; omega, h4⟩
    · right
      have hno : ¬ (((c_str_at d 0 = '.' && c_str_at d 1 = Char.ofNat 0) ||
          (c_str_at d 0 = '.' && c_str_at d 1 = '.' && c_str_at d 2 = Char.ofNat 0)) = true) :=
        fun h => hskip (hd.1 h)
      refine ⟨d, rest, ?_, ?_, by simp, hrest⟩
      · rw [directory.iterator.read]
        simp only [hno, Bool.false_eq_true, if_false]
      · rw [List.filter_cons_of_pos]
        simp only [decide_eq_true_eq]
        exact not_or.1 hskip

/-- The loop from an iterator that holds a path yields that path and then the entries
of the stream that are neither `.` nor `..`. -/
theorem iterate_loop_spec (join : List Char → List Char → List Char) (p : List Char)
    (fuel : Nat) (cur : List Char) (s : List (List Char)) (out : List (List Char))
    (hnul : ∀ d ∈ s, Char.ofNat 0 ∉ d) (hfuel : s.length + 2 ≤ fuel) :
    directory.iterate_loop join fuel ⟨true, cur⟩ ⟨p, some s⟩ out =
      some (out ++ cur ::
        (s.filter (fun d => decide (d ≠ ['.'] ∧ d ≠ ['.', '.']))).map (join p),
        ⟨p, some []⟩) := by
  induction fuel generalizing cur s out with
  | zero => omega
  | succ n ih =>
    rw [directory.iterate_loop]
    have hne : (directory.iterator.equals ⟨true, cur⟩ directory.end_) = false := rfl
    simp only [hne, Bool.false_eq_true, if_false, directory.iterator.increment,
      Bool.not_true, directory.iterator.dereference]
    rcases read_spec join p ⟨true, cur⟩ s hnul with ⟨h1, h2⟩ | ⟨d, rest, h1, h2, h3, h4⟩
    · rw [h1, h2]
      obtain ⟨m, rfl⟩ : ∃ m, n = m + 1 := ⟨n - 1, by omega⟩
      rw [directory.iterate_loop]
      have he : (directory.iterator.equals ⟨false, cur⟩ directory.end_) = true := rfl
      simp only [he, if_true, List.map_nil]
    · rw [h1, h2]
      simp only
      rw [ih (join p d) rest (out ++ [cur]) h4 (by omega)]
      simp

/-- C30.  For every listing `names` of an open directory stream, whose names are C
strings, iterating the directory from `begin()` to `end()` ends after at most
`names.length + 1` rounds and yields `path / name` for each entry whose name is neither
`.` nor `..`, in the order of the listing, reading the stream to its end.  When the
directory cannot be opened, `begin()` equals `end()` and nothing is yielded. -/
theorem directory_iterate_spec (join : List Char → List Char → List Char) (p : List Char)
    (names : List (List Char)) (fuel : Nat) (hnul : ∀ d ∈ names, Char.ofNat 0 ∉ d)
    (hfuel : names.length + 1 ≤ fuel) :
    directory.iterate join fuel ⟨p, some names⟩ =
        some ((names.filter (fun d => decide (d ≠ ['.'] ∧ d ≠ ['.', '.']))).map (join p),
          ⟨p, some []⟩) ∧
      (directory.begin_ join ⟨p, none⟩).1.equals directory.end_ = true ∧
      directory.iterate join fuel ⟨p, none⟩ = some ([], ⟨p, none⟩) := by
  obtain ⟨n, rfl⟩ : ∃ n, fuel = n + 1 := ⟨fuel - 1, by omega⟩
  refine ⟨?_, rfl, ?_⟩
  · unfold directory.iterate directory.begin_
    simp only [directory.iterator.increment, Bool.not_true, Bool.false_eq_true, if_false]
    rcases read_spec join p ⟨true, []⟩ names hnul with ⟨h1, h2⟩ | ⟨d, rest, h1, h2, h3, h4⟩
    · rw [h1, h2]
      rfl
    · rw [h1, h2]
      simp only
      rw [iterate_loop_spec join p (n + 1) (join p d) rest [] h4 (by omega)]
      simp
  · rfl

end vast

namespace vast

/-- C30 at a listing with `.`, `..` and three other names: the iteration yields the
three paths in the order of the listing; a directory that cannot be opened yields
nothing. -/
theorem directory_iterate_spec_witness :
    ((∀ d ∈ [".".toList, "..".toList, "a".toList, ".b".toList, ".".toList, "c.".toList],
        Char.ofNat 0 ∉ d) ∧ 6 + 1 ≤ 7) ∧
      directory.iterate system.example_join 7
          ⟨"/tmp".toList,
            some [".".toList, "..".toList, "a".toList, ".b".toList, ".".toList, "c.".toList]⟩ =
        some (["/tmp/a".toList, "/tmp/.b".toList, "/tmp/c.".toList],
          ⟨"/tmp".toList, some []⟩) ∧
      directory.iterate system.example_join 7 ⟨"/tmp".toList, none⟩ =
        some ([], ⟨"/tmp".toList, none⟩) :=
  ⟨⟨by decide, by decide⟩,
    (directory_iterate_spec system.example_join "/tmp".toList
      [".".toList, "..".toList, "a".toList, ".b".toList, ".".toList, "c.".toList] 7
      (by decide) (by decide)).1,
    (directory_iterate_spec system.example_join "/tmp".toList
      [".".toList, "..".toList, "a".toList, ".b".toList, ".".toList, "c.".toList] 7
      (by decide) (by decide)).2.2⟩

end vast

namespace vast.format.syslog

/-! ## Rows of a call without timeouts and failures -/

theorem pending_rfc5424 {μ : Type} (bs : builders μ) :
    ((pending_slices bs).map slice.rfc5424_rows).flatten = bs.rfc5424 := by
  unfold pending_slices
  cases h1 : bs.rfc5424 <;> cases h2 : bs.unknown <;> simp [slice.rfc5424_rows]

theorem pending_unknown {μ : Type} (bs : builders μ) :
    ((pending_slices bs).map slice.unknown_rows).flatten = bs.unknown := by
  unfold pending_slices
  cases h1 : bs.rfc5424 <;> cases h2 : bs.unknown <;> simp [slice.unknown_rows]

/-- Without failures `finish` returns the result it was given and moves the rows of the
builders into slices, keeping the rows of each layout and their order. -/
theorem finish_quiet {μ : Type} (parse : List Char → Option μ)
    (st : reader_state (List Char × List (List Char)) μ) (result : Option ec) :
    (finish (quiet_environment parse) st result).1 = result ∧
      (finish (quiet_environment parse) st result).2.lines = st.lines ∧
      rows_rfc5424 (finish (quiet_environment parse) st result).2 = rows_rfc5424 st ∧
      rows_unknown (finish (quiet_environment parse) st result).2 = rows_unknown st := by
  unfold finish
  split
  · exact ⟨rfl, rfl, rfl, rfl⟩
  · refine ⟨rfl, rfl, ?_, ?_⟩
    · simp [quiet_environment, rows_rfc5424, pending_rfc5424]
    · simp [quiet_environment, rows_unknown, pending_unknown]

theorem rows_add_row {σ μ : Type} (st : reader_state σ μ) (parse : List Char → Option μ)
    (line : List Char) :
    rows_rfc5424 ({ st with bs := add_row st.bs (parse line) line } : reader_state σ μ) =
        rows_rfc5424 st ++ [line].filterMap parse ∧
      rows_unknown ({ st with bs := add_row st.bs (parse line) line } : reader_state σ μ) =
        rows_unknown st ++ [line].filter (fun l => (parse l).isNone) := by
  cases h : parse line <;> simp [rows_rfc5424, rows_unknown, add_row, h]

/-- The loop on the lines `ls` still to come, without timeouts and failures: it takes
in the first `max_events - produced` lines of `ls` that are not empty. -/
theorem read_loop_quiet {μ : Type} (parse : List Char → Option μ)
    (max_events max_slice_size : Nat) :
    ∀ (ls : List (List Char)) (fuel tick produced : Nat) (bptr : Option layout)
      (cur : List Char) (bs : builders μ) (out : List (slice μ)),
      ls.length + 1 ≤ fuel →
      ∃ st1, read_loop (quiet_environment parse) max_events max_slice_size fuel tick produced
            bptr ⟨(cur, ls), bs, out⟩ =
          some (if ((ls.filter fun l => !l.isEmpty).take (max_events - produced)).length =
              max_events - produced then none else some ec.end_of_input,
            produced + ((ls.filter fun l => !l.isEmpty).take (max_events - produced)).length,
            st1) ∧
        rows_rfc5424 st1 = rows_rfc5424 (⟨(cur, ls), bs, out⟩ : reader_state _ μ) ++
          ((ls.filter fun l => !l.isEmpty).take (max_events - produced)).filterMap parse ∧
        rows_unknown st1 = rows_unknown (⟨(cur, ls), bs, out⟩ : reader_state _ μ) ++
          ((ls.filter fun l => !l.isEmpty).take (max_events - produced)).filter
            (fun l => (parse l).isNone) := by
  intro ls
  induction ls with
  | nil =>
    intro fuel tick produced bptr cur bs out hfuel
    obtain ⟨n, rfl⟩ : ∃ n, fuel = n + 1 := ⟨fuel - 1, by omega⟩
    by_cases hp : produced < max_events
    · obtain ⟨f1, _, f3, f4⟩ := finish_quiet parse ⟨(cur, []), bs, out⟩ (some ec.end_of_input)
      refine ⟨(finish (quiet_environment parse) ⟨(cur, []), bs, out⟩
        (some ec.end_of_input)).2, ?_, ?_, ?_⟩
      · have hne : ¬ (0 = max_events - produced) := by omega
        simp only [read_loop, hp, if_true, List.filter_nil, List.take_nil, List.length_nil,
          hne, if_false, Nat.add_zero, f1]
        rfl
      · simp [f3]
      · simp [f4]
    · refine ⟨⟨(cur, []), bs, out⟩, ?_, by simp, by simp⟩
      have hz : max_events - produced = 0 := by omega
      simp [read_loop, hp, hz]
  | cons l rest ih =>
    intro fuel tick produced bptr cur bs out hfuel
    obtain ⟨n, rfl⟩ : ∃ n, fuel = n + 1 := ⟨fuel - 1, by omega⟩
    have hn : rest.length + 1 ≤ n := by
      simp only [List.length_cons] at hfuel
      omega
    by_cases hp : produced < max_events
    · have hnext : ∀ (b : Option layout),
          next_line (quiet_environment parse) tick b
            (⟨(cur, l :: rest), bs, out⟩ : reader_state _ μ) = (false, (l, rest)) := by
        intro b
        unfold next_line
        simp only [quiet_environment, list_lines, Bool.false_eq_true, if_false]
        split <;> rfl
      have hdone : (quiet_environment parse).lines.done (cur, l :: rest) = false := rfl
      by_cases hl : l.isEmpty = true
      · -- an empty line is passed over
        obtain ⟨st1, h1, h2, h3⟩ := ih n (tick + 1) produced bptr l bs out hn
        refine ⟨st1, ?_, ?_, ?_⟩
        · rw [read_loop]
          simp only [hp, if_true, hdone, Bool.false_eq_true, if_false, hnext,
            Bool.false_and]
          have hget : (quiet_environment parse).lines.get (l, rest) = l := rfl
          simp only [hget, hl, if_true]
          rw [h1]
          simp [List.filter_cons, hl]
        · rw [h2]
          simp [List.filter_cons, hl, rows_rfc5424]
        · rw [h3]
          simp [List.filter_cons, hl, rows_unknown]
      · -- a line that is not empty gives one row
        obtain ⟨k, hk⟩ : ∃ k, max_events - produced = k + 1 :=
          ⟨max_events - produced - 1, by omega⟩
        have hk2 : max_events - (produced + 1) = k := by omega
        have hfilter : (List.filter (fun l => !l.isEmpty) (l :: rest)).take
            (max_events - produced) =
            l :: (List.filter (fun l => !l.isEmpty) rest).take (max_events - (produced + 1)) := by
          rw [hk, hk2]
          simp [List.filter_cons, hl]
        obtain ⟨a1, a2⟩ := rows_add_row (⟨(l, rest), bs, out⟩ : reader_state _ μ) parse l
        have a1 : rows_rfc5424 (⟨(l, rest), add_row bs (parse l) l, out⟩ : reader_state _ μ) =
            rows_rfc5424 (⟨(cur, l :: rest), bs, out⟩ : reader_state _ μ) ++
              [l].filterMap parse := a1
        have a2 : rows_unknown (⟨(l, rest), add_row bs (parse l) l, out⟩ : reader_state _ μ) =
            rows_unknown (⟨(cur, l :: rest), bs, out⟩ : reader_state _ μ) ++
              [l].filter (fun l => (parse l).isNone) := a2
        have hget : (quiet_environment parse).lines.get (l, rest) = l := rfl
        have hbn : ∀ x, (quiet_environment parse).builder_null x = false := fun _ => rfl
        have haf : ∀ x y, (quiet_environment parse).add_fails x y = false := fun _ _ => rfl
        have hparse : (quiet_environment parse).parse = parse := rfl
        have hlen : ∀ X : Nat, produced + 1 + X = produced + (X + 1) := fun X => by omega
        have hcond : ∀ X : Nat, (X + 1 = max_events - produced) ↔
            (X = max_events - (produced + 1)) := fun X => by omega
        by_cases hfull : builder_rows (add_row bs (parse l) l) (some (layout_of (parse l))) ≥
            max_slice_size
        · obtain ⟨f1, f2, f3, f4⟩ := finish_quiet parse
            (⟨(l, rest), add_row bs (parse l) l, out⟩ : reader_state _ μ) none
          rcases hfe : finish (quiet_environment parse)
            (⟨(l, rest), add_row bs (parse l) l, out⟩ : reader_state _ μ) none with ⟨r, s⟩
          rw [hfe] at f1 f2 f3 f4
          simp only at f1 f2 f3 f4
          obtain ⟨sl, sb, so⟩ := s
          simp only at f2
          subst f1 f2
          obtain ⟨st1, h1, h2, h3⟩ := ih n (tick + 1) (produced + 1)
            (some (layout_of (parse l))) l sb so hn
          refine ⟨st1, ?_, ?_, ?_⟩
          · rw [read_loop]
            simp only [hp, if_true, hdone, Bool.false_eq_true, if_false, hnext,
              Bool.false_and, hget, hl, hbn, haf, hparse, hfull, hfe]
            rw [h1, hfilter]
            simp only [List.length_cons, hlen, hcond]
          · rw [h2, f3, a1, hfilter, List.append_assoc, ← List.filterMap_append]
            rfl
          · rw [h3, f4, a2, hfilter, List.append_assoc, ← List.filter_append]
            rfl
        · obtain ⟨st1, h1, h2, h3⟩ := ih n (tick + 1) (produced + 1)
            (some (layout_of (parse l))) l (add_row bs (parse l) l) out hn
          refine ⟨st1, ?_, ?_, ?_⟩
          · rw [read_loop]
            simp only [hp, if_true, hdone, Bool.false_eq_true, if_false, hnext,
              Bool.false_and, hget, hl, hbn, haf, hparse, hfull]
            rw [h1, hfilter]
            simp only [List.length_cons, hlen, hcond]
          · rw [h2, a1, hfilter, List.append_assoc, ← List.filterMap_append]
            rfl
          · rw [h3, a2, hfilter, List.append_assoc, ← List.filter_append]
            rfl
    · refine ⟨⟨(cur, l :: rest), bs, out⟩, ?_, by simp [show max_events - produced = 0 by omega],
        by simp [show max_events - produced = 0 by omega]⟩
      have hz : max_events - produced = 0 := by omega
      simp [read_loop, hp, hz]

end vast.format.syslog

namespace vast.format.syslog

theorem one_row_per_line {μ : Type} (parse : List Char → Option μ) (ls : List (List Char)) :
    (ls.filterMap parse).length + (ls.filter fun l => (parse l).isNone).length = ls.length := by
  induction ls with
  | nil => rfl
  | cons l rest ih =>
    cases h : parse l <;> simp [List.filterMap_cons, List.filter_cons, h] <;> omega

/-- C26.  Without timeouts and builder failures, a call of `read_impl` on the lines `ls`
returns, and it takes in the first `max_events` lines of `ls` that are not empty, one
row for each: in their order, a row of layout `syslog.rfc5424` for every line that the
message parser accepts and a row of layout `syslog.unknown` holding the raw line for
every other line.  Empty lines give no row and do not count.  The call returns `ok` with
`produced = max_events` when `ls` has at least `max_events` lines that are not empty,
and `end_of_input` with all of them taken in otherwise. -/
theorem read_impl_rows {μ : Type} (parse : List Char → Option μ)
    (max_events max_slice_size extra : Nat) (cur : List Char) (ls : List (List Char))
    (bs : builders μ) (out : List (slice μ)) :
    ∃ st1,
      read_impl (quiet_environment parse) max_events max_slice_size (ls.length + 1 + extra)
          ⟨(cur, ls), bs, out⟩ =
        some (if max_events ≤ (ls.filter fun l => !l.isEmpty).length then none
            else some ec.end_of_input,
          min max_events (ls.filter fun l => !l.isEmpty).length, st1) ∧
      rows_rfc5424 st1 = rows_rfc5424 (⟨(cur, ls), bs, out⟩ : reader_state _ μ) ++
        ((ls.filter fun l => !l.isEmpty).take max_events).filterMap parse ∧
      rows_unknown st1 = rows_unknown (⟨(cur, ls), bs, out⟩ : reader_state _ μ) ++
        ((ls.filter fun l => !l.isEmpty).take max_events).filter
          (fun l => (parse l).isNone) ∧
      (rows_rfc5424 st1).length + (rows_unknown st1).length =
        (rows_rfc5424 (⟨(cur, ls), bs, out⟩ : reader_state _ μ)).length +
          (rows_unknown (⟨(cur, ls), bs, out⟩ : reader_state _ μ)).length +
          min max_events (ls.filter fun l => !l.isEmpty).length := by
  obtain ⟨st1, h1, h2, h3⟩ := read_loop_quiet parse max_events max_slice_size ls
    (ls.length + 1 + extra) 0 0 none cur bs out (by omega)
  simp only [Nat.sub_zero, Nat.zero_add, List.length_take] at h1
  simp only [Nat.sub_zero] at h2 h3
  refine ⟨st1, ?_, h2, h3, ?_⟩
  · unfold read_impl
    rw [h1]
    have hc : (min max_events (ls.filter fun l => !l.isEmpty).length = max_events) ↔
        max_events ≤ (ls.filter fun l => !l.isEmpty).length := by omega
    simp only [hc]
  · rw [h2, h3]
    have := one_row_per_line parse ((ls.filter fun l => !l.isEmpty).take max_events)
    simp only [List.length_append, List.length_take] at this ⊢
    omega

/-- C26 at a concrete input: five lines, two of them empty, with a parser that accepts
the lines starting with `<`; `max_events = 2` stops the call after two rows, and
`max_events = 10` reads to the end of the input. -/
theorem read_impl_rows_witness :
    (∃ st1,
      read_impl (quiet_environment fun l => if l.head? = some '<' then some l.length else none)
          2 100 (5 + 1 + 0) ⟨([], [['<', 'a'], [], ['b'], [], ['<', 'c']]), ⟨[], []⟩, []⟩ =
        some (none, 2, st1) ∧
      rows_rfc5424 st1 = [2] ∧ rows_unknown st1 = [['b']]) ∧
      read_impl (quiet_environment fun l => if l.head? = some '<' then some l.length else none)
          10 100 (5 + 1 + 0) ⟨([], [['<', 'a'], [], ['b'], [], ['<', 'c']]), ⟨[], []⟩, []⟩ =
        some (some ec.end_of_input, 3,
          ⟨(['<', 'c'], []), ⟨[], []⟩, [.rfc5424 [2, 2], .unknown [['b']]]⟩) := by
  refine ⟨?_, by rfl⟩
  obtain ⟨st1, h1, h2, h3, _⟩ := read_impl_rows
    (fun l => if l.head? = some '<' then some l.length else none) 2 100 0 []
    [['<', 'a'], [], ['b'], [], ['<', 'c']] ⟨[], []⟩ []
  exact ⟨st1, h1, h2, h3⟩

end vast.format.syslog

namespace vast.format.test

/-! ## Slices of one call of the test reader -/

theorem slice_sizes_zero (max_slice_size : Nat) : slice_sizes 0 max_slice_size = [] := by
  simp [slice_sizes]

theorem slice_sizes_pos (total max_slice_size : Nat) (ht : 0 < total)
    (hm : 0 < max_slice_size) :
    slice_sizes total max_slice_size =
      min total max_slice_size ::
        slice_sizes (total - min total max_slice_size) max_slice_size := by
  by_cases h : total < max_slice_size
  · have h1 : min total max_slice_size = total := by omega
    rw [h1, Nat.sub_self, slice_sizes_zero]
    have h2 : total / max_slice_size = 0 := Nat.div_eq_of_lt h
    have h3 : total % max_slice_size = total := Nat.mod_eq_of_lt h
    have h4 : total ≠ 0 := by omega
    simp [slice_sizes, h2, h3, h4]
  · have hge : max_slice_size ≤ total := by omega
    have h1 : min total max_slice_size = max_slice_size := by omega
    rw [h1]
    have h2 : total / max_slice_size = (total - max_slice_size) / max_slice_size + 1 := by
      rw [Nat.div_eq total max_slice_size, if_pos ⟨hm, hge⟩]
    have h3 : total % max_slice_size = (total - max_slice_size) % max_slice_size :=
      Nat.mod_eq_sub_mod hge
    simp only [slice_sizes, h2, h3, List.replicate_succ, List.cons_append]

theorem slice_sizes_sum (max_slice_size total : Nat) :
    (slice_sizes total max_slice_size).sum = total := by
  simp only [slice_sizes, List.sum_append, List.sum_replicate, smul_eq_mul]
  have := Nat.div_add_mod total max_slice_size
  by_cases h : total % max_slice_size = 0
  · simp only [h, if_true, List.sum_nil]
    rw [Nat.mul_comm]
    omega
  · simp only [h, if_false, List.sum_cons, List.sum_nil]
    rw [Nat.mul_comm]
    omega

theorem slice_sizes_length_le (total max_slice_size : Nat) :
    (slice_sizes total max_slice_size).length ≤ total / max_slice_size + 1 := by
  simp only [slice_sizes, List.length_append, List.length_replicate]
  split <;> simp

/-- The step of `next_` in the loop is the successor modulo the length of the schema. -/
theorem next_step (len nx : Nat) (hlen : 0 < len) :
    (if 1 < len then (if nx % len + 1 = len then 0 else nx % len + 1) else nx % len) =
      (nx + 1) % len := by
  have hm : nx % len < len := Nat.mod_lt _ hlen
  have hadd : (nx + 1) % len = (nx % len + 1) % len := (Nat.mod_add_mod nx len 1).symm
  rw [hadd]
  by_cases h1 : 1 < len
  · rw [if_pos h1]
    by_cases h2 : nx % len + 1 = len
    · rw [if_pos h2, h2, Nat.mod_self]
    · rw [if_neg h2]
      exact (Nat.mod_eq_of_lt (by omega)).symm
  · rw [if_neg h1]
    have : len = 1 := by omega
    subst this
    omega

/-- The loop without failures: it returns, and it emits the slices of the
specification for the events that are left to produce in this call. -/
theorem read_loop_slices {β : Type} (env : environment β) (max_events max_slice_size : Nat)
    (hadd : ∀ t, env.add_fails t = false) (hfin : ∀ t, env.finish_fails t = false)
    (hmss : 0 < max_slice_size) :
    ∀ (fuel produced : Nat) (r : reader β) (nx : Nat),
      r.schema_ ≠ [] → r.next_ = nx % r.schema_.length → 0 < r.num_events_ →
      (slice_sizes (min (max_events - produced) r.num_events_) max_slice_size).length + 1 ≤
        fuel →
      ∃ r1, read_loop env max_events max_slice_size fuel produced r =
          some (if r.num_events_ ≤ max_events - produced then some ec.end_of_input else none,
            r1) ∧
        r1.out = r.out ++ cycle_layouts r.schema_ nx
          (slice_sizes (min (max_events - produced) r.num_events_) max_slice_size) := by
  intro fuel
  induction fuel with
  | zero =>
    intro produced r nx _ _ _ hfuel
    omega
  | succ n ih =>
    intro produced r nx hsch hnext hR hfuel
    have hlen : 0 < r.schema_.length := List.length_pos.2 hsch
    by_cases hp : produced < max_events
    · have hT : 0 < min (max_events - produced) r.num_events_ := by omega
      have hrows : min r.num_events_ (min (max_events - produced) max_slice_size) =
          min (min (max_events - produced) r.num_events_) max_slice_size := by omega
      have hrpos : 0 < min (min (max_events - produced) r.num_events_) max_slice_size := by
        omega
      have hsizes := slice_sizes_pos _ max_slice_size hT hmss
      rw [hsizes] at hfuel ⊢
      rw [read_loop]
      simp only [hp, if_true, hadd, hfin, Bool.and_false, Bool.false_eq_true, if_false, hrows,
        hrpos]
      by_cases heq : r.num_events_ = min (min (max_events - produced) r.num_events_) max_slice_size
      · have hle : r.num_events_ ≤ max_events - produced := by omega
        have hzero : min (max_events - produced) r.num_events_ -
            min (min (max_events - produced) r.num_events_) max_slice_size = 0 := by omega
        rw [if_pos heq, if_pos hle, hzero, slice_sizes_zero]
        exact ⟨_, rfl, by simp [cycle_layouts, hnext]⟩
      · rw [if_neg heq]
        have hrest : min (max_events - (produced +
              min (min (max_events - produced) r.num_events_) max_slice_size))
            (r.num_events_ - min (min (max_events - produced) r.num_events_) max_slice_size) =
            min (max_events - produced) r.num_events_ -
              min (min (max_events - produced) r.num_events_) max_slice_size := by omega
        obtain ⟨r1, h1, h2⟩ := ih
          (produced + min (min (max_events - produced) r.num_events_) max_slice_size)
          { r with
            out := r.out ++ [(r.schema_.getD r.next_ default,
              min (min (max_events - produced) r.num_events_) max_slice_size)]
            num_events_ := r.num_events_ -
              min (min (max_events - produced) r.num_events_) max_slice_size
            next_ :=
              if 1 < r.schema_.length then
                (if r.next_ + 1 = r.schema_.length then 0 else r.next_ + 1)
              else r.next_ }
          (nx + 1) hsch
          (by
            show (if 1 < r.schema_.length then
                (if r.next_ + 1 = r.schema_.length then 0 else r.next_ + 1)
              else r.next_) = (nx + 1) % r.schema_.length
            rw [hnext]
            exact next_step _ nx hlen)
          (by
            show 0 < r.num_events_ -
              min (min (max_events - produced) r.num_events_) max_slice_size
            omega)
          (by
            show (slice_sizes (min (max_events - (produced +
                min (min (max_events - produced) r.num_events_) max_slice_size))
              (r.num_events_ - min (min (max_events - produced) r.num_events_) max_slice_size))
              max_slice_size).length + 1 ≤ n
            rw [hrest]
            simp only [List.length_cons] at hfuel
            omega)
        refine ⟨r1, ?_, ?_⟩
        · rw [h1]
          have hc : (r.num_events_ -
                min (min (max_events - produced) r.num_events_) max_slice_size ≤
              max_events - (produced +
                min (min (max_events - produced) r.num_events_) max_slice_size)) ↔
              (r.num_events_ ≤ max_events - produced) := by omega
          simp only [hc]
        · rw [h2]
          simp only [hrest, cycle_layouts, hnext, List.append_assoc, List.singleton_append]
    · have hz : min (max_events - produced) r.num_events_ = 0 := by omega
      have hc : ¬ (r.num_events_ ≤ max_events - produced) := by omega
      rw [hz, slice_sizes_zero, read_loop]
      simp only [hp, if_false, hc]
      exact ⟨r, rfl, by simp [cycle_layouts]⟩

end vast.format.test

namespace vast.format.test

theorem slice_sizes_bound (total max_slice_size : Nat) (hm : 0 < max_slice_size) :
    ∀ s ∈ slice_sizes total max_slice_size, 0 < s ∧ s ≤ max_slice_size := by
  intro s hs
  simp only [slice_sizes, List.mem_append, List.mem_replicate] at hs
  rcases hs with ⟨_, h⟩ | hs
  · omega
  · split at hs
    · cases hs
    · simp only [List.mem_singleton] at hs
      have := Nat.mod_lt total hm
      omega

/-- Every slice but the last has `max_slice_size` rows. -/
theorem slice_sizes_full (total max_slice_size j : Nat)
    (hj : j + 1 < (slice_sizes total max_slice_size).length) :
    (slice_sizes total max_slice_size).getD j 0 = max_slice_size := by
  have hlen := slice_sizes_length_le total max_slice_size
  have hjlt : j < (List.replicate (total / max_slice_size) max_slice_size).length := by
    rw [List.length_replicate]
    omega
  rw [slice_sizes, List.getD_eq_getElem?_getD, List.getElem?_append_left hjlt,
    List.getElem?_replicate]
  rw [List.length_replicate] at hjlt
  simp [hjlt]

theorem cycle_layouts_rows (schema : List schema_type) (sizes : List Nat) (nx : Nat) :
    (cycle_layouts schema nx sizes).map Prod.snd = sizes := by
  induction sizes generalizing nx with
  | nil => rfl
  | cons s rest ih => simp [cycle_layouts, ih]

/-- Slice `j` takes the layout at position `next + j` of the schema, modulo its
length. -/
theorem cycle_layouts_layout (schema : List schema_type) (sizes : List Nat) (nx j : Nat)
    (hj : j < sizes.length) :
    ((cycle_layouts schema nx sizes).map Prod.fst).getD j default =
      schema.getD ((nx + j) % schema.length) default := by
  induction sizes generalizing nx j with
  | nil => simp at hj
  | cons s rest ih =>
    cases j with
    | zero => simp [cycle_layouts]
    | succ j =>
      simp only [List.length_cons] at hj
      have := ih (nx + 1) j (by omega)
      simp only [cycle_layouts, List.map_cons, List.getD_cons_succ]
      rw [this]
      congr 2
      omega

/-- With an empty schema a call first installs the default schema. -/
theorem read_impl_default {β : Type} (env : environment β)
    (max_events max_slice_size fuel : Nat) (r : reader β) (bp : β) (hsch : r.schema_ = [])
    (hbp : env.make_blueprint (default_schema.headD default) = some bp)
    (hbn : env.builder_null (default_schema.headD default) = false)
    (hR : 0 < r.num_events_) :
    read_impl env max_events max_slice_size fuel r =
      read_loop env max_events max_slice_size fuel 0
        { r with
          schema_ := default_schema
          blueprints_ := [(default_schema.headD default, bp)]
          next_ := 0 } := by
  have htest : is_test_type (default_schema.headD default) = true := by decide
  have hloop : schema_loop env default_schema [] [] =
      .ok ([default_schema.headD default], [(default_schema.headD default, bp)]) := by
    show schema_loop env [default_schema.headD default] [] [] = _
    simp only [schema_loop, htest, if_true, hbp, hbn, Bool.false_eq_true, if_false,
      List.nil_append, emplace, List.any_nil]
  have hs : schema env default_schema r =
      (none, { r with
        schema_ := default_schema
        blueprints_ := [(default_schema.headD default, bp)]
        next_ := 0 }) := by
    unfold schema
    rw [hloop]
    rfl
  have hne : ¬ r.num_events_ = 0 := by omega
  unfold read_impl
  simp only [hsch, List.isEmpty_nil, if_true, hs, hne, if_false]

/-- C27.  For the test reader with `R > 0` events remaining, whose builders do not fail,
a call `read_impl(max_events, max_slice_size)` with `max_slice_size > 0` returns after at
most `min(max_events, R) / max_slice_size + 2` rounds of its loop.  It hands out slices
whose row counts sum to `min(max_events, R)`: slices of `max_slice_size` rows followed by
one slice with the rest, if any; the layouts of consecutive slices are those of the
schema in order from the position `next_` on, wrapping around (those of the default
schema when the reader has none).  It returns `end_of_input` when `R <= max_events` and
`ok` otherwise. -/
theorem read_impl_slices {β : Type} (env : environment β)
    (max_events max_slice_size fuel : Nat) (r : reader β)
    (hadd : ∀ t, env.add_fails t = false) (hfin : ∀ t, env.finish_fails t = false)
    (hdef : r.schema_ = [] →
      env.make_blueprint (default_schema.headD default) ≠ none ∧
        env.builder_null (default_schema.headD default) = false)
    (hnext : r.schema_ ≠ [] → r.next_ < r.schema_.length)
    (hR : 0 < r.num_events_) (hmss : 0 < max_slice_size)
    (hfuel : min max_events r.num_events_ / max_slice_size + 2 ≤ fuel) :
    ∃ r1, read_impl env max_events max_slice_size fuel r =
        some (if r.num_events_ ≤ max_events then some ec.end_of_input else none, r1) ∧
      r1.out = r.out ++
        cycle_layouts (if r.schema_.isEmpty then default_schema else r.schema_)
          (if r.schema_.isEmpty then 0 else r.next_)
          (slice_sizes (min max_events r.num_events_) max_slice_size) ∧
      (slice_sizes (min max_events r.num_events_) max_slice_size).sum =
        min max_events r.num_events_ ∧
      (∀ s ∈ slice_sizes (min max_events r.num_events_) max_slice_size,
        0 < s ∧ s ≤ max_slice_size) ∧
      (∀ j, j + 1 < (slice_sizes (min max_events r.num_events_) max_slice_size).length →
        (slice_sizes (min max_events r.num_events_) max_slice_size).getD j 0 =
          max_slice_size) ∧
      events_produced r1 = events_produced r + min max_events r.num_events_ := by
  have hlen := slice_sizes_length_le (min max_events r.num_events_) max_slice_size
  have key : ∃ r1, read_impl env max_events max_slice_size fuel r =
        some (if r.num_events_ ≤ max_events then some ec.end_of_input else none, r1) ∧
      r1.out = r.out ++
        cycle_layouts (if r.schema_.isEmpty then default_schema else r.schema_)
          (if r.schema_.isEmpty then 0 else r.next_)
          (slice_sizes (min max_events r.num_events_) max_slice_size) := by
    by_cases hsch : r.schema_ = []
    · obtain ⟨h1, h2⟩ := hdef hsch
      obtain ⟨bp, hbp⟩ := Option.ne_none_iff_exists'.1 h1
      rw [read_impl_default env max_events max_slice_size fuel r bp hsch hbp h2 hR]
      obtain ⟨r1, g1, g2⟩ := read_loop_slices env max_events max_slice_size hadd hfin hmss
        fuel 0
        { r with
          schema_ := default_schema
          blueprints_ := [(default_schema.headD default, bp)]
          next_ := 0 } 0 (by show default_schema ≠ []; decide) rfl hR
        (by simp only [Nat.sub_zero]; omega)
      simp only [Nat.sub_zero] at g1 g2
      exact ⟨r1, g1, by simp only [hsch, List.isEmpty_nil, if_true]; exact g2⟩
    · have hne : ¬ r.num_events_ = 0 := by omega
      have himpl : read_impl env max_events max_slice_size fuel r =
          read_loop env max_events max_slice_size fuel 0 r := by
        unfold read_impl
        have he : r.schema_.isEmpty = false := by
          cases hq : r.schema_ with
          | nil => exact absurd hq hsch
          | cons _ _ => rfl
        simp only [he, Bool.false_eq_true, if_false, hne]
      rw [himpl]
      obtain ⟨r1, g1, g2⟩ := read_loop_slices env max_events max_slice_size hadd hfin hmss
        fuel 0 r r.next_ hsch (Nat.mod_eq_of_lt (hnext hsch)).symm hR
        (by simp only [Nat.sub_zero]; omega)
      simp only [Nat.sub_zero] at g1 g2
      have he : r.schema_.isEmpty = false := by
        cases hq : r.schema_ with
        | nil => exact absurd hq hsch
        | cons _ _ => rfl
      exact ⟨r1, g1, by simp only [he, Bool.false_eq_true, if_false]; exact g2⟩
  obtain ⟨r1, k1, k2⟩ := key
  refine ⟨r1, k1, k2, slice_sizes_sum _ _, slice_sizes_bound _ _ hmss,
    fun j hj => slice_sizes_full _ _ j hj, ?_⟩
  unfold events_produced
  rw [k2, List.map_append, List.sum_append, cycle_layouts_rows, slice_sizes_sum]

/-- C27 at a reader with the two layouts `test.a` and `test.b`, standing at the second
one, with 25 events remaining: `read_impl(100, 10)` hands out slices of 10, 10 and 5 rows
with the layouts `test.b`, `test.a`, `test.b` and returns `end_of_input`;
`read_impl(20, 10)` hands out two slices of 10 rows and returns `ok`. -/
theorem read_impl_slices_witness :
    (∃ r1, read_impl plain_environment 100 10 4
          ⟨[⟨['t', 'e', 's', 't', '.', 'a']⟩, ⟨['t', 'e', 's', 't', '.', 'b']⟩], [], 1, 25, []⟩ =
        some (some ec.end_of_input, r1) ∧
      r1.out = [(⟨['t', 'e', 's', 't', '.', 'b']⟩, 10), (⟨['t', 'e', 's', 't', '.', 'a']⟩, 10),
        (⟨['t', 'e', 's', 't', '.', 'b']⟩, 5)]) ∧
      read_impl plain_environment 20 10 4
          ⟨[⟨['t', 'e', 's', 't', '.', 'a']⟩, ⟨['t', 'e', 's', 't', '.', 'b']⟩], [], 1, 25, []⟩ =
        some (none,
          ⟨[⟨['t', 'e', 's', 't', '.', 'a']⟩, ⟨['t', 'e', 's', 't', '.', 'b']⟩], [], 1, 5,
            [(⟨['t', 'e', 's', 't', '.', 'b']⟩, 10), (⟨['t', 'e', 's', 't', '.', 'a']⟩, 10)]⟩) := by
  refine ⟨?_, by decide⟩
  obtain ⟨r1, h1, h2, _⟩ := read_impl_slices plain_environment 100 10 4
    ⟨[⟨['t', 'e', 's', 't', '.', 'a']⟩, ⟨['t', 'e', 's', 't', '.', 'b']⟩], [], 1, 25, []⟩
    (fun _ => rfl) (fun _ => rfl) (fun h => by cases h) (fun _ => by decide) (by decide)
    (by decide) (by decide)
  exact ⟨r1, h1, h2⟩

end vast.format.test
